import Mathlib

/-!
# A shallow embedding of the JSON schema validator

The Go package compiles a decoded schema description into a tree of
type-tagged predicate sets (`createSchemaFromJSON`) and walks a decoded
target against it (`validate`).  This file transcribes that code into Lean
and proves properties of the transcription.

Modelling conventions.

* A Go `any` is a value of `Any`.  Decoded JSON uses the constructors `nil`,
  `bool`, `float64`, `string`, `slice` and `map`; `int` is the Go `int` that
  `validate` hands to the predicates of an integer schema; `valueType`,
  `strings` and `regexp` only occur as fields of an `Error`.
* A `float64` is a rational number.  Every value that `encoding/json`
  decodes is a finite double, hence a rational, and the comparisons of the
  source are exact on them.
* The quotient of two floats is the exact quotient rounded to the nearest
  double, ties to even (`roundFloat64`, `float64Div`); a quotient that is not
  finite is `none`.
* A Go `int` is an `Int` of the signed 64 bit range.  The conversion
  `int(v)` truncates towards zero; when the truncation leaves the range the
  model returns `-2^63`, the result of the amd64 conversion instruction (the
  language leaves that case to the implementation).  `float64(i)` is the
  embedding of `Int` in the rationals: every `int` the source converts back is
  either the truncation of a double or `-2^63`, which doubles represent
  exactly.
* A Go map is an association list; the order of the list is the order in
  which a `range` loop visits it, so a statement about all lists is a statement
  about all iteration orders.  `len` of a map is the length of the list (the
  keys of a Go map are distinct).
* A Go string is a `String`; `len` is the number of bytes of its UTF-8
  encoding.
* Code that may panic returns a `Go` value: `ret` for a normal return,
  `panic` for a run-time panic.
* The standard library (regular expressions, time, mail, url, net, uuid) is
  not part of the repository; it is a parameter `lib : Lib`.
* The arguments of the entry point `Validate` are values of `Arg`, which
  records what `reflect` reports of a Go value; reading URLs and files and
  the functions of `encoding/json` are a parameter `w : World`.
-/

namespace JsonSchema

/-- Go values of dynamic type, as far as the validator meets them. -/
inductive Any where
  | nil : Any
  | bool (b : Bool) : Any
  | float64 (f : ℚ) : Any
  | int (i : Int) : Any
  | string (s : String) : Any
  | slice (xs : List Any) : Any
  | map (kvs : List (String × Any)) : Any
  | valueType (t : String) : Any
  | strings (ks : List String) : Any
  | regexp (src : String) : Any

/-- Result of running Go code: a normal return or a run-time panic. -/
inductive Go (α : Type) where
  | ret (a : α) : Go α
  | panic (msg : String) : Go α

/-- Sequencing of Go code: a panic aborts what follows. -/
def Go.bind {α β : Type} (x : Go α) (k : α → Go β) : Go β :=
  match x with
  | .ret a => k a
  | .panic msg => .panic msg

/-- The type `Error` of errors.go. -/
structure Error where
  expect : Any
  got : Any
  name : String

/-- `NewError` of errors.go: the name is left empty. -/
def NewError (expect got : Any) : Error := ⟨expect, got, ""⟩

/-- `(*Error).SetName` of errors.go. -/
def Error.SetName (e : Error) (name : String) : Error :=
  if e.name ≠ "" then e else ⟨e.expect, e.got, name⟩

/-- `reflect.ValueOf(v).Kind().String()`. -/
def kindString : Any → String
  | .nil => "invalid"
  | .bool _ => "bool"
  | .float64 _ => "float64"
  | .int _ => "int"
  | .string _ => "string"
  | .slice _ => "slice"
  | .map _ => "map"
  | .valueType _ => "string"
  | .strings _ => "slice"
  | .regexp _ => "ptr"

/-- The conversion `int(v)` of a float64 (amd64). -/
def intOfFloat64 (v : ℚ) : Int :=
  let t := Int.tdiv v.num v.den
  if -2 ^ 63 ≤ t ∧ t < 2 ^ 63 then t else -2 ^ 63

/-- The conversion `float64(i)` of an int. -/
def float64OfInt (i : Int) : ℚ := (i : ℚ)

/-- The type `ValueType` of json.go: a string. -/
abbrev ValueType := String

@[simp] def ValueType.String : ValueType := "string"
@[simp] def ValueType.Integer : ValueType := "integer"
@[simp] def ValueType.Number : ValueType := "number"
@[simp] def ValueType.Object : ValueType := "object"
@[simp] def ValueType.Array : ValueType := "array"
@[simp] def ValueType.Boolean : ValueType := "boolean"
@[simp] def ValueType.Null : ValueType := "null"

/-- `validateValueType` of json.go. -/
def validateValueType (value : ValueType) : Bool :=
  value = ValueType.String ∨ value = ValueType.Integer ∨ value = ValueType.Number ∨
    value = ValueType.Object ∨ value = ValueType.Array ∨ value = ValueType.Boolean ∨
    value = ValueType.Null

/-- The type `validateFunc` of json.go: a compiled predicate. -/
abbrev validateFunc := Any → Go (Option Error)

/-- The result pair `(func, error)` of a builder, which may also panic. -/
abbrev Built := Go (Except String validateFunc)

/-- The type `rawValidateFunc` of json.go: a keyword builder. -/
abbrev rawValidateFunc := Any → Built

/-- The type `Schema` of json.go.  The maps are association lists. -/
inductive Schema where
  | mk (valueType : ValueType) (validateFunc : List (String × validateFunc))
      (properties : List (String × Schema)) : Schema

/-- Field `valueType` of a schema. -/
def Schema.valueType : Schema → ValueType
  | .mk vt _ _ => vt

/-- Field `validateFunc` of a schema. -/
def Schema.validateFunc : Schema → List (String × validateFunc)
  | .mk _ fs _ => fs

/-- Field `properties` of a schema. -/
def Schema.properties : Schema → List (String × Schema)
  | .mk _ _ ps => ps

/-- The loop of `validateValue` over the predicates of a node. -/
def validateValueLoop (target : Any) : List (String × validateFunc) → Go (Option Error)
  | [] => .ret none
  | (name, value) :: rest =>
    (value target).bind fun err =>
      match err with
      | some e => .ret (some (e.SetName name))
      | none => validateValueLoop target rest

/-- `validateValue` of json.go. -/
def validateValue (target : Any) (schema : Schema) : Go (Option Error) :=
  validateValueLoop target schema.validateFunc

/-- `validate` of json.go. -/
def validate (target : Any) (schema : Schema) : Go (Option Error) :=
  if schema.valueType = ValueType.String then
    match target with
    | .string _ => validateValue target schema
    | _ => .ret (some (NewError (.string "string") (.string (kindString target))))
  else if schema.valueType = ValueType.Integer then
    match target with
    | .float64 v =>
      if float64OfInt (intOfFloat64 v) ≠ v then
        .ret (some (NewError (.string "int") (.string "float64")))
      else validateValue (.int (intOfFloat64 v)) schema
    | _ => .ret (some (NewError (.string "int") (.string (kindString target))))
  else if schema.valueType = ValueType.Number then
    match target with
    | .float64 _ => validateValue target schema
    | _ => .ret (some (NewError (.string "float64") (.string (kindString target))))
  else if schema.valueType = ValueType.Boolean then
    match target with
    | .bool _ => validateValue target schema
    | _ => .ret (some (NewError (.string "bool") (.string (kindString target))))
  else if schema.valueType = ValueType.Null then
    match target with
    | .nil => .ret none
    | _ => .ret (some (NewError (.string "null") (.string (kindString target))))
  else if schema.valueType = ValueType.Array then
    match target with
    | .slice _ => validateValue target schema
    | _ => .ret (some (NewError (.string "slice") (.string (kindString target))))
  else if schema.valueType = ValueType.Object then
    match target with
    | .map _ => validateValue target schema
    | _ => .ret (some (NewError (.string "object") (.string (kindString target))))
  else .ret none

/-- `getValueType` of json.go; the argument is the result of the map lookup
`values["type"]`, `none` when the key is absent (a nil interface). -/
def getValueType (value : Option Any) : Option ValueType :=
  match value with
  | some (.string valueType) =>
    if validateValueType valueType then some valueType else none
  | _ => none

/-- The parts of the Go standard library that the keyword builders call.
A compiled regular expression is represented by its source text. -/
structure Lib where
  /-- The function `regexp.Compile`: `some msg` when the text does not compile. -/
  regexpCompile : String → Option String
  /-- The method `(*Regexp).MatchString`, by the source of the expression. -/
  matchString : String → String → Bool
  /-- The function `time.Parse` with a layout: true when it returns no error. -/
  timeParse : String → String → Bool
  /-- The function `time.ParseDuration`: true when it returns no error. -/
  parseDuration : String → Bool
  /-- The function `mail.ParseAddress`: true when it returns no error. -/
  parseAddress : String → Bool
  /-- The function `url.Parse`: true when it returns no error. -/
  urlParse : String → Bool
  /-- The function `net.ParseIP`: true when the result is not nil. -/
  parseIP : String → Bool
  /-- The function `uuid.Parse`: true when it returns no error. -/
  uuidParse : String → Bool
  /-- The text that `fmt.Sprintf` prints for the verb `%v`. -/
  formatV : Any → String

/-- Rounding of a rational to an integer, ties to the even neighbour. -/
def roundHalfEven (m : ℚ) : Int :=
  let f := Int.floor m
  let d := m - f
  if d < 1 / 2 then f
  else if 1 / 2 < d then f + 1
  else if f % 2 = 0 then f else f + 1

/-- Rounding of a rational to the nearest float64 (53 bit significand, the
exponent not below that of the subnormal numbers); `none` on overflow. -/
def roundFloat64 (q : ℚ) : Option ℚ :=
  if q = 0 then some 0
  else
    let e := max (Int.log 2 |q|) (-1022)
    let u : ℚ := (2 : ℚ) ^ (e - 52)
    let r : ℚ := (roundHalfEven (q / u) : ℚ) * u
    if |r| < (2 : ℚ) ^ (1024 : Int) then some r else none

/-- The float64 quotient `a / v` when it is a finite number: `none` stands for
an infinity or a NaN (division by zero, overflow). -/
def float64Div (a v : ℚ) : Option ℚ :=
  if v = 0 then none else roundFloat64 (a / v)

/-- The Go `len` of a string: the number of bytes. -/
def strLen (s : String) : Int := (s.utf8ByteSize : Int)

/-- The predicate returned by `format` for a parser of the library. -/
def formatCheck (format : String) (parses : String → Bool) : validateFunc := fun a =>
  match a with
  | .string v => if parses v then .ret none else .ret (some (NewError (.string format) (.string v)))
  | _ => .panic "interface conversion"

/-- `format` of string.go. -/
def format (lib : Lib) (format : Any) : Built :=
  match format with
  | .string format =>
    if format = "date-time" then
      .ret (.ok (formatCheck format (lib.timeParse "2006-01-02T15:04:05Z07:00")))
    else if format = "date" then .ret (.ok (formatCheck format (lib.timeParse "2006-01-02")))
    else if format = "time" then .ret (.ok (formatCheck format (lib.timeParse "15:04:05")))
    else if format = "duration" then .ret (.ok (formatCheck format lib.parseDuration))
    else if format = "regex" then
      .ret (.ok (formatCheck format fun v => (lib.regexpCompile v).isNone))
    else if format = "email" then .ret (.ok (formatCheck format lib.parseAddress))
    else if format = "hostname" ∨ format = "uri" then
      .ret (.ok (formatCheck format lib.urlParse))
    else if format = "ipv4" ∨ format = "ipv6" then .ret (.ok (formatCheck format lib.parseIP))
    else if format = "uuid" then .ret (.ok (formatCheck format lib.uuidParse))
    else .ret (.error "unknown format for str")
  | _ => .ret (.error "format requires string")

/-- `pattern` of string.go. -/
def pattern (lib : Lib) (pattern : Any) : Built :=
  match pattern with
  | .string v =>
    match lib.regexpCompile v with
    | some err => .ret (.error err)
    | none => .ret (.ok fun a =>
        match a with
        | .string s =>
          if lib.matchString v s then .ret none
          else .ret (some (NewError (.regexp v) (.string s)))
        | _ => .panic "interface conversion")
  | _ => .ret (.error "pattern requires string")

/-- `maxLength` of string.go. -/
def maxLength (max : Any) : Built :=
  match max with
  | .float64 v =>
    if float64OfInt (intOfFloat64 v) ≠ v then .ret (.error "maxLength requires integer")
    else .ret (.ok fun a =>
      match a with
      | .string s =>
        if intOfFloat64 v ≥ strLen s then .ret none
        else .ret (some (NewError (.int (intOfFloat64 v)) (.int (strLen s))))
      | _ => .panic "interface conversion")
  | _ => .ret (.error "maxLength requires integer")

/-- `minLength` of string.go. -/
def minLength (min : Any) : Built :=
  match min with
  | .float64 v =>
    if float64OfInt (intOfFloat64 v) ≠ v then .ret (.error "minLength requires integer")
    else .ret (.ok fun a =>
      match a with
      | .string s =>
        if intOfFloat64 v ≤ strLen s then .ret none
        else .ret (some (NewError (.int (intOfFloat64 v)) (.int (strLen s))))
      | _ => .panic "interface conversion")
  | _ => .ret (.error "minLength requires integer")

/-- The type `rawValidation` of json.go. -/
structure rawValidation where
  function : rawValidateFunc
  requires : List String

/-- `stringValidation` of string.go, in the order of the source text. -/
def stringValidation (lib : Lib) : List (String × rawValidation) :=
  [("minLength", ⟨minLength, []⟩), ("maxLength", ⟨maxLength, []⟩),
   ("pattern", ⟨pattern lib, []⟩), ("format", ⟨format lib, []⟩)]

/-- `multipleOf` of number.go.  A quotient that is not finite is never equal
to the conversion of an int, so the predicate reports an error for it. -/
def multipleOf (value : Any) : Built :=
  match value with
  | .float64 v => .ret (.ok fun a =>
      match a with
      | .float64 t =>
        match float64Div t v with
        | some check =>
          if float64OfInt (intOfFloat64 check) = check then .ret none
          else .ret (some (NewError (.float64 v) (.float64 t)))
        | none => .ret (some (NewError (.float64 v) (.float64 t)))
      | _ => .panic "interface conversion")
  | _ => .ret (.error "multipleOf requires number")

/-- `exclusiveMaximum` of number.go. -/
def exclusiveMaximum (max : Any) : Built :=
  match max with
  | .float64 v => .ret (.ok fun a =>
      match a with
      | .float64 t =>
        if v > t then .ret none else .ret (some (NewError (.float64 v) (.float64 t)))
      | _ => .panic "interface conversion")
  | _ => .ret (.error "exclusiveMaximum requires number")

/-- `maximum` of number.go. -/
def maximum (max : Any) : Built :=
  match max with
  | .float64 v => .ret (.ok fun a =>
      match a with
      | .float64 t =>
        if v ≥ t then .ret none else .ret (some (NewError (.float64 v) (.float64 t)))
      | _ => .panic "interface conversion")
  | _ => .ret (.error "maximum requires number")

/-- `exclusiveMinimum` of number.go. -/
def exclusiveMinimum (min : Any) : Built :=
  match min with
  | .float64 v => .ret (.ok fun a =>
      match a with
      | .float64 t =>
        if v < t then .ret none else .ret (some (NewError (.float64 v) (.float64 t)))
      | _ => .panic "interface conversion")
  | _ => .ret (.error "minimum requires number")

/-- `minimum` of number.go. -/
def minimum (min : Any) : Built :=
  match min with
  | .float64 v => .ret (.ok fun a =>
      match a with
      | .float64 t =>
        if v ≤ t then .ret none else .ret (some (NewError (.float64 v) (.float64 t)))
      | _ => .panic "interface conversion")
  | _ => .ret (.error "minimum requires number")

/-- `numberValidation` of number.go, in the order of the source text. -/
def numberValidation : List (String × rawValidation) :=
  [("minimum", ⟨minimum, []⟩), ("exclusiveMinimum", ⟨exclusiveMinimum, []⟩),
   ("maximum", ⟨maximum, []⟩), ("exclusiveMaximum", ⟨exclusiveMaximum, []⟩),
   ("multipleOf", ⟨multipleOf, []⟩)]

/-- `multipleOfInteger` of integer.go. -/
def multipleOfInteger (value : Any) : Built :=
  match value with
  | .float64 v =>
    if float64OfInt (intOfFloat64 v) ≠ v then .ret (.error "multipleOf requires integer")
    else .ret (.ok fun a =>
      match a with
      | .int t =>
        match float64Div (float64OfInt t) v with
        | some check =>
          if float64OfInt (intOfFloat64 check) ≠ check then
            .ret (some (NewError (.float64 v) a))
          else .ret none
        | none => .ret (some (NewError (.float64 v) a))
      | _ => .panic "interface conversion")
  | _ => .ret (.error "multipleOf requires integer")

/-- `exclusiveMaximumInteger` of integer.go. -/
def exclusiveMaximumInteger (max : Any) : Built :=
  match max with
  | .float64 v =>
    if float64OfInt (intOfFloat64 v) ≠ v then .ret (.error "exclusiveMaximum requires integer")
    else .ret (.ok fun a =>
      match a with
      | .int t =>
        if v > float64OfInt t then .ret none
        else .ret (some (NewError (.float64 (float64OfInt t)) (.float64 v)))
      | _ => .panic "interface conversion")
  | _ => .ret (.error "exclusiveMaximum requires integer")

/-- `maximumInteger` of integer.go. -/
def maximumInteger (max : Any) : Built :=
  match max with
  | .float64 v =>
    if float64OfInt (intOfFloat64 v) ≠ v then .ret (.error "maximum requires integer")
    else .ret (.ok fun a =>
      match a with
      | .int t =>
        if v ≥ float64OfInt t then .ret none
        else .ret (some (NewError (.float64 (float64OfInt t)) (.float64 v)))
      | _ => .panic "interface conversion")
  | _ => .ret (.error "maximum requires integer")

/-- `exclusiveMinimumInteger` of integer.go. -/
def exclusiveMinimumInteger (min : Any) : Built :=
  match min with
  | .float64 v =>
    if float64OfInt (intOfFloat64 v) ≠ v then .ret (.error "minimum requires integer")
    else .ret (.ok fun a =>
      match a with
      | .int t =>
        if v < float64OfInt t then .ret none
        else .ret (some (NewError (.float64 (float64OfInt t)) (.float64 v)))
      | _ => .panic "interface conversion")
  | _ => .ret (.error "minimum requires integer")

/-- `minimumInteger` of integer.go. -/
def minimumInteger (min : Any) : Built :=
  match min with
  | .float64 v =>
    if float64OfInt (intOfFloat64 v) ≠ v then .ret (.error "minimum requires integer")
    else .ret (.ok fun a =>
      match a with
      | .int t =>
        if v ≤ float64OfInt t then .ret none
        else .ret (some (NewError (.float64 (float64OfInt t)) (.float64 v)))
      | _ => .panic "interface conversion")
  | _ => .ret (.error "minimum requires integer")

/-- `integerValidation` of integer.go, in the order of the source text. -/
def integerValidation : List (String × rawValidation) :=
  [("minimum", ⟨minimumInteger, []⟩), ("exclusiveMinimum", ⟨exclusiveMinimumInteger, []⟩),
   ("maximum", ⟨maximumInteger, []⟩), ("exclusiveMaximum", ⟨exclusiveMaximumInteger, []⟩),
   ("multipleOf", ⟨multipleOfInteger, []⟩)]

/-- The loop `for name, validation := range registry` that `itemsMap`,
`propertyNames` and `patternProperties` run over a registry of the scalar
types: every keyword present in `values` is built, without siblings. -/
def buildKeywords (values : List (String × Any)) :
    List (String × rawValidation) → Go (Except String (List (String × validateFunc)))
  | [] => .ret (.ok [])
  | (name, validation) :: rest =>
    match values.lookup name with
    | none => buildKeywords values rest
    | some value =>
      (validation.function value).bind fun r =>
        match r with
        | .error err => .ret (.error err)
        | .ok validate =>
          (buildKeywords values rest).bind fun rs =>
            match rs with
            | .error err => .ret (.error err)
            | .ok fs => .ret (.ok ((name, validate) :: fs))

/-- The first loop of `itemsSlice`: the declared type of every position. -/
def itemsSliceTypes : List Any → Go (Except String (List ValueType))
  | [] => .ret (.ok [])
  | value :: rest =>
    match value with
    | .map kvs =>
      match getValueType (kvs.lookup "type") with
      | none => .ret (.error "maxContains requires valid type")
      | some valueType =>
        (itemsSliceTypes rest).bind fun r =>
          match r with
          | .error err => .ret (.error err)
          | .ok res => .ret (.ok (valueType :: res))
    | _ => .panic "interface conversion"

/-- The loop of the predicate of `itemsSlice`, from position `i` on. -/
def itemsSliceCheck (a : Any) : Nat → List ValueType → Go (Option Error)
  | _, [] => .ret none
  | i, valueType :: rest =>
    match a with
    | .slice xs =>
      match xs.get? i with
      | none => .panic "index out of range"
      | some x =>
        (validate x (Schema.mk valueType [] [])).bind fun err =>
          match err with
          | some _ => .ret (some (NewError (.valueType valueType) x))
          | none => itemsSliceCheck a (i + 1) rest
    | _ => .panic "interface conversion"

/-- `itemsSlice` of slice.go. -/
def itemsSlice (value : List Any) : Built :=
  (itemsSliceTypes value).bind fun r =>
    match r with
    | .error err => .ret (.error err)
    | .ok res => .ret (.ok fun a => itemsSliceCheck a 0 res)

/-- The loop of a predicate that validates every element against one schema
and returns the first error. -/
def validateEach (schema : Schema) : List Any → Go (Option Error)
  | [] => .ret none
  | target :: rest =>
    (validate target schema).bind fun err =>
      match err with
      | some e => .ret (some e)
      | none => validateEach schema rest

/-- The registry that `itemsMap` and `patternProperties` consult for a type. -/
def scalarRegistry (lib : Lib) (valueType : ValueType) : List (String × rawValidation) :=
  if valueType = ValueType.Integer then integerValidation
  else if valueType = ValueType.String then stringValidation lib
  else if valueType = ValueType.Number then numberValidation
  else []

/-- `itemsMap` of slice.go. -/
def itemsMap (lib : Lib) (values : List (String × Any)) : Built :=
  match getValueType (values.lookup "type") with
  | none => .ret (.error "maxContains requires valid type")
  | some valueType =>
    (buildKeywords values (scalarRegistry lib valueType)).bind fun r =>
      match r with
      | .error err => .ret (.error err)
      | .ok fs => .ret (.ok fun a =>
          match a with
          | .slice xs => validateEach (Schema.mk valueType fs []) xs
          | _ => .panic "interface conversion")

/-- `items` of slice.go. -/
def items (lib : Lib) (value : Any) : Built :=
  match value with
  | .slice slice => itemsSlice slice
  | .map v => itemsMap lib v
  | _ => .ret (.error "items supports map or slice only")

/-- The counting loop of `maxContains` and `minContains`: the number of
elements that validate against the bare schema of the type. -/
def countCorrect (valueType : ValueType) : List Any → Go Int
  | [] => .ret 0
  | elem :: rest =>
    (validate elem (Schema.mk valueType [] [])).bind fun err =>
      (countCorrect valueType rest).bind fun correct =>
        match err with
        | none => .ret (correct + 1)
        | some _ => .ret correct

/-- `maxContains` of slice.go. -/
def maxContains (value : Any) : Built :=
  match value with
  | .slice v =>
    if (v.length : Int) < 2 then .ret (.error "maxContains requires 2 value")
    else
      match v.get? 1 with
      | some (.map checkType) =>
        match getValueType (checkType.lookup "type") with
        | none => .ret (.error "maxContains requires valid type")
        | some valueType =>
          match v.get? 0 with
          | some (.float64 checkMax) => .ret (.ok fun a =>
              match a with
              | .slice xs =>
                (countCorrect valueType xs).bind fun correct =>
                  if correct ≤ intOfFloat64 checkMax then .ret none
                  else .ret (some (NewError (.int (intOfFloat64 checkMax)) (.int correct)))
              | _ => .panic "interface conversion")
          | _ => .ret (.error "maxContains requires number")
      | _ => .ret (.error "maxContains requires type")
  | _ => .panic "interface conversion"

/-- `minContains` of slice.go. -/
def minContains (value : Any) : Built :=
  match value with
  | .slice v =>
    if (v.length : Int) < 2 then .ret (.error "minContains requires 2 value")
    else
      match v.get? 1 with
      | some (.map checkType) =>
        match getValueType (checkType.lookup "type") with
        | none => .ret (.error "minContains requires valid type")
        | some valueType =>
          match v.get? 0 with
          | some (.float64 checkMin) => .ret (.ok fun a =>
              match a with
              | .slice xs =>
                (countCorrect valueType xs).bind fun correct =>
                  if correct ≥ intOfFloat64 checkMin then .ret none
                  else .ret (some (NewError (.int (intOfFloat64 checkMin)) (.int correct)))
              | _ => .panic "interface conversion")
          | _ => .ret (.error "minContains requires number")
      | _ => .ret (.error "minContains requires type")
  | _ => .panic "interface conversion"

/-- The loop of the predicate of `contains`; `types` are the kinds met so
far, the keys of the set of the source.  The source collects the keys by a
range over a Go map, whose order is unspecified; the list here is in the order
of first insertion, one of the orders a run may produce, and the properties
below are stated on lists of at most one kind or not on the list at all. -/
def containsLoop (valueType : ValueType) (types : List String) :
    List Any → Go (Option Error)
  | [] => .ret (some (NewError (.valueType valueType) (.strings types)))
  | elem :: rest =>
    let types := if kindString elem ∈ types then types else types ++ [kindString elem]
    (validate elem (Schema.mk valueType [] [])).bind fun err =>
      match err with
      | none => .ret none
      | some _ => containsLoop valueType types rest

/-- `contains` of slice.go. -/
def contains (value : Any) : Built :=
  match value with
  | .map v =>
    match getValueType (v.lookup "type") with
    | none => .ret (.error "contains requires valid type")
    | some valueType => .ret (.ok fun a =>
        match a with
        | .slice xs => containsLoop valueType [] xs
        | _ => .panic "interface conversion")
  | _ => .ret (.error "contains requires type")

/-- Whether a value may be the key of a Go map of key type `any`: slices and
maps are not hashable. -/
def hashable : Any → Bool
  | .slice _ => false
  | .map _ => false
  | .strings _ => false
  | _ => true

/-- Equality of two hashable interface values: the same dynamic type and the
same value. -/
def keyEq : Any → Any → Bool
  | .nil, .nil => true
  | .bool a, .bool b => a = b
  | .float64 a, .float64 b => a = b
  | .int a, .int b => a = b
  | .string a, .string b => a = b
  | .valueType a, .valueType b => a = b
  | .regexp a, .regexp b => a = b
  | _, _ => false

/-- The loop of the predicate of `uniqueItems`; `check` holds the keys of the
map of the source.  Looking up a key that is not hashable panics. -/
def uniqueItemsLoop (lib : Lib) (check : List Any) : List Any → Go (Option Error)
  | [] => .ret none
  | elem :: rest =>
    if hashable elem then
      if check.any (keyEq elem) then
        .ret (some (NewError (.string "unique")
          (.string ("elem: " ++ lib.formatV elem ++ " duplicated"))))
      else uniqueItemsLoop lib (elem :: check) rest
    else .panic "hash of unhashable type"

/-- `uniqueItems` of slice.go. -/
def uniqueItems (lib : Lib) (value : Any) : Built :=
  match value with
  | .bool v => .ret (.ok fun a =>
      if !v then .ret none
      else
        match a with
        | .slice xs => uniqueItemsLoop lib [] xs
        | _ => .panic "interface conversion")
  | _ => .ret (.error "uniqueItems requires *Errorean")

/-- `maxItems` of slice.go. -/
def maxItems (value : Any) : Built :=
  match value with
  | .float64 v =>
    if float64OfInt (intOfFloat64 v) ≠ v then .ret (.error "maxItems requires integer")
    else .ret (.ok fun a =>
      match a with
      | .slice xs =>
        if (xs.length : Int) ≤ intOfFloat64 v then .ret none
        else .ret (some (NewError (.int (intOfFloat64 v)) (.int xs.length)))
      | _ => .panic "interface conversion")
  | _ => .ret (.error "maxItems requires integer")

/-- `minItems` of slice.go. -/
def minItems (value : Any) : Built :=
  match value with
  | .float64 v =>
    if float64OfInt (intOfFloat64 v) ≠ v then .ret (.error "minItems requires integer")
    else .ret (.ok fun a =>
      match a with
      | .slice xs =>
        if (xs.length : Int) ≥ intOfFloat64 v then .ret none
        else .ret (some (NewError (.int (intOfFloat64 v)) (.int xs.length)))
      | _ => .panic "interface conversion")
  | _ => .ret (.error "minItems requires integer")

/-- `sliceValidation` of slice.go, in the order of the source text. -/
def sliceValidation (lib : Lib) : List (String × rawValidation) :=
  [("minItems", ⟨minItems, []⟩), ("maxItems", ⟨maxItems, []⟩),
   ("uniqueItems", ⟨uniqueItems lib, []⟩), ("contains", ⟨contains, []⟩),
   ("minContains", ⟨minContains, ["contains"]⟩),
   ("maxContains", ⟨maxContains, ["contains"]⟩), ("items", ⟨items lib, []⟩)]

/-- The first loop of `properties`: the declared type of every property. -/
def propertiesTypes : List (String × Any) → Go (Except String (List (String × ValueType)))
  | [] => .ret (.ok [])
  | (name, value) :: rest =>
    match value with
    | .map kvs =>
      match getValueType (kvs.lookup "type") with
      | none => .ret (.error "properties requires valid type")
      | some valueType =>
        (propertiesTypes rest).bind fun r =>
          match r with
          | .error err => .ret (.error err)
          | .ok props => .ret (.ok ((name, valueType) :: props))
    | _ => .panic "interface conversion"

/-- The loop of the predicate of `properties`.  A name that `props` does not
hold yields the zero value of `ValueType`, the empty string. -/
def propertiesCheck (props : List (String × ValueType)) :
    List (String × Any) → Go (Option Error)
  | [] => .ret none
  | (name, value) :: rest =>
    (validate value (Schema.mk ((props.lookup name).getD "") [] [])).bind fun err =>
      match err with
      | some e => .ret (some e)
      | none => propertiesCheck props rest

/-- `properties` of object.go. -/
def properties (value : Any) : Built :=
  match value with
  | .map kvs =>
    (propertiesTypes kvs).bind fun r =>
      match r with
      | .error err => .ret (.error err)
      | .ok props => .ret (.ok fun a =>
          match a with
          | .map v => propertiesCheck props v
          | _ => .panic "interface conversion")
  | _ => .panic "interface conversion"

/-- The loop of the predicate of `required` over the configured names. -/
def requiredLoop (values : List (String × Any)) : List Any → Go (Option Error)
  | [] => .ret none
  | name :: rest =>
    match name with
    | .string n =>
      match values.lookup n with
      | none => .ret (some (NewError (.string n) (.string "")))
      | some _ => requiredLoop values rest
    | _ => .panic "interface conversion"

/-- `required` of object.go. -/
def required (value : Any) : Built :=
  .ret (.ok fun a =>
    match a with
    | .map values =>
      match value with
      | .slice names => requiredLoop values names
      | _ => .panic "interface conversion"
    | _ => .panic "interface conversion")

/-- The inner loop of `dependentRequired`: the names of one entry. -/
def dependentNames : List Any → Go (List String)
  | [] => .ret []
  | value :: rest =>
    match value with
    | .string n => (dependentNames rest).bind fun temp => .ret (n :: temp)
    | _ => .panic "interface conversion"

/-- The outer loop of `dependentRequired`. -/
def dependentProps : List (String × Any) → Go (List (String × List String))
  | [] => .ret []
  | (name, values) :: rest =>
    match values with
    | .slice vs =>
      (dependentNames vs).bind fun temp =>
        (dependentProps rest).bind fun props => .ret ((name, temp) :: props)
    | _ => .panic "interface conversion"

/-- The inner loop of the predicate of `dependentRequired`. -/
def dependentMissing (v : List (String × Any)) : List String → Option Error
  | [] => none
  | value :: rest =>
    match v.lookup value with
    | none => some (NewError (.string value) (.string ""))
    | some _ => dependentMissing v rest

/-- The outer loop of the predicate of `dependentRequired`. -/
def dependentCheck (v : List (String × Any)) : List (String × List String) → Option Error
  | [] => none
  | (name, values) :: rest =>
    match v.lookup name with
    | none => dependentCheck v rest
    | some _ =>
      match dependentMissing v values with
      | some e => some e
      | none => dependentCheck v rest

/-- `dependentRequired` of object.go. -/
def dependentRequired (value : Any) : Built :=
  match value with
  | .map kvs =>
    (dependentProps kvs).bind fun props =>
      .ret (.ok fun a =>
        match a with
        | .map v => .ret (dependentCheck v props)
        | _ => .panic "interface conversion")
  | _ => .panic "interface conversion"

/-- `minProperties` of object.go. -/
def minProperties (value : Any) : Built :=
  match value with
  | .float64 v =>
    if float64OfInt (intOfFloat64 v) ≠ v then .ret (.error "minProperties requires integer")
    else .ret (.ok fun a =>
      match a with
      | .map values =>
        if (values.length : Int) ≥ intOfFloat64 v then .ret none
        else .ret (some (NewError (.int (intOfFloat64 v)) (.int values.length)))
      | _ => .panic "interface conversion")
  | _ => .ret (.error "minProperties requires integer")

/-- `maxProperties` of object.go. -/
def maxProperties (value : Any) : Built :=
  match value with
  | .float64 v =>
    if float64OfInt (intOfFloat64 v) ≠ v then .ret (.error "maxProperties requires integer")
    else .ret (.ok fun a =>
      match a with
      | .map values =>
        if (values.length : Int) ≤ intOfFloat64 v then .ret none
        else .ret (some (NewError (.int (intOfFloat64 v)) (.int values.length)))
      | _ => .panic "interface conversion")
  | _ => .ret (.error "maxProperties requires integer")

/-- `propertyNames` of object.go. -/
def propertyNames (lib : Lib) (value : Any) : Built :=
  match value with
  | .map values =>
    (buildKeywords values (stringValidation lib)).bind fun r =>
      match r with
      | .error err => .ret (.error err)
      | .ok fs => .ret (.ok fun a =>
          match a with
          | .map v =>
            validateEach (Schema.mk ValueType.String fs []) (v.map fun kv => Any.string kv.1)
          | _ => .panic "interface conversion")
  | _ => .panic "interface conversion"

/-- The loop of `patternProperties` over the configured patterns: the source
of every expression with its schema. -/
def patternSchemas (lib : Lib) : List (String × Any) → Go (Except String (List (String × Schema)))
  | [] => .ret (.ok [])
  | (patter, values) :: rest =>
    match values with
    | .map v =>
      match getValueType (v.lookup "type") with
      | none => .ret (.error "maxContains requires valid type")
      | some valueType =>
        (buildKeywords v (scalarRegistry lib valueType)).bind fun r =>
          match r with
          | .error err => .ret (.error err)
          | .ok fs =>
            match lib.regexpCompile patter with
            | some err => .ret (.error err)
            | none =>
              (patternSchemas lib rest).bind fun rs =>
                match rs with
                | .error err => .ret (.error err)
                | .ok schemas => .ret (.ok ((patter, Schema.mk valueType fs []) :: schemas))
    | _ => .panic "interface conversion"

/-- The inner loop of the predicate of `patternProperties`: one key of the
target against every pattern. -/
def patternCheckKey (lib : Lib) (name : String) (target : Any) :
    List (String × Schema) → Go (Option Error)
  | [] => .ret none
  | (regex, schema) :: rest =>
    if lib.matchString regex name then
      (validate target schema).bind fun err =>
        match err with
        | some e => .ret (some e)
        | none => patternCheckKey lib name target rest
    else patternCheckKey lib name target rest

/-- The outer loop of the predicate of `patternProperties`. -/
def patternCheck (lib : Lib) (schemas : List (String × Schema)) :
    List (String × Any) → Go (Option Error)
  | [] => .ret none
  | (name, target) :: rest =>
    (patternCheckKey lib name target schemas).bind fun err =>
      match err with
      | some e => .ret (some e)
      | none => patternCheck lib schemas rest

/-- `patternProperties` of object.go. -/
def patternProperties (lib : Lib) (value : Any) : Built :=
  match value with
  | .map values =>
    (patternSchemas lib values).bind fun r =>
      match r with
      | .error err => .ret (.error err)
      | .ok schemas => .ret (.ok fun a =>
          match a with
          | .map v => patternCheck lib schemas v
          | _ => .panic "interface conversion")
  | _ => .panic "interface conversion"

/-- `objectValidation` of object.go, in the order of the source text. -/
def objectValidation (lib : Lib) : List (String × rawValidation) :=
  [("properties", ⟨properties, []⟩), ("required", ⟨required, []⟩),
   ("dependentRequired", ⟨dependentRequired, []⟩), ("minProperties", ⟨minProperties, []⟩),
   ("maxProperties", ⟨maxProperties, []⟩), ("propertyNames", ⟨propertyNames lib, []⟩),
   ("patternProperties", ⟨patternProperties lib, []⟩)]

/-- `validations` of json.go: the registry of a type, if it has one. -/
def validations (lib : Lib) (valueType : ValueType) : Option (List (String × rawValidation)) :=
  if valueType = ValueType.String then some (stringValidation lib)
  else if valueType = ValueType.Integer then some integerValidation
  else if valueType = ValueType.Number then some numberValidation
  else if valueType = ValueType.Array then some (sliceValidation lib)
  else if valueType = ValueType.Object then some (objectValidation lib)
  else none

/-- The inner loop of `getValidation` that collects the required siblings of a
keyword; the error carries the name of the first sibling that is absent. -/
def collectRequires (values : List (String × Any)) : List String → Except String (List Any)
  | [] => .ok []
  | requires :: rest =>
    match values.lookup requires with
    | none => .error requires
    | some value =>
      match collectRequires values rest with
      | .error r => .error r
      | .ok input => .ok (value :: input)

/-- The loop of `getValidation` over a registry, visited in the order of the
list. -/
def getValidationLoop (values : List (String × Any)) :
    List (String × rawValidation) → Go (Except String (List (String × validateFunc)))
  | [] => .ret (.ok [])
  | (name, validation) :: rest =>
    match values.lookup name with
    | none => getValidationLoop values rest
    | some value =>
      if validation.requires.length = 0 then
        (validation.function value).bind fun r =>
          match r with
          | .error err => .ret (.error err)
          | .ok validate =>
            (getValidationLoop values rest).bind fun rs =>
              match rs with
              | .error err => .ret (.error err)
              | .ok res => .ret (.ok ((name, validate) :: res))
      else
        match collectRequires values validation.requires with
        | .error requires => .ret (.error (name ++ " requires " ++ requires))
        | .ok input =>
          (validation.function (.slice (value :: input))).bind fun r =>
            match r with
            | .error err => .ret (.error err)
            | .ok validate =>
              (getValidationLoop values rest).bind fun rs =>
                match rs with
                | .error err => .ret (.error err)
                | .ok res => .ret (.ok ((name, validate) :: res))

/-- `getValidation` of json.go; a type without a registry yields the nil
map. -/
def getValidation (lib : Lib) (valueType : ValueType) (values : List (String × Any)) :
    Go (Except String (List (String × validateFunc))) :=
  match validations lib valueType with
  | none => .ret (.ok [])
  | some validation => getValidationLoop values validation

set_option linter.unusedVariables false in
mutual
/-- `createSchemaFromJSON` of json.go. -/
def createSchemaFromJSON (lib : Lib) (values : List (String × Any)) :
    Go (Except String Schema) :=
  match getValueType (values.lookup "type") with
  | none => .ret (.error "schema has wrong type")
  | some valueType =>
    (getValidation lib valueType values).bind fun r =>
      match r with
      | .error err => .ret (.error err)
      | .ok validation =>
        if valueType = ValueType.Object then
          match h : values.lookup "properties" with
          | none => .ret (.ok (Schema.mk valueType validation []))
          | some (.map properties) =>
            (compileProperties lib properties).bind fun ps =>
              match ps with
              | .error err => .ret (.error err)
              | .ok props => .ret (.ok (Schema.mk valueType validation props))
          | some _ => .ret (.error "schema has wrong properties")
        else .ret (.ok (Schema.mk valueType validation []))
termination_by sizeOf values
decreasing_by
  obtain ⟨l₁, l₂, hl, -⟩ := List.lookup_eq_some_iff.mp h
  have hm : ("properties", Any.map properties) ∈ values := by rw [hl]; simp
  have hlt := List.sizeOf_lt_of_mem hm
  simp at hlt
  omega

/-- The loop of `createSchemaFromJSON` over the entries of `properties`. -/
def compileProperties (lib : Lib) (properties : List (String × Any)) :
    Go (Except String (List (String × Schema))) :=
  match properties with
  | [] => .ret (.ok [])
  | (key, value) :: rest =>
    match value with
    | .map prop =>
      (createSchemaFromJSON lib prop).bind fun r =>
        match r with
        | .error err => .ret (.error err)
        | .ok newSchema =>
          (compileProperties lib rest).bind fun rs =>
            match rs with
            | .error err => .ret (.error err)
            | .ok props => .ret (.ok ((key, newSchema) :: props))
    | _ => compileProperties lib rest
termination_by sizeOf properties
decreasing_by
  all_goals simp
  all_goals omega
end

/-! ## The entry point -/

/-- The Go values that `Validate` is handed, told apart by what `reflect`
reports of them: the kind, and the dynamic type where the source asserts it.
A nil pointer of a type other than `*Schema` is `pointer other`, since `Elem`
of it is the zero `reflect.Value`; the nil interface is `other`. -/
inductive Arg where
  | string (s : String) : Arg
  | bytes (b : String) : Arg
  | slice : Arg
  | map : Arg
  | schema (s : Schema) : Arg
  | struct : Arg
  | schemaPtr (p : Option Schema) : Arg
  | pointer (elem : Arg) : Arg
  | other : Arg

/-- What the entry point reads from outside the repository: the resolution of
a text as URL, file path or JSON text (`JSONFromString`), and the functions of
`encoding/json`. -/
structure World where
  JSONFromString : String → Except String String
  unmarshalObject : String → Except String (List (String × Any))
  unmarshalAny : String → Except String Any
  marshal : Arg → Except String String

/-- The Go `error` that `Validate` returns: one made by `errors.New` or by the
outside world, or an `*Error` of a keyword. -/
inductive Failure where
  | plain (msg : String) : Failure
  | keyword (e : Error) : Failure

/-- `schemaFromString` of json.go. -/
def schemaFromString (lib : Lib) (w : World) (str : String) : Go (Except String Schema) :=
  match w.JSONFromString str with
  | .error err => .ret (.error err)
  | .ok data =>
    match w.unmarshalObject data with
    | .error err => .ret (.error err)
    | .ok values => createSchemaFromJSON lib values

/-- `validateSchema` of json.go.  The result is a `*Schema`, `none` being the
nil pointer.  A value of kind `Map` is never of the struct type `Schema`, so
the assertion of that case fails; a `Schema` passed by value has kind
`Struct` and reaches the default case. -/
def validateSchema (lib : Lib) (w : World) : Arg → Go (Except String (Option Schema))
  | .string s =>
    (schemaFromString lib w s).bind fun r =>
      match r with
      | .error err => .ret (.error err)
      | .ok schema => .ret (.ok (some schema))
  | .bytes b =>
    (schemaFromString lib w b).bind fun r =>
      match r with
      | .error err => .ret (.error err)
      | .ok schema => .ret (.ok (some schema))
  | .slice => .ret (.error "unknown target, supports only slice of bytes")
  | .map => .ret (.error "unknown schema, wrong map")
  | .schemaPtr p => .ret (.ok p)
  | .pointer elem => validateSchema lib w elem
  | .schema _ => .ret (.error "unknown schema")
  | .struct => .ret (.error "unknown schema")
  | .other => .ret (.error "unknown schema")

/-- `targetFromString` of json.go. -/
def targetFromString (w : World) (str : String) : Except String Any :=
  match w.JSONFromString str with
  | .error err => .error err
  | .ok data => w.unmarshalAny data

/-- `validateTarget` of json.go. -/
def validateTarget (w : World) (target : Arg) : Except String Any :=
  match target with
  | .string s => targetFromString w s
  | .bytes b => targetFromString w b
  | .slice => .error "unknown target, supports only slice of bytes"
  | .other => .error "unknown target"
  | _ =>
    match w.marshal target with
    | .error err => .error err
    | .ok data =>
      match w.unmarshalObject data with
      | .error err => .error err
      | .ok res => .ok (.map res)

/-- `Validate` of json.go.  `validate` reads a field of the schema pointer,
which panics on the nil pointer. -/
def Validate (lib : Lib) (w : World) (target schema : Arg) : Go (Option Failure) :=
  match validateTarget w target with
  | .error err => .ret (some (.plain err))
  | .ok validatedTarget =>
    (validateSchema lib w schema).bind fun r =>
      match r with
      | .error err => .ret (some (.plain err))
      | .ok none => .panic "nil pointer dereference"
      | .ok (some validatedSchema) =>
        (validate validatedTarget validatedSchema).bind fun err =>
          match err with
          | some e => .ret (some (.keyword e))
          | none => .ret none

/-! ## Notions used to state the properties -/

/-- An instance of the library in which no regular expression compiles and no
text parses.  It closes the statements about concrete schemas, none of which
reaches the library. -/
def plainLib : Lib :=
  ⟨fun _ => some "error", fun _ _ => false, fun _ _ => false, fun _ => false, fun _ => false,
    fun _ => false, fun _ => false, fun _ => false, fun _ => ""⟩

/-- The range of the Go type `int`. -/
def inInt64 (n : Int) : Prop := -2 ^ 63 ≤ n ∧ n < 2 ^ 63

/-- The kinds of the specification: the decoded targets that match a value
type, an integer being a float with zero fractional part. -/
def kindMatches (T : ValueType) : Any → Prop
  | .string _ => T = "string"
  | .float64 f => T = "number" ∨ (T = "integer" ∧ Int.fract f = 0)
  | .bool _ => T = "boolean"
  | .nil => T = "null"
  | .slice _ => T = "array"
  | .map _ => T = "object"
  | _ => False

/-- The targets that `validate` lets through for a value type: as
`kindMatches`, an integer lying in the range of the Go type `int` besides. -/
def typeMatches (T : ValueType) : Any → Prop
  | .string _ => T = "string"
  | .float64 f => T = "number" ∨ (T = "integer" ∧ ∃ n : Int, inInt64 n ∧ f = (n : ℚ))
  | .bool _ => T = "boolean"
  | .nil => T = "null"
  | .slice _ => T = "array"
  | .map _ => T = "object"
  | _ => False

/-- The name that a type mismatch reports as expected for a value type. -/
def expectedKind (T : ValueType) : String :=
  if T = "string" then "string"
  else if T = "integer" then "int"
  else if T = "number" then "float64"
  else if T = "boolean" then "bool"
  else if T = "null" then "null"
  else if T = "array" then "slice"
  else "object"

/-- A raw schema with a node of invalid type: the root, or a mapping-valued
entry of the `properties` of a node of type object that has one in turn. -/
inductive InvalidNode : List (String × Any) → Prop
  | root (values : List (String × Any)) :
      getValueType (values.lookup "type") = none → InvalidNode values
  | nested (values props prop : List (String × Any)) (key : String) :
      values.lookup "type" = some (.string "object") →
      values.lookup "properties" = some (.map props) →
      (key, Any.map prop) ∈ props → InvalidNode prop → InvalidNode values

/-- Whether Go code returns a value and no error. -/
def returnsOk {α : Type} : Go (Except String α) → Prop
  | .ret (.ok _) => True
  | _ => False

/-- The seven names of value types. -/
def typeNames : List String :=
  ["string", "integer", "number", "object", "array", "boolean", "null"]

/-- A string of ASCII characters. -/
def isASCII (s : String) : Prop := ∀ c ∈ s.data, c.toNat < 128

/-- The builder `b` decides `accept`: it compiles exactly the configurations
`cfg n` with `good n`, and the predicate compiled from `cfg n` returns no error
on the target `inj x` when `accept n x` holds and returns an error when it does
not. -/
def Decides {α β : Type} (b : rawValidateFunc) (cfg : β → Any) (good : β → Prop)
    (inj : α → Any) (accept : β → α → Prop) : Prop :=
  (∀ c f, b c = .ret (.ok f) → ∃ n, good n ∧ c = cfg n) ∧
  ∀ n, good n → ∃ f, b (cfg n) = .ret (.ok f) ∧
    ∀ x, (f (inj x) = .ret none ↔ accept n x) ∧
      (¬ accept n x → ∃ e, f (inj x) = .ret (some e))

/-- The configuration of a whole-number bound. -/
def wholeBound (n : Int) : Any := .float64 (n : ℚ)

/-- The target that holds an ASCII string. -/
def asciiTarget (s : {s : String // isASCII s}) : Any := .string s.1

/-- The keys of a Go map. -/
def keys (o : List (String × Any)) : List String := o.map Prod.fst

instance inInt64.instDecidable (n : Int) : Decidable (inInt64 n) :=
  inferInstanceAs (Decidable (-2 ^ 63 ≤ n ∧ n < 2 ^ 63))

instance typeMatches.instDecidable (T : ValueType) : (x : Any) → Decidable (typeMatches T x)
  | .string _ => inferInstanceAs (Decidable (T = "string"))
  | .float64 f =>
    decidable_of_iff (T = "number" ∨ (T = "integer" ∧ f.den = 1 ∧ inInt64 f.num))
      (by
        have h : (∃ n : Int, inInt64 n ∧ f = (n : ℚ)) ↔ f.den = 1 ∧ inInt64 f.num :=
          ⟨fun ⟨n, hn, hf⟩ => by subst hf; simpa using hn,
            fun ⟨hd, hn⟩ => ⟨f.num, hn, ((Rat.den_eq_one_iff f).mp hd).symm⟩⟩
        simp only [typeMatches, h])
  | .bool _ => inferInstanceAs (Decidable (T = "boolean"))
  | .nil => inferInstanceAs (Decidable (T = "null"))
  | .slice _ => inferInstanceAs (Decidable (T = "array"))
  | .map _ => inferInstanceAs (Decidable (T = "object"))
  | .int _ => inferInstanceAs (Decidable False)
  | .valueType _ => inferInstanceAs (Decidable False)
  | .strings _ => inferInstanceAs (Decidable False)
  | .regexp _ => inferInstanceAs (Decidable False)

/-- The number of elements of an array that match a value type. -/
def matchCount (T : ValueType) (a : List Any) : Int :=
  ((a.filter fun x => decide (typeMatches T x)).length : Int)

/-- The raw array schema with `contains` of a bare type and both counts. -/
def containsSchema (T : ValueType) (m M : ℚ) : List (String × Any) :=
  [("type", .string "array"), ("contains", .map [("type", .string T)]),
   ("minContains", .float64 m), ("maxContains", .float64 M)]

/-- A keyword of a registry is well formed in a raw schema when, if the
schema has it, its required siblings are present and its builder returns a
predicate. -/
def keywordWellFormed (values : List (String × Any)) (kw : String × rawValidation) : Prop :=
  ∀ c, values.lookup kw.1 = some c →
    ∃ input, collectRequires values kw.2.requires = .ok input ∧
      returnsOk (kw.2.function (if kw.2.requires.length = 0 then c else .slice (c :: input)))

/-- One round of the loop of `getValidation`: nothing for a keyword that the
raw schema does not have, else the predicate that its builder returns. -/
def keywordResult (values : List (String × Any)) (p : String × rawValidation) :
    Go (Except String (Option (String × validateFunc))) :=
  match values.lookup p.1 with
  | none => .ret (.ok none)
  | some value =>
    if p.2.requires.length = 0 then
      (p.2.function value).bind fun r =>
        match r with
        | .error err => .ret (.error err)
        | .ok validate => .ret (.ok (some (p.1, validate)))
    else
      match collectRequires values p.2.requires with
      | .error requires => .ret (.error (p.1 ++ " requires " ++ requires))
      | .ok input =>
        (p.2.function (.slice (value :: input))).bind fun r =>
          match r with
          | .error err => .ret (.error err)
          | .ok validate => .ret (.ok (some (p.1, validate)))

/-- The rounds of a loop run in order: the first error or panic ends the
loop, else the results are collected. -/
def runRounds {α : Type} : List (Go (Except String (Option α))) → Go (Except String (List α))
  | [] => .ret (.ok [])
  | x :: rest =>
    x.bind fun r =>
      match r with
      | .error err => .ret (.error err)
      | .ok o =>
        (runRounds rest).bind fun rs =>
          match rs with
          | .error err => .ret (.error err)
          | .ok res => .ret (.ok (o.toList ++ res))

/-- The value that a round contributes. -/
def roundValue {α : Type} : Go (Except String (Option α)) → Option α
  | .ret (.ok (some a)) => some a
  | _ => none

/-- The keywords that take a whole-number bound, each with the type whose
registry holds it and its builder. -/
def wholeBoundKeywords : List (ValueType × String × rawValidateFunc) :=
  [("integer", "minimum", minimumInteger),
   ("integer", "exclusiveMinimum", exclusiveMinimumInteger),
   ("integer", "maximum", maximumInteger),
   ("integer", "exclusiveMaximum", exclusiveMaximumInteger),
   ("integer", "multipleOf", multipleOfInteger),
   ("string", "minLength", minLength), ("string", "maxLength", maxLength),
   ("array", "minItems", minItems), ("array", "maxItems", maxItems),
   ("object", "minProperties", minProperties), ("object", "maxProperties", maxProperties)]

/-- A builder of a whole-number bound: it returns a predicate exactly for the
whole numbers of the range of `int`, and a configuration error for every other
configuration. -/
def WholeBoundBuilder (b : rawValidateFunc) : Prop :=
  ∀ c, ((∃ f, b c = .ret (.ok f)) ↔ ∃ n, inInt64 n ∧ c = wholeBound n) ∧
    ((¬ ∃ n, inInt64 n ∧ c = wholeBound n) → ∃ msg, b c = .ret (.error msg))

/-- The keyword names that the registry of a type recognises; none for a
type without a registry. -/
def registryNames (lib : Lib) (T : ValueType) : List String :=
  ((validations lib T).getD []).map Prod.fst

/-- A world without network and files, whose decoder knows the JSON text
`null` and the empty object only. -/
def plainWorld : World :=
  ⟨fun str => .ok str,
    fun data => if data = "{}" then .ok [] else .error "unexpected end of JSON input",
    fun data => if data = "null" then .ok .nil else .error "unexpected end of JSON input",
    fun _ => .ok "{}"⟩

/-- The value that `validate` hands to the predicates of a node of type `T`:
the target itself, converted to `int` for an integer node. -/
def handedTarget (T : ValueType) : Any → Any
  | .float64 v => if T = ValueType.Integer then .int (intOfFloat64 v) else .float64 v
  | t => t

/-- A predicate whose errors carry no keyword. -/
def Unnamed (f : validateFunc) : Prop := ∀ t e, f t = .ret (some e) → e.name = ""

/-- The keywords whose predicate runs `validate` with a schema that has
predicates of its own and returns its error. -/
def nestingKeywords : List String := ["items", "propertyNames", "patternProperties"]

/-- A builder all of whose predicates return errors without a keyword. -/
def UnnamedBuilder (b : rawValidateFunc) : Prop := ∀ c f, b c = .ret (.ok f) → Unnamed f

/-- The raw schema that declares the type `T` and nothing else. -/
def typeDecl (T : ValueType) : Any := .map [("type", .string T)]

/-- The raw array schema with a `contains` sub-schema and both counts. -/
def containsSchemaOf (S : List (String × Any)) (m M : ℚ) : List (String × Any) :=
  [("type", .string "array"), ("contains", .map S),
   ("minContains", .float64 m), ("maxContains", .float64 M)]

/-- The type that a `properties` configuration declares for a key: the type
of the mapping under the key, if there is one. -/
def declaredType (P : List (String × Any)) (k : String) : Option ValueType :=
  match P.lookup k with
  | some (.map S) => getValueType (S.lookup "type")
  | _ => none

/-- A well-formed `properties` configuration: every entry is a mapping that
declares one of the seven types. -/
def wellFormedProperties (P : List (String × Any)) : Prop :=
  ∀ kv ∈ P, ∃ S T, kv.2 = .map S ∧ getValueType (S.lookup "type") = some T

mutual
/-- The nesting depth of a decoded value: sequences and mappings lie one
level above their deepest element. -/
def Any.depth : Any → Nat
  | .slice xs => Any.depthList xs + 1
  | .map kvs => Any.depthEntries kvs + 1
  | _ => 0
/-- The depth of the deepest element of a sequence. -/
def Any.depthList : List Any → Nat
  | [] => 0
  | x :: xs => max x.depth (Any.depthList xs)
/-- The depth of the deepest value of a mapping. -/
def Any.depthEntries : List (String × Any) → Nat
  | [] => 0
  | (_, v) :: kvs => max v.depth (Any.depthEntries kvs)
end

/-- The relation between the argument of a recursive call of
`createSchemaFromJSON` and the argument of the call that makes it: `prop` is a
mapping held by the mapping under `"properties"` of `values`. -/
def nestedProperty (prop values : List (String × Any)) : Prop :=
  ∃ properties key, values.lookup "properties" = some (.map properties) ∧
    (key, Any.map prop) ∈ properties

/-- The loop of `createSchemaFromJSON` over the entries of `properties`, the
recursive call being the parameter `compile`; `none` when a call does not
return. -/
def compilePropertiesWith (compile : List (String × Any) → Option (Go (Except String Schema))) :
    List (String × Any) → Option (Go (Except String (List (String × Schema))))
  | [] => some (.ret (.ok []))
  | (key, value) :: rest =>
    match value with
    | .map prop =>
      match compile prop with
      | none => none
      | some (.panic msg) => some (.panic msg)
      | some (.ret (.error err)) => some (.ret (.error err))
      | some (.ret (.ok newSchema)) =>
        match compilePropertiesWith compile rest with
        | none => none
        | some (.panic msg) => some (.panic msg)
        | some (.ret (.error err)) => some (.ret (.error err))
        | some (.ret (.ok props)) => some (.ret (.ok ((key, newSchema) :: props)))
    | _ => compilePropertiesWith compile rest

/-- `createSchemaFromJSON` of json.go run with a budget of nested calls: each
call spends one unit, and `none` is returned when the budget is spent. -/
def createSchemaFuel (lib : Lib) :
    Nat → List (String × Any) → Option (Go (Except String Schema))
  | 0, _ => none
  | fuel + 1, values =>
    match getValueType (values.lookup "type") with
    | none => some (.ret (.error "schema has wrong type"))
    | some valueType =>
      match getValidation lib valueType values with
      | .panic msg => some (.panic msg)
      | .ret (.error err) => some (.ret (.error err))
      | .ret (.ok validation) =>
        if valueType = ValueType.Object then
          match values.lookup "properties" with
          | none => some (.ret (.ok (Schema.mk valueType validation [])))
          | some (.map properties) =>
            match compilePropertiesWith (createSchemaFuel lib fuel) properties with
            | none => none
            | some (.panic msg) => some (.panic msg)
            | some (.ret (.error err)) => some (.ret (.error err))
            | some (.ret (.ok props)) =>
              some (.ret (.ok (Schema.mk valueType validation props)))
          | some _ => some (.ret (.error "schema has wrong properties"))
        else some (.ret (.ok (Schema.mk valueType validation [])))

/-- Validation against the schema compiled from a type and one keyword
decides `accept`: for every good configuration `cfg n` the raw schema that
holds the type `T` and the keyword `name` compiles, and the compiled schema
accepts the target `target x` exactly when `accept n x` holds, returning an
error that names the keyword when it does not. -/
def SchemaDecides {α β : Type} (lib : Lib) (T : ValueType) (name : String) (cfg : β → Any)
    (good : β → Prop) (target : α → Any) (accept : β → α → Prop) : Prop :=
  ∀ n, good n →
    ∃ s, createSchemaFromJSON lib [("type", .string T), (name, cfg n)] = .ret (.ok s) ∧
      ∀ x, (validate (target x) s = .ret none ↔ accept n x) ∧
        (¬ accept n x → ∃ e, validate (target x) s = .ret (some e) ∧ e.name = name)

/-- The float target that holds a whole number of the signed 64-bit range. -/
def wholeTarget (m : {m : Int // inInt64 m}) : Any := .float64 (m.1 : ℚ)

/-! ## Conversions and sequencing -/

@[simp]
theorem bind_ret {α β : Type} (a : α) (k : α → Go β) : (Go.ret a).bind k = k a := rfl

@[simp]
theorem bind_panic {α β : Type} (msg : String) (k : α → Go β) :
    (Go.panic msg : Go α).bind k = .panic msg := rfl

/-- The conversion `int(v)` always lands in the range of `int`. -/
theorem intOfFloat64_range (v : ℚ) : inInt64 (intOfFloat64 v) := by
  unfold intOfFloat64 inInt64
  simp only
  split
  · assumption
  · norm_num

/-- The conversion `int(v)` is exact on the whole numbers of the range. -/
theorem intOfFloat64_intCast (n : Int) (h : inInt64 n) : intOfFloat64 (n : ℚ) = n := by
  obtain ⟨h1, h2⟩ := h
  simp only [intOfFloat64, Rat.num_intCast, Rat.den_intCast, Nat.cast_one, Int.tdiv_one]
  rw [if_pos ⟨h1, h2⟩]

/-- The test `float64(int(v)) == v` of the source holds exactly for the whole
numbers of the range of `int`. -/
theorem whole_iff (v : ℚ) :
    float64OfInt (intOfFloat64 v) = v ↔ ∃ n : Int, inInt64 n ∧ v = (n : ℚ) := by
  constructor
  · intro h
    exact ⟨intOfFloat64 v, intOfFloat64_range v, h.symm⟩
  · rintro ⟨n, hn, rfl⟩
    rw [intOfFloat64_intCast n hn]
    rfl

/-- A float with a fractional part fails the test `float64(int(v)) == v`. -/
theorem not_whole_of_fract (v : ℚ) (h : Int.fract v ≠ 0) :
    float64OfInt (intOfFloat64 v) ≠ v := by
  intro hv
  obtain ⟨n, -, rfl⟩ := (whole_iff v).mp hv
  exact h (Int.fract_intCast n)

theorem validateValueType_iff (T : ValueType) :
    validateValueType T = true ↔
      T = "string" ∨ T = "integer" ∨ T = "number" ∨ T = "object" ∨ T = "array" ∨
        T = "boolean" ∨ T = "null" := by
  simp [validateValueType]

/-! ## Schemas that declare a type only -/

/-- Compiling a schema that declares a type and nothing else yields the node of
that type without predicates and without properties. -/
theorem createSchema_typeOnly (lib : Lib) (T : ValueType) (hT : validateValueType T = true) :
    createSchemaFromJSON lib [("type", .string T)] = .ret (.ok (Schema.mk T [] [])) := by
  rw [validateValueType_iff] at hT
  rcases hT with h | h | h | h | h | h | h <;> subst h <;>
    simp [createSchemaFromJSON, getValueType, validateValueType, getValidation, validations,
      stringValidation, integerValidation, numberValidation, sliceValidation, objectValidation,
      getValidationLoop, List.lookup]

/-- A node without predicates accepts exactly the targets of `typeMatches`. -/
theorem validate_bare_iff (T : ValueType) (hT : validateValueType T = true) (target : Any) :
    validate target (Schema.mk T [] []) = .ret none ↔ typeMatches T target := by
  rw [validateValueType_iff] at hT
  rcases hT with h | h | h | h | h | h | h <;> subst h <;> cases target <;>
    simp [validate, Schema.valueType, validateValue, Schema.validateFunc, validateValueLoop,
      typeMatches, whole_iff]

/-- C1 (as amended): for each of the seven value types and every target that
matches it (a string; a float with zero fractional part inside the signed 64
bit range for integer; a float; a boolean; null; a sequence; a mapping), the
schema compiled from the raw schema that holds the type and no other key is
produced and validates the target without error. -/
theorem typeOnly_schema_accepts (lib : Lib) (T : ValueType) (target : Any)
    (hT : validateValueType T = true) (hm : typeMatches T target) :
    ∃ s, createSchemaFromJSON lib [("type", .string T)] = .ret (.ok s) ∧
      validate target s = .ret none :=
  ⟨Schema.mk T [] [], createSchema_typeOnly lib T hT, (validate_bare_iff T hT target).mpr hm⟩

/-- C1, witness: the integer schema accepts the float 7. -/
theorem typeOnly_schema_accepts_witness :
    validateValueType "integer" = true ∧ typeMatches "integer" (.float64 7) ∧
      ∃ s, createSchemaFromJSON plainLib [("type", .string "integer")] = .ret (.ok s) ∧
        validate (.float64 7) s = .ret none :=
  have hT : validateValueType "integer" = true := by simp [validateValueType]
  have hm : typeMatches "integer" (.float64 7) :=
    Or.inr ⟨rfl, 7, by unfold inInt64; norm_num, by norm_num⟩
  ⟨hT, hm, typeOnly_schema_accepts plainLib "integer" (.float64 7) hT hm⟩

/-- C1, counterexample: the float 2^64 has zero fractional part, so its kind
matches integer, yet the schema compiled from the integer type alone rejects
it with a type mismatch. -/
theorem integer_schema_rejects_large_whole_float :
    kindMatches "integer" (.float64 (2 ^ 64)) ∧
      ∃ s, createSchemaFromJSON plainLib [("type", .string "integer")] = .ret (.ok s) ∧
        validate (.float64 (2 ^ 64)) s =
          .ret (some (NewError (.string "int") (.string "float64"))) := by
  refine ⟨Or.inr ⟨rfl, ?_⟩, Schema.mk "integer" [] [], ?_, ?_⟩
  · have h : ((2 : ℚ) ^ 64) = ((2 ^ 64 : Int) : ℚ) := by norm_num
    rw [h]
    exact Int.fract_intCast _
  · exact createSchema_typeOnly plainLib "integer" (by simp [validateValueType])
  · simp [validate, Schema.valueType, intOfFloat64, float64OfInt]
    norm_num

/-- C2: for each of the seven value types and every target whose kind does not
match it, `validate` returns the type mismatch that names the kind expected for
the type and the observed kind of the target, whatever predicates and
properties the node holds. -/
theorem type_mismatch_error (T : ValueType) (target : Any)
    (fs : List (String × validateFunc)) (props : List (String × Schema))
    (hT : validateValueType T = true) (hk : ¬ kindMatches T target) :
    validate target (Schema.mk T fs props) =
      .ret (some (NewError (.string (expectedKind T)) (.string (kindString target)))) := by
  rw [validateValueType_iff] at hT
  rcases hT with h | h | h | h | h | h | h <;> subst h <;> cases target <;>
    simp [kindMatches] at hk <;>
    first
    | (have hw := not_whole_of_fract _ hk
       simp [validate, Schema.valueType, expectedKind, kindString, hw])
    | simp [validate, Schema.valueType, expectedKind, kindString]

/-- C2, witness: the string schema against the number 42 fails with expected
"string" and got "float64". -/
theorem type_mismatch_error_witness :
    validateValueType "string" = true ∧ ¬ kindMatches "string" (.float64 42) ∧
      validate (.float64 42) (Schema.mk "string" [] []) =
        .ret (some ⟨.string "string", .string "float64", ""⟩) :=
  have hT : validateValueType "string" = true := by simp [validateValueType]
  have hk : ¬ kindMatches "string" (.float64 42) := by simp [kindMatches]
  ⟨hT, hk, type_mismatch_error "string" (.float64 42) [] [] hT hk⟩

/-! ## Invalid types -/

/-- The body of `createSchemaFromJSON`, with a plain case distinction on the
entry `properties`. -/
theorem createSchemaFromJSON_eq (lib : Lib) (values : List (String × Any)) :
    createSchemaFromJSON lib values =
      match getValueType (values.lookup "type") with
      | none => .ret (.error "schema has wrong type")
      | some valueType =>
        (getValidation lib valueType values).bind fun r =>
          match r with
          | .error err => .ret (.error err)
          | .ok validation =>
            if valueType = ValueType.Object then
              match values.lookup "properties" with
              | none => .ret (.ok (Schema.mk valueType validation []))
              | some (.map properties) =>
                (compileProperties lib properties).bind fun ps =>
                  match ps with
                  | .error err => .ret (.error err)
                  | .ok props => .ret (.ok (Schema.mk valueType validation props))
              | some _ => .ret (.error "schema has wrong properties")
            else .ret (.ok (Schema.mk valueType validation [])) := by
  rw [createSchemaFromJSON]
  cases getValueType (values.lookup "type") with
  | none => rfl
  | some vt =>
    simp only
    congr 1
    funext r
    cases r with
    | error e => rfl
    | ok validation =>
      simp only
      split
      · split <;> split <;> simp_all
        all_goals first | rfl | (subst_vars; simp_all)
      · rfl

theorem compileProperties_nil (lib : Lib) : compileProperties lib [] = .ret (.ok []) := by
  rw [compileProperties]

theorem compileProperties_map (lib : Lib) (key : String) (prop rest : List (String × Any)) :
    compileProperties lib ((key, .map prop) :: rest) =
      (createSchemaFromJSON lib prop).bind fun r =>
        match r with
        | .error err => .ret (.error err)
        | .ok newSchema =>
          (compileProperties lib rest).bind fun rs =>
            match rs with
            | .error err => .ret (.error err)
            | .ok props => .ret (.ok ((key, newSchema) :: props)) := by
  rw [compileProperties]

theorem compileProperties_skip (lib : Lib) (key : String) (value : Any)
    (rest : List (String × Any)) (h : ∀ prop, value ≠ .map prop) :
    compileProperties lib ((key, value) :: rest) = compileProperties lib rest := by
  rw [compileProperties]
  exact h

/-- `getValueType` fails exactly when the value is absent, is not a string, or
is a string that is none of the seven names. -/
theorem getValueType_eq_none_iff (value : Option Any) :
    getValueType value = none ↔
      value = none ∨ (∃ v, value = some v ∧ ∀ t, v ≠ .string t) ∨
        ∃ t, value = some (.string t) ∧ t ∉ typeNames := by
  cases value with
  | none => simp [getValueType]
  | some v =>
    cases v <;> simp [getValueType, typeNames, validateValueType]

/-- The loop over `properties` returns no schemas when one of the entries is a
mapping that does not compile. -/
theorem compileProperties_of_invalid (lib : Lib) (key : String) (prop : List (String × Any))
    (hprop : ¬ returnsOk (createSchemaFromJSON lib prop)) :
    ∀ props : List (String × Any), (key, Any.map prop) ∈ props →
      ¬ returnsOk (compileProperties lib props) := by
  intro props
  induction props with
  | nil => intro h; simp at h
  | cons kv rest ih =>
    obtain ⟨k, v⟩ := kv
    intro hmem
    by_cases hv : ∃ p, v = .map p
    · obtain ⟨p, rfl⟩ := hv
      rw [compileProperties_map]
      rcases List.mem_cons.mp hmem with h | h
      · injection h with h1 h2
        injection h2 with h2
        subst h2
        revert hprop
        cases createSchemaFromJSON lib prop with
        | panic msg => simp [returnsOk]
        | ret r => cases r <;> simp [returnsOk]
      · have ih := ih h
        revert ih
        cases createSchemaFromJSON lib p with
        | panic msg => simp [returnsOk]
        | ret r =>
          cases r with
          | error e => simp [returnsOk]
          | ok s =>
            cases compileProperties lib rest with
            | panic msg => simp [returnsOk]
            | ret rs => cases rs <;> simp [returnsOk]
    · rw [compileProperties_skip lib k v rest (fun p hp => hv ⟨p, hp⟩)]
      rcases List.mem_cons.mp hmem with h | h
      · injection h with h1 h2
        exact absurd h2.symm (fun hp => hv ⟨prop, hp⟩)
      · exact ih h

/-- A raw schema with a node of invalid type does not compile to a schema. -/
theorem createSchema_of_invalid (lib : Lib) (values : List (String × Any))
    (h : InvalidNode values) : ¬ returnsOk (createSchemaFromJSON lib values) := by
  induction h with
  | root values hroot =>
    rw [createSchemaFromJSON_eq, hroot]
    simp [returnsOk]
  | nested values props prop key ht hp hmem _ ih =>
    have hc := compileProperties_of_invalid lib key prop ih props hmem
    rw [createSchemaFromJSON_eq, ht, hp]
    simp only [getValueType, validateValueType]
    simp
    revert hc
    cases getValidation lib "object" values with
    | panic msg => simp [returnsOk]
    | ret r =>
      cases r with
      | error e => simp [returnsOk]
      | ok fs =>
        cases compileProperties lib props with
        | panic msg => simp [returnsOk]
        | ret rs => cases rs <;> simp [returnsOk]

/-- C3 (as amended): `getValueType` fails exactly when the type is absent, not
a string, or none of the seven names; when that is so of the root,
`createSchemaFromJSON` returns the configuration error "schema has wrong type"
and no schema; when it is so of the root or of a mapping-valued entry of the
`properties` of a node of type object, at any depth, whatever
`createSchemaFromJSON` returns is a configuration error and no schema, so a
schema is returned only when every such node has a valid type. -/
theorem invalid_type_never_compiles (lib : Lib) (values : List (String × Any)) :
    (getValueType (values.lookup "type") = none ↔
      values.lookup "type" = none ∨
        (∃ v, values.lookup "type" = some v ∧ ∀ t, v ≠ .string t) ∨
          ∃ t, values.lookup "type" = some (.string t) ∧ t ∉ typeNames) ∧
    (getValueType (values.lookup "type") = none →
      createSchemaFromJSON lib values = .ret (.error "schema has wrong type")) ∧
    (InvalidNode values →
      ∀ r, createSchemaFromJSON lib values = .ret r → ∃ err, r = .error err) ∧
    (∀ s, createSchemaFromJSON lib values = .ret (.ok s) → ¬ InvalidNode values) := by
  refine ⟨getValueType_eq_none_iff _, ?_, ?_, ?_⟩
  · intro h
    rw [createSchemaFromJSON_eq, h]
  · intro h r hr
    have hno := createSchema_of_invalid lib values h
    rw [hr] at hno
    cases r with
    | error err => exact ⟨err, rfl⟩
    | ok s => exact absurd trivial hno
  · intro s hs h
    have hno := createSchema_of_invalid lib values h
    rw [hs] at hno
    exact hno trivial

/-- C3, an instance: an object schema whose property `a` is an object whose
property `b` has an unknown type returns a configuration error. -/
theorem invalid_type_never_compiles_witness :
    InvalidNode [("type", .string "object"), ("properties", .map [("a", .map
      [("type", .string "object"), ("properties", .map [("b", .map
        [("type", .string "unknown")])])])])] ∧
    ∀ r, createSchemaFromJSON plainLib [("type", .string "object"), ("properties", .map
      [("a", .map [("type", .string "object"), ("properties", .map [("b", .map
        [("type", .string "unknown")])])])])] = .ret r → ∃ err, r = .error err := by
  have hb : InvalidNode [("type", Any.string "unknown")] :=
    InvalidNode.root _ (by simp [getValueType, validateValueType, List.lookup])
  have ha : InvalidNode [("type", .string "object"), ("properties", .map [("b", .map
      [("type", .string "unknown")])])] :=
    InvalidNode.nested _ _ _ "b" (by simp [List.lookup]) (by simp [List.lookup])
      (List.mem_singleton.mpr rfl) hb
  have hroot : InvalidNode [("type", .string "object"), ("properties", .map [("a", .map
      [("type", .string "object"), ("properties", .map [("b", .map
        [("type", .string "unknown")])])])])] :=
    InvalidNode.nested _ _ _ "a" (by simp [List.lookup]) (by simp [List.lookup])
      (List.mem_singleton.mpr rfl) ha
  exact ⟨hroot, (invalid_type_never_compiles plainLib _).2.2.1 hroot⟩

/-- C3, counterexample: in the raw schema of type string whose `properties`
holds the mapping `a` without a type, a mapping-valued entry nested under
`properties` has an absent type, yet compilation returns a schema. -/
theorem untyped_entry_under_string_compiles :
    getValueType (([] : List (String × Any)).lookup "type") = none ∧
      ∃ s, createSchemaFromJSON plainLib
        [("type", .string "string"), ("properties", .map [("a", .map [])])] = .ret (.ok s) := by
  refine ⟨rfl, Schema.mk "string" [] [], ?_⟩
  simp [createSchemaFromJSON_eq, getValueType, validateValueType, getValidation, validations,
    stringValidation, getValidationLoop, List.lookup]

/-! ## Inclusive bounds -/

/-- The UTF-8 length of ASCII characters is their number. -/
theorem utf8Len_ascii (cs : List Char) (h : ∀ c ∈ cs, c.toNat < 128) :
    String.utf8Len cs = cs.length := by
  induction cs with
  | nil => rfl
  | cons c cs ih =>
    have hc : c.toNat < 128 := h c (List.mem_cons_self _ _)
    have ih := ih (fun d hd => h d (List.mem_cons_of_mem _ hd))
    have h1 : c.utf8Size = 1 := by
      have : c.val ≤ 127 := by
        show c.val.toNat ≤ 127
        have : c.val.toNat = c.toNat := rfl
        omega
      simp [Char.utf8Size, this]
    rw [String.utf8Len_cons, ih, h1, List.length_cons]

/-- The Go `len` of an ASCII string is its number of characters. -/
theorem strLen_ascii (s : String) (h : isASCII s) : strLen s = (s.length : Int) := by
  obtain ⟨cs⟩ := s
  have h2 := utf8Len_ascii cs h
  simp only [strLen, String.utf8ByteSize_mk, String.length_mk, h2]

/-- A whole number of the range of `int` passes the test of the source. -/
theorem whole_intCast (n : Int) (h : inInt64 n) : float64OfInt (intOfFloat64 (n : ℚ)) = n :=
  (whole_iff _).mpr ⟨n, h, rfl⟩

/-- A float that passes the test of the source is the bound of a whole number. -/
theorem wholeBound_of_test (v : ℚ) (hv : float64OfInt (intOfFloat64 v) = v) :
    ∃ n, inInt64 n ∧ Any.float64 v = wholeBound n := by
  obtain ⟨n, hn, rfl⟩ := (whole_iff v).mp hv
  exact ⟨n, hn, rfl⟩

/-- `maxLength` accepts an ASCII string exactly when its length is at most the bound. -/
theorem maxLength_decides :
    Decides maxLength wholeBound inInt64 asciiTarget (fun n s => (s.1.length : Int) ≤ n) := by
  constructor
  · intro c f h
    cases c <;> simp [maxLength] at h
    rename_i v
    by_cases hv : float64OfInt (intOfFloat64 v) = v
    · exact wholeBound_of_test v hv
    · simp [hv] at h
  · intro n hn
    refine ⟨_, by simp [maxLength, wholeBound, whole_intCast n hn]; rfl, ?_⟩
    intro x
    simp only [asciiTarget, intOfFloat64_intCast n hn, strLen_ascii x.1 x.2]
    by_cases hx : (x.1.length : Int) ≤ n <;> simp [hx]

/-- `minLength` accepts an ASCII string exactly when its length is at least the bound. -/
theorem minLength_decides :
    Decides minLength wholeBound inInt64 asciiTarget (fun n s => n ≤ (s.1.length : Int)) := by
  constructor
  · intro c f h
    cases c <;> simp [minLength] at h
    rename_i v
    by_cases hv : float64OfInt (intOfFloat64 v) = v
    · exact wholeBound_of_test v hv
    · simp [hv] at h
  · intro n hn
    refine ⟨_, by simp [minLength, wholeBound, whole_intCast n hn]; rfl, ?_⟩
    intro x
    simp only [asciiTarget, intOfFloat64_intCast n hn, strLen_ascii x.1 x.2]
    by_cases hx : n ≤ (x.1.length : Int) <;> simp [hx]

/-- `maxItems` accepts an array exactly when its length is at most the bound. -/
theorem maxItems_decides :
    Decides maxItems wholeBound inInt64 Any.slice (fun n xs => (xs.length : Int) ≤ n) := by
  constructor
  · intro c f h
    cases c <;> simp [maxItems] at h
    rename_i v
    by_cases hv : float64OfInt (intOfFloat64 v) = v
    · exact wholeBound_of_test v hv
    · simp [hv] at h
  · intro n hn
    refine ⟨_, by simp [maxItems, wholeBound, whole_intCast n hn]; rfl, ?_⟩
    intro x
    simp only [intOfFloat64_intCast n hn]
    by_cases hx : (x.length : Int) ≤ n <;> simp [hx]

/-- `minItems` accepts an array exactly when its length is at least the bound. -/
theorem minItems_decides :
    Decides minItems wholeBound inInt64 Any.slice (fun n xs => n ≤ (xs.length : Int)) := by
  constructor
  · intro c f h
    cases c <;> simp [minItems] at h
    rename_i v
    by_cases hv : float64OfInt (intOfFloat64 v) = v
    · exact wholeBound_of_test v hv
    · simp [hv] at h
  · intro n hn
    refine ⟨_, by simp [minItems, wholeBound, whole_intCast n hn]; rfl, ?_⟩
    intro x
    simp only [intOfFloat64_intCast n hn]
    by_cases hx : n ≤ (x.length : Int) <;> simp [hx]

/-- `maxProperties` accepts an object exactly when it has at most the bound of keys. -/
theorem maxProperties_decides :
    Decides maxProperties wholeBound inInt64 Any.map (fun n kvs => (kvs.length : Int) ≤ n) := by
  constructor
  · intro c f h
    cases c <;> simp [maxProperties] at h
    rename_i v
    by_cases hv : float64OfInt (intOfFloat64 v) = v
    · exact wholeBound_of_test v hv
    · simp [hv] at h
  · intro n hn
    refine ⟨_, by simp [maxProperties, wholeBound, whole_intCast n hn]; rfl, ?_⟩
    intro x
    simp only [intOfFloat64_intCast n hn]
    by_cases hx : (x.length : Int) ≤ n <;> simp [hx]

/-- `minProperties` accepts an object exactly when it has at least the bound of keys. -/
theorem minProperties_decides :
    Decides minProperties wholeBound inInt64 Any.map (fun n kvs => n ≤ (kvs.length : Int)) := by
  constructor
  · intro c f h
    cases c <;> simp [minProperties] at h
    rename_i v
    by_cases hv : float64OfInt (intOfFloat64 v) = v
    · exact wholeBound_of_test v hv
    · simp [hv] at h
  · intro n hn
    refine ⟨_, by simp [minProperties, wholeBound, whole_intCast n hn]; rfl, ?_⟩
    intro x
    simp only [intOfFloat64_intCast n hn]
    by_cases hx : n ≤ (x.length : Int) <;> simp [hx]

/-- `maximum` accepts a number exactly when it is at most the bound. -/
theorem maximum_decides :
    Decides maximum Any.float64 (fun _ => True) Any.float64 (fun b t => t ≤ b) := by
  constructor
  · intro c f h
    cases c <;> simp [maximum] at h
    exact ⟨_, trivial, rfl⟩
  · intro b _
    refine ⟨_, by simp [maximum]; rfl, ?_⟩
    intro t
    by_cases hx : t ≤ b <;> simp [hx]

/-- `minimum` accepts a number exactly when it is at least the bound. -/
theorem minimum_decides :
    Decides minimum Any.float64 (fun _ => True) Any.float64 (fun b t => b ≤ t) := by
  constructor
  · intro c f h
    cases c <;> simp [minimum] at h
    exact ⟨_, trivial, rfl⟩
  · intro b _
    refine ⟨_, by simp [minimum]; rfl, ?_⟩
    intro t
    by_cases hx : b ≤ t <;> simp [hx]

/-- `maximumInteger` accepts an int exactly when it is at most the bound. -/
theorem maximumInteger_decides :
    Decides maximumInteger wholeBound inInt64 Any.int (fun n t => t ≤ n) := by
  constructor
  · intro c f h
    cases c <;> simp [maximumInteger] at h
    rename_i v
    by_cases hv : float64OfInt (intOfFloat64 v) = v
    · exact wholeBound_of_test v hv
    · simp [hv] at h
  · intro n hn
    refine ⟨_, by simp [maximumInteger, wholeBound, whole_intCast n hn]; rfl, ?_⟩
    intro t
    simp only [float64OfInt]
    by_cases hx : t ≤ n <;> simp [hx]

/-- `minimumInteger` accepts an int exactly when it is at least the bound. -/
theorem minimumInteger_decides :
    Decides minimumInteger wholeBound inInt64 Any.int (fun n t => n ≤ t) := by
  constructor
  · intro c f h
    cases c <;> simp [minimumInteger] at h
    rename_i v
    by_cases hv : float64OfInt (intOfFloat64 v) = v
    · exact wholeBound_of_test v hv
    · simp [hv] at h
  · intro n hn
    refine ⟨_, by simp [minimumInteger, wholeBound, whole_intCast n hn]; rfl, ?_⟩
    intro t
    simp only [float64OfInt]
    by_cases hx : n ≤ t <;> simp [hx]

/-! ## Exclusive bounds -/

/-- `exclusiveMaximum` accepts a number exactly when it is below the bound. -/
theorem exclusiveMaximum_decides :
    Decides exclusiveMaximum Any.float64 (fun _ => True) Any.float64 (fun b t => t < b) := by
  constructor
  · intro c f h
    cases c <;> simp [exclusiveMaximum] at h
    exact ⟨_, trivial, rfl⟩
  · intro b _
    refine ⟨_, by simp [exclusiveMaximum]; rfl, ?_⟩
    intro t
    by_cases hx : t < b <;> simp [hx]

/-- `exclusiveMinimum` accepts a number exactly when it is above the bound. -/
theorem exclusiveMinimum_decides :
    Decides exclusiveMinimum Any.float64 (fun _ => True) Any.float64 (fun b t => b < t) := by
  constructor
  · intro c f h
    cases c <;> simp [exclusiveMinimum] at h
    exact ⟨_, trivial, rfl⟩
  · intro b _
    refine ⟨_, by simp [exclusiveMinimum]; rfl, ?_⟩
    intro t
    by_cases hx : b < t <;> simp [hx]

/-- `exclusiveMaximumInteger` accepts an int exactly when it is below the bound. -/
theorem exclusiveMaximumInteger_decides :
    Decides exclusiveMaximumInteger wholeBound inInt64 Any.int (fun n t => t < n) := by
  constructor
  · intro c f h
    cases c <;> simp [exclusiveMaximumInteger] at h
    rename_i v
    by_cases hv : float64OfInt (intOfFloat64 v) = v
    · exact wholeBound_of_test v hv
    · simp [hv] at h
  · intro n hn
    refine ⟨_, by simp [exclusiveMaximumInteger, wholeBound, whole_intCast n hn]; rfl, ?_⟩
    intro t
    simp only [float64OfInt]
    by_cases hx : t < n <;> simp [hx]

/-- `exclusiveMinimumInteger` accepts an int exactly when it is above the bound. -/
theorem exclusiveMinimumInteger_decides :
    Decides exclusiveMinimumInteger wholeBound inInt64 Any.int (fun n t => n < t) := by
  constructor
  · intro c f h
    cases c <;> simp [exclusiveMinimumInteger] at h
    rename_i v
    by_cases hv : float64OfInt (intOfFloat64 v) = v
    · exact wholeBound_of_test v hv
    · simp [hv] at h
  · intro n hn
    refine ⟨_, by simp [exclusiveMinimumInteger, wholeBound, whole_intCast n hn]; rfl, ?_⟩
    intro t
    simp only [float64OfInt]
    by_cases hx : n < t <;> simp [hx]

/-- The number schema with `exclusiveMaximum` alone. -/
theorem number_exclusiveMaximum_schema (lib : Lib) (b t : ℚ) :
    ∃ s, createSchemaFromJSON lib [("type", .string "number"), ("exclusiveMaximum", .float64 b)] =
        .ret (.ok s) ∧
      (validate (.float64 t) s = .ret none ↔ t < b) ∧
      (¬ t < b → validate (.float64 t) s =
        .ret (some ⟨.float64 b, .float64 t, "exclusiveMaximum"⟩)) := by
  refine ⟨_, by simp [createSchemaFromJSON_eq, getValueType, validateValueType, getValidation,
    validations, numberValidation, getValidationLoop, List.lookup, exclusiveMaximum]; rfl, ?_, ?_⟩
  · by_cases h : t < b <;>
      simp [validate, validateValue, validateValueLoop, Schema.valueType, Schema.validateFunc, h]
  · intro h
    simp [validate, validateValue, validateValueLoop, Schema.valueType, Schema.validateFunc, h,
      NewError, Error.SetName]

/-- The number schema with `exclusiveMinimum` alone. -/
theorem number_exclusiveMinimum_schema (lib : Lib) (b t : ℚ) :
    ∃ s, createSchemaFromJSON lib [("type", .string "number"), ("exclusiveMinimum", .float64 b)] =
        .ret (.ok s) ∧
      (validate (.float64 t) s = .ret none ↔ b < t) ∧
      (¬ b < t → validate (.float64 t) s =
        .ret (some ⟨.float64 b, .float64 t, "exclusiveMinimum"⟩)) := by
  refine ⟨_, by simp [createSchemaFromJSON_eq, getValueType, validateValueType, getValidation,
    validations, numberValidation, getValidationLoop, List.lookup, exclusiveMinimum]; rfl, ?_, ?_⟩
  · by_cases h : b < t <;>
      simp [validate, validateValue, validateValueLoop, Schema.valueType, Schema.validateFunc, h]
  · intro h
    simp [validate, validateValue, validateValueLoop, Schema.valueType, Schema.validateFunc, h,
      NewError, Error.SetName]

/-- The integer schema with `exclusiveMaximum` alone. -/
theorem integer_exclusiveMaximum_schema (lib : Lib) (n m : Int) (hn : inInt64 n)
    (hm : inInt64 m) :
    ∃ s, createSchemaFromJSON lib
        [("type", .string "integer"), ("exclusiveMaximum", wholeBound n)] = .ret (.ok s) ∧
      (validate (.float64 m) s = .ret none ↔ m < n) ∧
      (¬ m < n → ∃ e, validate (.float64 m) s = .ret (some e)) := by
  have h1 := whole_intCast n hn
  have h2 := whole_intCast m hm
  have h3 := intOfFloat64_intCast m hm
  refine ⟨_, by simp [createSchemaFromJSON_eq, getValueType, validateValueType, getValidation,
    validations, integerValidation, getValidationLoop, List.lookup, exclusiveMaximumInteger,
    wholeBound, h1]; rfl, ?_, ?_⟩
  · by_cases h : m < n <;>
      simp [validate, validateValue, validateValueLoop, Schema.valueType, Schema.validateFunc, h,
        h2, h3, float64OfInt]
  · intro h
    simp [validate, validateValue, validateValueLoop, Schema.valueType, Schema.validateFunc, h,
      h2, h3, float64OfInt]

/-- The integer schema with `exclusiveMinimum` alone. -/
theorem integer_exclusiveMinimum_schema (lib : Lib) (n m : Int) (hn : inInt64 n)
    (hm : inInt64 m) :
    ∃ s, createSchemaFromJSON lib
        [("type", .string "integer"), ("exclusiveMinimum", wholeBound n)] = .ret (.ok s) ∧
      (validate (.float64 m) s = .ret none ↔ n < m) ∧
      (¬ n < m → ∃ e, validate (.float64 m) s = .ret (some e)) := by
  have h1 := whole_intCast n hn
  have h2 := whole_intCast m hm
  have h3 := intOfFloat64_intCast m hm
  refine ⟨_, by simp [createSchemaFromJSON_eq, getValueType, validateValueType, getValidation,
    validations, integerValidation, getValidationLoop, List.lookup, exclusiveMinimumInteger,
    wholeBound, h1]; rfl, ?_, ?_⟩
  · by_cases h : n < m <;>
      simp [validate, validateValue, validateValueLoop, Schema.valueType, Schema.validateFunc, h,
        h2, h3, float64OfInt]
  · intro h
    simp [validate, validateValue, validateValueLoop, Schema.valueType, Schema.validateFunc, h,
      h2, h3, float64OfInt]

/-- C5 (as amended): the exclusive bounds are strict, for number schemas and
for integer schemas.  The builders of both registries accept a target exactly when it is
below `exclusiveMaximum`, respectively above `exclusiveMinimum`, and report an
error otherwise; so does validation against the schema compiled from the type
and the keyword, for every bound and float target of a number schema and for
every whole bound and whole target, both of the range of `int`, of an integer
schema.  In particular the number schema with `exclusiveMaximum` 5 rejects 5
and accepts 4.999. -/
theorem exclusive_bounds_strict (lib : Lib) :
    Decides exclusiveMaximum Any.float64 (fun _ => True) Any.float64 (fun b t => t < b) ∧
    Decides exclusiveMinimum Any.float64 (fun _ => True) Any.float64 (fun b t => b < t) ∧
    Decides exclusiveMaximumInteger wholeBound inInt64 Any.int (fun n t => t < n) ∧
    Decides exclusiveMinimumInteger wholeBound inInt64 Any.int (fun n t => n < t) ∧
    (∀ b t : ℚ, ∃ s, createSchemaFromJSON lib
        [("type", .string "number"), ("exclusiveMaximum", .float64 b)] = .ret (.ok s) ∧
      (validate (.float64 t) s = .ret none ↔ t < b) ∧
      (¬ t < b → validate (.float64 t) s =
        .ret (some ⟨.float64 b, .float64 t, "exclusiveMaximum"⟩))) ∧
    (∀ b t : ℚ, ∃ s, createSchemaFromJSON lib
        [("type", .string "number"), ("exclusiveMinimum", .float64 b)] = .ret (.ok s) ∧
      (validate (.float64 t) s = .ret none ↔ b < t) ∧
      (¬ b < t → validate (.float64 t) s =
        .ret (some ⟨.float64 b, .float64 t, "exclusiveMinimum"⟩))) ∧
    (∀ n m : Int, inInt64 n → inInt64 m → ∃ s, createSchemaFromJSON lib
        [("type", .string "integer"), ("exclusiveMaximum", wholeBound n)] = .ret (.ok s) ∧
      (validate (.float64 m) s = .ret none ↔ m < n) ∧
      (¬ m < n → ∃ e, validate (.float64 m) s = .ret (some e))) ∧
    (∀ n m : Int, inInt64 n → inInt64 m → ∃ s, createSchemaFromJSON lib
        [("type", .string "integer"), ("exclusiveMinimum", wholeBound n)] = .ret (.ok s) ∧
      (validate (.float64 m) s = .ret none ↔ n < m) ∧
      (¬ n < m → ∃ e, validate (.float64 m) s = .ret (some e))) ∧
    ∃ s, createSchemaFromJSON lib
        [("type", .string "number"), ("exclusiveMaximum", .float64 5)] = .ret (.ok s) ∧
      validate (.float64 5) s = .ret (some ⟨.float64 5, .float64 5, "exclusiveMaximum"⟩) ∧
      validate (.float64 4.999) s = .ret none := by
  refine ⟨exclusiveMaximum_decides, exclusiveMinimum_decides, exclusiveMaximumInteger_decides,
    exclusiveMinimumInteger_decides, number_exclusiveMaximum_schema lib,
    number_exclusiveMinimum_schema lib, integer_exclusiveMaximum_schema lib,
    integer_exclusiveMinimum_schema lib, ?_⟩
  obtain ⟨s, hs, h5⟩ := number_exclusiveMaximum_schema lib 5 5
  obtain ⟨s2, hs2, h49⟩ := number_exclusiveMaximum_schema lib 5 4.999
  rw [hs] at hs2
  injection hs2 with hs2
  injection hs2 with hs2
  subst hs2
  exact ⟨s, hs, h5.2 (lt_irrefl _), h49.1.mpr (by norm_num)⟩

/-! ## Unique items -/

/-- C6, the code at the failing input: the array schema with `uniqueItems`
true compiles, and validating the array of the two distinct arrays [1] and [2]
against it panics when the first element is used as a map key. -/
theorem uniqueItems_panics_on_nested_arrays :
    ∃ s, createSchemaFromJSON plainLib [("type", .string "array"), ("uniqueItems", .bool true)] =
        .ret (.ok s) ∧
      validate (.slice [.slice [.float64 1], .slice [.float64 2]]) s =
        .panic "hash of unhashable type" := by
  refine ⟨_, by simp [createSchemaFromJSON_eq, getValueType, validateValueType, getValidation,
    validations, sliceValidation, getValidationLoop, List.lookup, uniqueItems]; rfl, ?_⟩
  simp [validate, validateValue, validateValueLoop, Schema.valueType, Schema.validateFunc,
    uniqueItemsLoop, hashable]

/-- On a hashable value the equality of map keys is equality. -/
theorem keyEq_iff (a b : Any) (ha : hashable a = true) : keyEq a b = true ↔ a = b := by
  cases a <;> cases b <;> simp [keyEq, hashable] at ha ⊢

/-- A hashable element is found among the keys exactly when it is one. -/
theorem any_keyEq_iff (elem : Any) (check : List Any) (h : hashable elem = true) :
    check.any (keyEq elem) = true ↔ elem ∈ check := by
  simp only [List.any_eq_true, keyEq_iff elem _ h]
  constructor
  · rintro ⟨x, hx, rfl⟩
    exact hx
  · intro hx
    exact ⟨elem, hx, rfl⟩

/-- On hashable elements the loop of `uniqueItems` passes exactly when the
elements are pairwise distinct and none is a key already, and never panics. -/
theorem uniqueItemsLoop_hashable (lib : Lib) (xs : List Any)
    (h : ∀ x ∈ xs, hashable x = true) :
    ∀ check, (uniqueItemsLoop lib check xs = .ret none ↔
        xs.Nodup ∧ ∀ x ∈ xs, x ∉ check) ∧
      ∃ r, uniqueItemsLoop lib check xs = .ret r := by
  induction xs with
  | nil => intro check; simp [uniqueItemsLoop]
  | cons x rest ih =>
    intro check
    have hx : hashable x = true := h x (List.mem_cons_self _ _)
    have ih := ih (fun y hy => h y (List.mem_cons_of_mem _ hy)) (x :: check)
    simp only [uniqueItemsLoop, hx, if_true]
    by_cases hm : x ∈ check
    · have := (any_keyEq_iff x check hx).mpr hm
      simp [this, hm]
    · have hany : check.any (keyEq x) = false := by
        cases hc : check.any (keyEq x) with
        | false => rfl
        | true => exact absurd ((any_keyEq_iff x check hx).mp hc) hm
      simp only [hany, Bool.false_eq_true, if_false, List.nodup_cons, List.mem_cons,
        forall_eq_or_imp]
      refine ⟨?_, ih.2⟩
      rw [ih.1]
      constructor
      · rintro ⟨hn, hall⟩
        refine ⟨⟨fun hxr => (hall x hxr) (List.mem_cons_self _ _), hn⟩, hm, ?_⟩
        intro y hy hyc
        exact hall y hy (List.mem_cons_of_mem _ hyc)
      · rintro ⟨⟨hxr, hn⟩, -, hall⟩
        refine ⟨hn, ?_⟩
        intro y hy hyc
        rcases List.mem_cons.mp hyc with h1 | h1
        · subst h1
          exact hxr hy
        · exact hall y hy h1

/-- On arrays whose elements are hashable (null, booleans, numbers, strings)
`uniqueItems` true passes exactly when the elements are pairwise distinct and
returns an error otherwise; `uniqueItems` false passes on every target. -/
theorem uniqueItems_on_hashable (lib : Lib) :
    (∃ f, uniqueItems lib (.bool true) = .ret (.ok f) ∧
      ∀ xs : List Any, (∀ x ∈ xs, hashable x = true) →
        (f (.slice xs) = .ret none ↔ xs.Nodup) ∧
        (¬ xs.Nodup → ∃ e, f (.slice xs) = .ret (some e))) ∧
    ∃ g, uniqueItems lib (.bool false) = .ret (.ok g) ∧ ∀ a, g a = .ret none := by
  refine ⟨⟨_, rfl, ?_⟩, _, rfl, fun a => by simp⟩
  intro xs h
  obtain ⟨hiff, r, hr⟩ := uniqueItemsLoop_hashable lib xs h []
  have hiff' : uniqueItemsLoop lib [] xs = .ret none ↔ xs.Nodup := by
    rw [hiff]; simp
  refine ⟨by simpa using hiff', ?_⟩
  intro hn
  cases r with
  | none => exact absurd (hiff'.mp hr) hn
  | some e => exact ⟨e, by simpa using hr⟩

/-! ## Required keys -/

/-- A map lookup fails exactly for the names that are not keys. -/
theorem lookup_isNone_iff (o : List (String × Any)) (n : String) :
    o.lookup n = none ↔ n ∉ keys o := by
  simp [keys, List.lookup_eq_none_iff]
  constructor
  · intro h x hx
    exact h _ _ hx rfl
  · intro h a b hab hn
    subst hn
    exact h b hab

/-- The loop of `required` returns the error of the first configured name
that is not a key of the target. -/
theorem requiredLoop_eq (o : List (String × Any)) (L : List String) :
    requiredLoop o (L.map Any.string) =
      .ret ((L.find? (fun n => decide (n ∉ keys o))).map
        fun n => NewError (.string n) (.string "")) := by
  induction L with
  | nil => rfl
  | cons n rest ih =>
    simp only [List.map_cons, requiredLoop]
    cases h : o.lookup n with
    | none =>
      have hk := (lookup_isNone_iff o n).mp h
      simp [List.find?, hk]
    | some v =>
      have hk : ¬ n ∉ keys o := fun hk => by
        rw [(lookup_isNone_iff o n).mpr hk] at h
        exact Option.noConfusion h
      simp only [ih, List.find?, hk, decide_False]


/-- No configured name is missing exactly when all are keys. -/
theorem find_missing_eq_none_iff (o : List (String × Any)) (L : List String) :
    L.find? (fun n => decide (n ∉ keys o)) = none ↔ ∀ n ∈ L, n ∈ keys o := by
  rw [List.find?_eq_none]
  simp

/-- Validation against the object node that holds `required` alone names the
first missing key under the keyword. -/
theorem validate_required (o : List (String × Any)) (L : List String) (f : validateFunc)
    (hf : f (.map o) = requiredLoop o (L.map Any.string)) :
    validate (.map o) (Schema.mk "object" [("required", f)] []) =
      .ret ((L.find? (fun n => decide (n ∉ keys o))).map
        fun n => ⟨.string n, .string "", "required"⟩) := by
  simp only [validate, Schema.valueType, validateValue, Schema.validateFunc, validateValueLoop,
    hf, requiredLoop_eq]
  cases L.find? (fun n => decide (n ∉ keys o)) <;> simp [NewError, Error.SetName]

/-- C7: for every list of names `L` and every object `o`, the builder
`required` returns a predicate, the object schema with that keyword compiles to
the node that holds it under the name "required", the predicate (and the
validation against that node) passes exactly when every name of `L` is a key of
`o`, and otherwise the error expects the first name of `L` missing from `o` and,
after the dispatch of `validateValue`, carries the keyword "required". -/
theorem required_reports_first_missing (lib : Lib) (L : List String) (o : List (String × Any)) :
    ∃ f, required (.slice (L.map Any.string)) = .ret (.ok f) ∧
      createSchemaFromJSON lib
          [("type", .string "object"), ("required", .slice (L.map Any.string))] =
        .ret (.ok (Schema.mk "object" [("required", f)] [])) ∧
      (f (.map o) = .ret none ↔ ∀ n ∈ L, n ∈ keys o) ∧
      (validate (.map o) (Schema.mk "object" [("required", f)] []) = .ret none ↔
        ∀ n ∈ L, n ∈ keys o) ∧
      ((¬ ∀ n ∈ L, n ∈ keys o) → ∃ n, L.find? (fun n => decide (n ∉ keys o)) = some n ∧
        f (.map o) = .ret (some (NewError (.string n) (.string ""))) ∧
        validate (.map o) (Schema.mk "object" [("required", f)] []) =
          .ret (some ⟨.string n, .string "", "required"⟩)) := by
  refine ⟨_, rfl, ?_, ?_, ?_, ?_⟩
  · simp [createSchemaFromJSON_eq, getValueType, validateValueType, getValidation,
      validations, objectValidation, getValidationLoop, List.lookup, required]
  · rw [← find_missing_eq_none_iff]
    simp only [requiredLoop_eq]
    cases L.find? (fun n => decide (n ∉ keys o)) <;> simp
  · rw [← find_missing_eq_none_iff, validate_required o L _ rfl]
    cases L.find? (fun n => decide (n ∉ keys o)) <;> simp
  · intro h
    rw [← find_missing_eq_none_iff] at h
    rw [validate_required o L _ rfl]
    simp only [requiredLoop_eq]
    cases hfind : L.find? (fun n => decide (n ∉ keys o)) with
    | none => exact absurd hfind h
    | some n => exact ⟨n, rfl, rfl, rfl⟩

/-- C7, the example: `required` of "a" and "b" fails on the object with the
key "a" alone, naming "b", and succeeds on the object with both keys. -/
theorem required_reports_first_missing_example :
    ∃ s, createSchemaFromJSON plainLib [("type", .string "object"),
        ("required", .slice [.string "a", .string "b"])] = .ret (.ok s) ∧
      validate (.map [("a", .float64 1)]) s = .ret (some ⟨.string "b", .string "", "required"⟩) ∧
      validate (.map [("a", .float64 1), ("b", .float64 2)]) s = .ret none := by
  obtain ⟨f, hf, hs, -, -, -⟩ := required_reports_first_missing plainLib ["a", "b"] []
  refine ⟨_, hs, ?_, ?_⟩
  · injection hf with hf
    injection hf with hf
    subst hf
    rw [validate_required _ ["a", "b"] _ rfl]
    simp [keys]
  · injection hf with hf
    injection hf with hf
    subst hf
    rw [validate_required _ ["a", "b"] _ rfl]
    simp [keys]

/-! ## Counting the elements that match `contains` -/

/-- Validation against a node without predicates never panics. -/
theorem validate_bare_total (T : ValueType) (x : Any) :
    ∃ r, validate x (Schema.mk T [] []) = .ret r := by
  unfold validate validateValue
  simp only [Schema.valueType, Schema.validateFunc, validateValueLoop]
  repeat' split
  all_goals exact ⟨_, rfl⟩

/-- The counting loop returns the number of matching elements. -/
theorem countCorrect_eq (T : ValueType) (hT : validateValueType T = true) (a : List Any) :
    countCorrect T a = .ret (matchCount T a) := by
  induction a with
  | nil => rfl
  | cons x rest ih =>
    obtain ⟨r, hr⟩ := validate_bare_total T x
    have hiff := validate_bare_iff T hT x
    rw [hr] at hiff
    simp only [countCorrect, hr, ih, bind_ret, matchCount, List.filter_cons]
    cases r with
    | none =>
      have hm : typeMatches T x := hiff.mp rfl
      simp [hm]
    | some e =>
      have hm : ¬ typeMatches T x := fun h => by
        have := hiff.mpr h
        simp at this
      simp [hm]

/-- The loop of `contains` passes exactly when an element matches, and never
panics. -/
theorem containsLoop_eq (T : ValueType) (hT : validateValueType T = true) (a : List Any) :
    ∀ types, (containsLoop T types a = .ret none ↔ 1 ≤ matchCount T a) ∧
      ∃ r, containsLoop T types a = .ret r := by
  induction a with
  | nil =>
    intro types
    simp [containsLoop, matchCount]
  | cons x rest ih =>
    intro types
    obtain ⟨r, hr⟩ := validate_bare_total T x
    have hiff := validate_bare_iff T hT x
    rw [hr] at hiff
    simp only [containsLoop, hr, bind_ret, matchCount, List.filter_cons]
    cases r with
    | none =>
      have hm : typeMatches T x := hiff.mp rfl
      simp [hm]
    | some e =>
      have hm : ¬ typeMatches T x := fun h => by
        have := hiff.mpr h
        simp at this
      simp only [hm, decide_False]
      exact ih _


/-- A node accepts a target exactly when every predicate of it does. -/
theorem validateValueLoop_none_iff (target : Any) (fs : List (String × validateFunc)) :
    validateValueLoop target fs = .ret none ↔ ∀ p ∈ fs, p.2 target = .ret none := by
  induction fs with
  | nil => simp [validateValueLoop]
  | cons p rest ih =>
    obtain ⟨name, f⟩ := p
    simp only [validateValueLoop, List.mem_cons, forall_eq_or_imp]
    cases hf : f target with
    | panic msg => simp
    | ret r =>
      cases r with
      | some e => simp
      | none => simpa using ih

/-- Acceptance by a node does not depend on the order of its predicates. -/
theorem validateValueLoop_perm (target : Any) (fs gs : List (String × validateFunc))
    (h : fs.Perm gs) :
    validateValueLoop target fs = .ret none ↔ validateValueLoop target gs = .ret none := by
  rw [validateValueLoop_none_iff, validateValueLoop_none_iff]
  exact ⟨fun hf p hp => hf p (h.mem_iff.mpr hp), fun hg p hp => hg p (h.mem_iff.mp hp)⟩

/-- The schema of `containsSchema` compiles to the node with the three
predicates of `contains`, `minContains` and `maxContains`. -/
theorem containsSchema_compiles (lib : Lib) (T : ValueType) (hT : validateValueType T = true)
    (m M : ℚ) :
    ∃ fc fmin fmax,
      createSchemaFromJSON lib (containsSchema T m M) = .ret (.ok (Schema.mk "array"
        [("contains", fc), ("minContains", fmin), ("maxContains", fmax)] [])) ∧
      (∀ a, fc (.slice a) = containsLoop T [] a) ∧
      (∀ a, fmin (.slice a) = (countCorrect T a).bind fun correct =>
        if correct ≥ intOfFloat64 m then .ret none
        else .ret (some (NewError (.int (intOfFloat64 m)) (.int correct)))) ∧
      (∀ a, fmax (.slice a) = (countCorrect T a).bind fun correct =>
        if correct ≤ intOfFloat64 M then .ret none
        else .ret (some (NewError (.int (intOfFloat64 M)) (.int correct)))) := by
  refine ⟨fun a => match a with
      | .slice xs => containsLoop T [] xs
      | _ => .panic "interface conversion",
    fun a => match a with
      | .slice xs => (countCorrect T xs).bind fun correct =>
          if correct ≥ intOfFloat64 m then .ret none
          else .ret (some (NewError (.int (intOfFloat64 m)) (.int correct)))
      | _ => .panic "interface conversion",
    fun a => match a with
      | .slice xs => (countCorrect T xs).bind fun correct =>
          if correct ≤ intOfFloat64 M then .ret none
          else .ret (some (NewError (.int (intOfFloat64 M)) (.int correct)))
      | _ => .panic "interface conversion", ?_, fun a => rfl, fun a => rfl, fun a => rfl⟩
  have ha : validateValueType "array" = true := by simp [validateValueType]
  simp [containsSchema, createSchemaFromJSON_eq, getValueType, getValidation,
    validations, sliceValidation, getValidationLoop, List.lookup, contains, minContains,
    maxContains, collectRequires, hT, ha]


/-- C8 (as amended): for the array schema with `contains` of a bare type `T`,
`minContains` `m` and `maxContains` `M`, both whole numbers of the signed 64 bit
range, and every array `a`, with `c` the number of elements that `validate`
accepts for `T`: the schema compiles and, in whatever order the predicates are
visited, validation succeeds exactly when `c` is at least 1 and lies between
`m` and `M` inclusive. -/
theorem contains_count_bounds (lib : Lib) (T : ValueType) (m M : Int) (a : List Any)
    (hT : validateValueType T = true) (hm : inInt64 m) (hM : inInt64 M) :
    ∃ s, createSchemaFromJSON lib (containsSchema T m M) = .ret (.ok s) ∧
      ∀ fs, fs.Perm s.validateFunc →
        (validate (.slice a) (Schema.mk s.valueType fs s.properties) = .ret none ↔
          1 ≤ matchCount T a ∧ m ≤ matchCount T a ∧ matchCount T a ≤ M) := by
  obtain ⟨fc, fmin, fmax, hs, hc, hmin, hmax⟩ := containsSchema_compiles lib T hT m M
  refine ⟨_, hs, ?_⟩
  intro fs hfs
  have hv : validate (.slice a) (Schema.mk "array" fs []) = validateValueLoop (.slice a) fs := by
    simp [validate, validateValue, Schema.valueType, Schema.validateFunc]
  simp only [Schema.valueType, Schema.properties, Schema.validateFunc] at hfs ⊢
  rw [hv, validateValueLoop_perm _ _ _ hfs, validateValueLoop_none_iff]
  simp only [List.mem_cons, List.mem_singleton, forall_eq_or_imp, forall_eq, List.not_mem_nil,
    false_implies, implies_true, and_true, hc, hmin, hmax, countCorrect_eq T hT, bind_ret,
    intOfFloat64_intCast m hm, intOfFloat64_intCast M hM, (containsLoop_eq T hT a []).1]
  by_cases h1 : m ≤ matchCount T a <;> by_cases h2 : matchCount T a ≤ M <;> simp [h1, h2]



/-- The number 1 lies in the range of `int`. -/
theorem inInt64_one : inInt64 1 := by unfold inInt64; norm_num
/-- The number 2 lies in the range of `int`. -/
theorem inInt64_two : inInt64 2 := by unfold inInt64; norm_num

/-- A whole float of the range of `int` matches the integer type. -/
theorem typeMatches_integer_cast (n : Int) (hn : inInt64 n) :
    typeMatches "integer" (.float64 (n : ℚ)) := Or.inr ⟨rfl, n, hn, rfl⟩

/-- Validation of an array against an array node runs its predicates. -/
theorem validate_array (xs : List Any) (fs : List (String × validateFunc))
    (props : List (String × Schema)) :
    validate (.slice xs) (Schema.mk "array" fs props) = validateValueLoop (.slice xs) fs := by
  simp [validate, validateValue, Schema.valueType, Schema.validateFunc]

/-- C8, witness: with `contains` of type integer, `minContains` 1 and
`maxContains` 2 the array [1, 2, "x"] is accepted and [1, 2, 3] is rejected
with the keyword "maxContains". -/
theorem contains_count_bounds_witness :
    validateValueType "integer" = true ∧ inInt64 1 ∧ inInt64 2 ∧
      ∃ s, createSchemaFromJSON plainLib (containsSchema "integer" 1 2) = .ret (.ok s) ∧
        validate (.slice [.float64 1, .float64 2, .string "x"]) s = .ret none ∧
        validate (.slice [.float64 1, .float64 2, .float64 3]) s =
          .ret (some ⟨.int 2, .int 3, "maxContains"⟩) := by
  have hT : validateValueType "integer" = true := by simp [validateValueType]
  have h1 : typeMatches "integer" (.float64 1) := by
    simpa using typeMatches_integer_cast 1 inInt64_one
  have h2 : typeMatches "integer" (.float64 2) := by
    simpa using typeMatches_integer_cast 2 inInt64_two
  have h3 : typeMatches "integer" (.float64 3) := by
    simpa using typeMatches_integer_cast 3 (by unfold inInt64; norm_num)
  have hx : ¬ typeMatches "integer" (.string "x") := by simp [typeMatches]
  obtain ⟨s, hs, hv⟩ := contains_count_bounds plainLib "integer" 1 2
    [.float64 1, .float64 2, .string "x"] hT inInt64_one inInt64_two
  refine ⟨hT, inInt64_one, inInt64_two, s, by simpa using hs, ?_, ?_⟩
  · have := (hv s.validateFunc (List.Perm.refl _)).mpr (by simp [matchCount, h1, h2, hx])
    cases s
    simpa [Schema.valueType, Schema.validateFunc, Schema.properties] using this
  · obtain ⟨fc, fmin, fmax, hs2, hc, hmin, hmax⟩ :=
      containsSchema_compiles plainLib "integer" hT 1 2
    have e1 : intOfFloat64 1 = 1 := by simpa using intOfFloat64_intCast 1 inInt64_one
    have e2 : intOfFloat64 2 = 2 := by simpa using intOfFloat64_intCast 2 inInt64_two
    simp only [Int.cast_one, Int.cast_ofNat] at hs
    rw [hs2] at hs
    injection hs with hs
    injection hs with hs
    subst hs
    rw [validate_array]
    simp [validateValueLoop, hc, hmin, hmax, countCorrect_eq "integer" hT, matchCount, h1, h2,
      h3, containsLoop, (validate_bare_iff "integer" hT _).mpr h1, e1, e2, NewError,
      Error.SetName]


/-- The conversion of 2^64 leaves the range of `int` and yields -2^63. -/
theorem intOfFloat64_two_pow_64 : intOfFloat64 (2 ^ 64) = -2 ^ 63 := by
  simp [intOfFloat64]

/-- The bare integer node rejects the float 2^64. -/
theorem validate_integer_two_pow_64 :
    validate (.float64 (2 ^ 64)) (Schema.mk "integer" [] []) =
      .ret (some (NewError (.string "int") (.string "float64"))) := by
  simp [validate, Schema.valueType, intOfFloat64_two_pow_64, float64OfInt]
  norm_num

/-- C8, counterexample.  First, the array that holds the float 2^64, whose kind
matches integer as it has zero fractional part, is rejected by `contains` of
type integer with the counts 1 and 1, though one element matches.  Second,
with `minContains` 1 and the whole number 2^64 as `maxContains`, the array [1]
has one matching element, within the bounds, and is rejected with the keyword
"maxContains", the bound having been converted to -2^63. -/
theorem contains_outside_int_range :
    (kindMatches "integer" (.float64 (2 ^ 64)) ∧
      ∃ s, createSchemaFromJSON plainLib (containsSchema "integer" 1 1) = .ret (.ok s) ∧
        validate (.slice [.float64 (2 ^ 64)]) s =
          .ret (some ⟨.valueType "integer", .strings ["float64"], "contains"⟩)) ∧
    (matchCount "integer" [.float64 1] = 1 ∧ (1 : ℚ) ≤ 2 ^ 64 ∧
      ∃ s, createSchemaFromJSON plainLib (containsSchema "integer" 1 (2 ^ 64)) = .ret (.ok s) ∧
        validate (.slice [.float64 1]) s =
          .ret (some ⟨.int (-2 ^ 63), .int 1, "maxContains"⟩)) := by
  have hT : validateValueType "integer" = true := by simp [validateValueType]
  have h1 : typeMatches "integer" (.float64 1) := by
    simpa using typeMatches_integer_cast 1 inInt64_one
  have e1 : intOfFloat64 1 = 1 := by simpa using intOfFloat64_intCast 1 inInt64_one
  refine ⟨⟨Or.inr ⟨rfl, ?_⟩, ?_⟩, ?_, by norm_num, ?_⟩
  · have h : ((2 : ℚ) ^ 64) = ((2 ^ 64 : Int) : ℚ) := by norm_num
    rw [h]
    exact Int.fract_intCast _
  · obtain ⟨fc, fmin, fmax, hs, hc, hmin, hmax⟩ :=
      containsSchema_compiles plainLib "integer" hT 1 1
    refine ⟨_, hs, ?_⟩
    rw [validate_array]
    simp [validateValueLoop, hc, containsLoop, validate_integer_two_pow_64, kindString, NewError,
      Error.SetName]
  · simp [matchCount, h1]
  · obtain ⟨fc, fmin, fmax, hs, hc, hmin, hmax⟩ :=
      containsSchema_compiles plainLib "integer" hT 1 (2 ^ 64)
    refine ⟨_, hs, ?_⟩
    rw [validate_array]
    simp [validateValueLoop, hc, hmin, hmax, countCorrect_eq "integer" hT, matchCount, h1,
      containsLoop, (validate_bare_iff "integer" hT _).mpr h1, e1, intOfFloat64_two_pow_64,
      NewError, Error.SetName]

/-! ## A required sibling that is absent -/

/-- The loop of `getValidation` over any registry that holds a keyword whose
required sibling is absent returns no predicates, and returns the error that
names the sibling when the other keywords are well formed. -/
theorem getValidationLoop_missing_sibling (values : List (String × Any)) (name r : String)
    (v : Any) (hv : values.lookup name = some v) :
    ∀ reg : List (String × rawValidation),
      (∃ rv, (name, rv) ∈ reg) →
      (∀ p ∈ reg, p.1 = name →
        p.2.requires.length ≠ 0 ∧ collectRequires values p.2.requires = .error r) →
      ¬ returnsOk (getValidationLoop values reg) ∧
      ((∀ p ∈ reg, p.1 ≠ name → keywordWellFormed values p) →
        getValidationLoop values reg = .ret (.error (name ++ " requires " ++ r))) := by
  intro reg
  induction reg with
  | nil => rintro ⟨rv, h⟩; simp at h
  | cons p rest ih =>
    obtain ⟨kw, val⟩ := p
    intro hmem hreq
    by_cases hk : kw = name
    · subst hk
      obtain ⟨hlen, hcol⟩ := hreq (kw, val) (List.mem_cons_self _ _) rfl
      simp only at hlen hcol
      simp [getValidationLoop, hv, hlen, hcol, returnsOk]
    · have hmem' : ∃ rv, (name, rv) ∈ rest := by
        obtain ⟨rv, h⟩ := hmem
        rcases List.mem_cons.mp h with h | h
        · injection h with h1 h2
          exact absurd h1.symm hk
        · exact ⟨rv, h⟩
      have ih := ih hmem' (fun p hp => hreq p (List.mem_cons_of_mem _ hp))
      cases hl : values.lookup kw with
      | none =>
        simp only [getValidationLoop, hl]
        exact ⟨ih.1, fun hw => ih.2 (fun p hp => hw p (List.mem_cons_of_mem _ hp))⟩
      | some c =>
        constructor
        · have ih1 := ih.1
          revert ih1
          simp only [getValidationLoop, hl]
          split
          · cases val.function c with
            | panic msg => simp [returnsOk]
            | ret b =>
              cases b with
              | error e => simp [returnsOk]
              | ok f =>
                cases getValidationLoop values rest with
                | panic msg => simp [returnsOk]
                | ret rs => cases rs <;> simp [returnsOk]
          · split
            · simp [returnsOk]
            · rename_i input _
              cases val.function (.slice (c :: input)) with
              | panic msg => simp [returnsOk]
              | ret b =>
                cases b with
                | error e => simp [returnsOk]
                | ok f =>
                  cases getValidationLoop values rest with
                  | panic msg => simp [returnsOk]
                  | ret rs => cases rs <;> simp [returnsOk]
        · intro hw
          have ih2 := ih.2 (fun p hp => hw p (List.mem_cons_of_mem _ hp))
          obtain ⟨input, hin, hok⟩ := hw (kw, val) (List.mem_cons_self _ _) hk c hl
          simp only at hin hok
          simp only [getValidationLoop, hl, hin, ih2]
          split
          · rename_i h0
            rw [if_pos h0] at hok
            revert hok
            cases val.function c with
            | panic msg => simp [returnsOk]
            | ret b => cases b <;> simp [returnsOk]
          · rename_i h0
            rw [if_neg h0] at hok
            revert hok
            cases val.function (.slice (c :: input)) with
            | panic msg => simp [returnsOk]
            | ret b => cases b <;> simp [returnsOk]


/-- In the array registry `minContains` and `maxContains` require `contains`. -/
theorem sliceValidation_sibling (lib : Lib) (values : List (String × Any)) (name : String)
    (hname : name = "minContains" ∨ name = "maxContains")
    (hno : values.lookup "contains" = none) :
    (∃ rv, (name, rv) ∈ sliceValidation lib) ∧
    ∀ p ∈ sliceValidation lib, p.1 = name →
      p.2.requires.length ≠ 0 ∧ collectRequires values p.2.requires = .error "contains" := by
  rcases hname with h | h <;> subst h
  · refine ⟨⟨⟨minContains, ["contains"]⟩, by simp [sliceValidation]⟩, ?_⟩
    intro p hp hk
    simp only [sliceValidation, List.mem_cons, List.mem_singleton, List.not_mem_nil,
      or_false] at hp
    rcases hp with h | h | h | h | h | h | h <;> subst h <;> simp at hk
    simp [collectRequires, hno]
  · refine ⟨⟨⟨maxContains, ["contains"]⟩, by simp [sliceValidation]⟩, ?_⟩
    intro p hp hk
    simp only [sliceValidation, List.mem_cons, List.mem_singleton, List.not_mem_nil,
      or_false] at hp
    rcases hp with h | h | h | h | h | h | h <;> subst h <;> simp at hk
    simp [collectRequires, hno]

/-- C9: for every raw schema of type array that has the key `minContains`
(respectively `maxContains`) and no key `contains`: in whatever order the
registry is visited the loop of `getValidation` returns no predicates, so
`createSchemaFromJSON` returns no schema; and when every other keyword of the
registry is well formed, the loop and `createSchemaFromJSON` return the
configuration error "minContains requires contains" (respectively "maxContains
requires contains"). -/
theorem missing_contains_fails (lib : Lib) (values : List (String × Any)) (name : String)
    (v : Any) (hname : name = "minContains" ∨ name = "maxContains")
    (htype : values.lookup "type" = some (.string "array"))
    (hkey : values.lookup name = some v) (hno : values.lookup "contains" = none) :
    (∀ reg, reg.Perm (sliceValidation lib) →
      ¬ returnsOk (getValidationLoop values reg) ∧
      ((∀ p ∈ reg, p.1 ≠ name → keywordWellFormed values p) →
        getValidationLoop values reg = .ret (.error (name ++ " requires contains")))) ∧
    (∀ s, createSchemaFromJSON lib values ≠ .ret (.ok s)) ∧
    ((∀ p ∈ sliceValidation lib, p.1 ≠ name → keywordWellFormed values p) →
      createSchemaFromJSON lib values = .ret (.error (name ++ " requires contains"))) := by
  obtain ⟨hmem, hreq⟩ := sliceValidation_sibling lib values name hname hno
  have hperm : ∀ reg, reg.Perm (sliceValidation lib) →
      ¬ returnsOk (getValidationLoop values reg) ∧
      ((∀ p ∈ reg, p.1 ≠ name → keywordWellFormed values p) →
        getValidationLoop values reg = .ret (.error (name ++ " requires " ++ "contains"))) := by
    intro reg hp
    refine getValidationLoop_missing_sibling values name "contains" v hkey reg ?_ ?_
    · obtain ⟨rv, h⟩ := hmem
      exact ⟨rv, hp.mem_iff.mpr h⟩
    · exact fun p h => hreq p (hp.mem_iff.mp h)
  have hsrc := hperm _ (List.Perm.refl _)
  have ha : getValueType (some (Any.string "array")) = some "array" := by
    simp [getValueType, validateValueType]
  refine ⟨?_, ?_, ?_⟩
  · intro reg hp
    have := hperm reg hp
    simpa [String.append_assoc] using this
  · intro s hs
    rw [createSchemaFromJSON_eq, htype, ha] at hs
    simp only [getValidation, validations] at hs
    simp at hs
    have h1 := hsrc.1
    revert h1 hs
    cases getValidationLoop values (sliceValidation lib) with
    | panic msg => simp
    | ret r => cases r <;> simp [returnsOk]
  · intro hw
    rw [createSchemaFromJSON_eq, htype, ha]
    simp only [getValidation, validations]
    simp [hsrc.2 hw, String.append_assoc]


/-- C9, witness: the array schema with `minContains` 1 and nothing else
returns the configuration error "minContains requires contains". -/
theorem missing_contains_fails_witness :
    createSchemaFromJSON plainLib [("type", .string "array"), ("minContains", .float64 1)] =
      .ret (.error "minContains requires contains") :=
  (missing_contains_fails plainLib [("type", .string "array"), ("minContains", .float64 1)]
    "minContains" (.float64 1) (Or.inl rfl) (by simp [List.lookup]) (by simp [List.lookup])
    (by simp [List.lookup])).2.2 (by
      intro p hp hne c hc
      simp only [sliceValidation, List.mem_cons, List.mem_singleton, List.not_mem_nil,
        or_false] at hp
      rcases hp with h | h | h | h | h | h | h <;> subst h <;> simp [List.lookup] at hc hne)

/-! ## The properties tree -/

/-- C10, the code at the failing input: the object schema whose property `a`
is a string with `minLength` 5 compiles, its `properties` tree holds the schema
of `a` with the predicate of `minLength`, which rejects "x", and yet
validation of the object whose `a` is "x" returns no error. -/
theorem nested_property_keywords_ignored :
    ∃ s fa, createSchemaFromJSON plainLib [("type", .string "object"), ("properties", .map
        [("a", .map [("type", .string "string"), ("minLength", .float64 5)])])] = .ret (.ok s) ∧
      s.properties = [("a", Schema.mk "string" [("minLength", fa)] [])] ∧
      fa (.string "x") = .ret (some (NewError (.int 5) (.int 1))) ∧
      validate (.map [("a", .string "x")]) s = .ret none := by
  have h5 : float64OfInt (intOfFloat64 5) = 5 := whole_intCast 5 (by unfold inInt64; norm_num)
  have h5' : intOfFloat64 5 = 5 := intOfFloat64_intCast 5 (by unfold inInt64; norm_num)
  have hx : "x".utf8ByteSize = 1 := by decide
  have hin : ∃ fa, createSchemaFromJSON plainLib
      [("type", .string "string"), ("minLength", .float64 5)] =
        .ret (.ok (Schema.mk "string" [("minLength", fa)] [])) ∧
      fa (.string "x") = .ret (some (NewError (.int 5) (.int 1))) := by
    refine ⟨fun a => match a with
      | .string s =>
        if intOfFloat64 5 ≤ strLen s then .ret none
        else .ret (some (NewError (.int (intOfFloat64 5)) (.int (strLen s))))
      | _ => .panic "interface conversion", ?_, ?_⟩
    · simp [createSchemaFromJSON_eq, getValueType, validateValueType, getValidation, validations,
        stringValidation, getValidationLoop, List.lookup, minLength, h5]
      try rfl
    · simp [h5', strLen, hx]
  obtain ⟨fa, hin, hfa⟩ := hin
  have hout : ∃ fp, createSchemaFromJSON plainLib [("type", .string "object"), ("properties", .map
        [("a", .map [("type", .string "string"), ("minLength", .float64 5)])])] =
        .ret (.ok (Schema.mk "object" [("properties", fp)]
          [("a", Schema.mk "string" [("minLength", fa)] [])])) ∧
      fp (.map [("a", .string "x")]) = .ret none := by
    refine ⟨fun a => match a with
      | .map v => propertiesCheck [("a", "string")] v
      | _ => .panic "interface conversion", ?_, ?_⟩
    · rw [createSchemaFromJSON_eq]
      simp [getValueType, validateValueType, getValidation, validations,
        objectValidation, getValidationLoop, List.lookup, properties, propertiesTypes,
        compileProperties_map, compileProperties_nil, hin]
      try rfl
    · simp [propertiesCheck, List.lookup, validate, validateValue, validateValueLoop,
        Schema.valueType, Schema.validateFunc]
  obtain ⟨fp, hout, hfp⟩ := hout
  refine ⟨_, fa, hout, rfl, hfa, ?_⟩
  simp [validate, validateValue, validateValueLoop, Schema.valueType, Schema.validateFunc, hfp]


/-! ## Loops over a registry -/

/-- The loop of `getValidation` runs one round for every keyword of the registry. -/
theorem getValidationLoop_eq_rounds (values : List (String × Any))
    (reg : List (String × rawValidation)) :
    getValidationLoop values reg = runRounds (reg.map (keywordResult values)) := by
  induction reg with
  | nil => rfl
  | cons p rest ih =>
    obtain ⟨name, validation⟩ := p
    simp only [getValidationLoop, List.map_cons, runRounds, keywordResult, ← ih]
    generalize getValidationLoop values rest = R
    cases hl : values.lookup name with
    | none =>
      simp only [bind_ret]
      cases R with
      | panic msg => rfl
      | ret rs => cases rs <;> simp
    | some value =>
      simp only
      split
      · cases validation.function value with
        | panic msg => rfl
        | ret r =>
          cases r with
          | error e => simp
          | ok f =>
            cases R with
            | panic msg => rfl
            | ret rs => cases rs <;> simp
      · cases collectRequires values validation.requires with
        | error r => simp
        | ok input =>
          simp only
          cases validation.function (.slice (value :: input)) with
          | panic msg => rfl
          | ret r =>
            cases r with
            | error e => simp
            | ok f =>
              cases R with
              | panic msg => rfl
              | ret rs => cases rs <;> simp

/-- A loop returns results exactly when every round does. -/
theorem runRounds_returnsOk_iff {α : Type} (l : List (Go (Except String (Option α)))) :
    returnsOk (runRounds l) ↔ ∀ x ∈ l, returnsOk x := by
  induction l with
  | nil => simp [runRounds, returnsOk]
  | cons x rest ih =>
    simp only [runRounds, List.mem_cons, forall_eq_or_imp, ← ih]
    cases x with
    | panic msg => simp [returnsOk]
    | ret r =>
      cases r with
      | error e => simp [returnsOk]
      | ok o =>
        simp only [bind_ret]
        cases runRounds rest with
        | panic msg => simp [returnsOk]
        | ret rs => cases rs <;> simp [returnsOk]

/-- The results of a loop are those of its rounds, in order. -/
theorem runRounds_ok_iff {α : Type} (l : List (Go (Except String (Option α)))) (fs : List α) :
    runRounds l = .ret (.ok fs) ↔
      ∃ os : List (Option α), l = os.map (fun o => .ret (.ok o)) ∧ fs = os.reduceOption := by
  induction l generalizing fs with
  | nil =>
    simp only [runRounds, Go.ret.injEq, Except.ok.injEq]
    constructor
    · rintro rfl
      exact ⟨[], rfl, rfl⟩
    · rintro ⟨os, h1, h2⟩
      cases os with
      | nil => simpa using h2.symm
      | cons o os => simp at h1
  | cons x rest ih =>
    simp only [runRounds]
    constructor
    · intro h
      cases x with
      | panic msg => simp at h
      | ret r =>
        cases r with
        | error e => simp at h
        | ok o =>
          simp only [bind_ret] at h
          cases hr : runRounds rest with
          | panic msg => simp [hr] at h
          | ret rs =>
            cases rs with
            | error e => simp [hr] at h
            | ok res =>
              simp [hr] at h
              obtain ⟨os, h1, h2⟩ := (ih res).mp hr
              refine ⟨o :: os, by simp [h1], ?_⟩
              rw [← h, h2]
              cases o <;> simp [List.reduceOption_cons_of_some, List.reduceOption_cons_of_none]
    · rintro ⟨os, h1, h2⟩
      cases os with
      | nil => simp at h1
      | cons o os =>
        simp only [List.map_cons, List.cons.injEq] at h1
        obtain ⟨hx, hrest⟩ := h1
        have := (ih os.reduceOption).mpr ⟨os, hrest, rfl⟩
        subst hx
        simp only [bind_ret, this, h2]
        cases o <;> simp [List.reduceOption_cons_of_some, List.reduceOption_cons_of_none]


/-- When every round returns, the loop returns what the rounds contribute. -/
theorem runRounds_eq_of_ok {α : Type} (l : List (Go (Except String (Option α))))
    (h : ∀ x ∈ l, returnsOk x) : runRounds l = .ret (.ok (l.filterMap roundValue)) := by
  induction l with
  | nil => rfl
  | cons x rest ih =>
    have hx := h x (List.mem_cons_self _ _)
    have ih := ih (fun y hy => h y (List.mem_cons_of_mem _ hy))
    cases x with
    | panic msg => exact absurd hx (by simp [returnsOk])
    | ret r =>
      cases r with
      | error e => exact absurd hx (by simp [returnsOk])
      | ok o => cases o <;> simp [runRounds, ih, roundValue, List.filterMap_cons]

/-- Visiting the rounds in another order changes neither whether the loop
returns results nor, up to their order, the results. -/
theorem runRounds_perm {α : Type} (l₁ l₂ : List (Go (Except String (Option α))))
    (h : l₁.Perm l₂) :
    (returnsOk (runRounds l₁) ↔ returnsOk (runRounds l₂)) ∧
    ∀ fs₁, runRounds l₁ = .ret (.ok fs₁) →
      ∃ fs₂, runRounds l₂ = .ret (.ok fs₂) ∧ fs₁.Perm fs₂ := by
  constructor
  · rw [runRounds_returnsOk_iff, runRounds_returnsOk_iff]
    exact ⟨fun h1 x hx => h1 x (h.mem_iff.mpr hx), fun h2 x hx => h2 x (h.mem_iff.mp hx)⟩
  · intro fs₁ h1
    have hok : ∀ x ∈ l₁, returnsOk x := by
      rw [← runRounds_returnsOk_iff, h1]
      trivial
    have e1 := runRounds_eq_of_ok l₁ hok
    have e2 := runRounds_eq_of_ok l₂ (fun x hx => hok x (h.mem_iff.mpr hx))
    rw [h1] at e1
    injection e1 with e1
    injection e1 with e1
    exact ⟨_, e2, e1 ▸ h.filterMap roundValue⟩

/-- Visiting a registry in another order changes neither whether the loop of
`getValidation` returns predicates nor, up to their order, the predicates. -/
theorem getValidationLoop_perm (values : List (String × Any))
    (reg₁ reg₂ : List (String × rawValidation)) (h : reg₁.Perm reg₂) :
    (returnsOk (getValidationLoop values reg₁) ↔ returnsOk (getValidationLoop values reg₂)) ∧
    ∀ fs₁, getValidationLoop values reg₁ = .ret (.ok fs₁) →
      ∃ fs₂, getValidationLoop values reg₂ = .ret (.ok fs₂) ∧ fs₁.Perm fs₂ := by
  rw [getValidationLoop_eq_rounds, getValidationLoop_eq_rounds]
  exact runRounds_perm _ _ (h.map _)

/-! ## Whole-number bounds as configuration -/

/-- The test of the source holds exactly for the configurations of a whole bound. -/
theorem wholeBound_of_test_iff (v : ℚ) :
    float64OfInt (intOfFloat64 v) = v ↔ ∃ n, inInt64 n ∧ Any.float64 v = wholeBound n := by
  rw [whole_iff]
  constructor
  · rintro ⟨n, hn, rfl⟩
    exact ⟨n, hn, rfl⟩
  · rintro ⟨n, hn, h⟩
    simp only [wholeBound, Any.float64.injEq] at h
    exact ⟨n, hn, h⟩

/-- `minimumInteger` is a builder of a whole-number bound. -/
theorem minimumInteger_wholeBound : WholeBoundBuilder minimumInteger := by
  intro c
  cases c with
  | float64 v =>
    rw [← wholeBound_of_test_iff]
    by_cases hv : float64OfInt (intOfFloat64 v) = v <;> simp [minimumInteger, hv]
  | _ => simp [minimumInteger, wholeBound]

/-- `exclusiveMinimumInteger` is a builder of a whole-number bound. -/
theorem exclusiveMinimumInteger_wholeBound : WholeBoundBuilder exclusiveMinimumInteger := by
  intro c
  cases c with
  | float64 v =>
    rw [← wholeBound_of_test_iff]
    by_cases hv : float64OfInt (intOfFloat64 v) = v <;> simp [exclusiveMinimumInteger, hv]
  | _ => simp [exclusiveMinimumInteger, wholeBound]

/-- `maximumInteger` is a builder of a whole-number bound. -/
theorem maximumInteger_wholeBound : WholeBoundBuilder maximumInteger := by
  intro c
  cases c with
  | float64 v =>
    rw [← wholeBound_of_test_iff]
    by_cases hv : float64OfInt (intOfFloat64 v) = v <;> simp [maximumInteger, hv]
  | _ => simp [maximumInteger, wholeBound]

/-- `exclusiveMaximumInteger` is a builder of a whole-number bound. -/
theorem exclusiveMaximumInteger_wholeBound : WholeBoundBuilder exclusiveMaximumInteger := by
  intro c
  cases c with
  | float64 v =>
    rw [← wholeBound_of_test_iff]
    by_cases hv : float64OfInt (intOfFloat64 v) = v <;> simp [exclusiveMaximumInteger, hv]
  | _ => simp [exclusiveMaximumInteger, wholeBound]

/-- `multipleOfInteger` is a builder of a whole-number bound. -/
theorem multipleOfInteger_wholeBound : WholeBoundBuilder multipleOfInteger := by
  intro c
  cases c with
  | float64 v =>
    rw [← wholeBound_of_test_iff]
    by_cases hv : float64OfInt (intOfFloat64 v) = v <;> simp [multipleOfInteger, hv]
  | _ => simp [multipleOfInteger, wholeBound]

/-- `minLength` is a builder of a whole-number bound. -/
theorem minLength_wholeBound : WholeBoundBuilder minLength := by
  intro c
  cases c with
  | float64 v =>
    rw [← wholeBound_of_test_iff]
    by_cases hv : float64OfInt (intOfFloat64 v) = v <;> simp [minLength, hv]
  | _ => simp [minLength, wholeBound]

/-- `maxLength` is a builder of a whole-number bound. -/
theorem maxLength_wholeBound : WholeBoundBuilder maxLength := by
  intro c
  cases c with
  | float64 v =>
    rw [← wholeBound_of_test_iff]
    by_cases hv : float64OfInt (intOfFloat64 v) = v <;> simp [maxLength, hv]
  | _ => simp [maxLength, wholeBound]

/-- `minItems` is a builder of a whole-number bound. -/
theorem minItems_wholeBound : WholeBoundBuilder minItems := by
  intro c
  cases c with
  | float64 v =>
    rw [← wholeBound_of_test_iff]
    by_cases hv : float64OfInt (intOfFloat64 v) = v <;> simp [minItems, hv]
  | _ => simp [minItems, wholeBound]

/-- `maxItems` is a builder of a whole-number bound. -/
theorem maxItems_wholeBound : WholeBoundBuilder maxItems := by
  intro c
  cases c with
  | float64 v =>
    rw [← wholeBound_of_test_iff]
    by_cases hv : float64OfInt (intOfFloat64 v) = v <;> simp [maxItems, hv]
  | _ => simp [maxItems, wholeBound]

/-- `minProperties` is a builder of a whole-number bound. -/
theorem minProperties_wholeBound : WholeBoundBuilder minProperties := by
  intro c
  cases c with
  | float64 v =>
    rw [← wholeBound_of_test_iff]
    by_cases hv : float64OfInt (intOfFloat64 v) = v <;> simp [minProperties, hv]
  | _ => simp [minProperties, wholeBound]

/-- `maxProperties` is a builder of a whole-number bound. -/
theorem maxProperties_wholeBound : WholeBoundBuilder maxProperties := by
  intro c
  cases c with
  | float64 v =>
    rw [← wholeBound_of_test_iff]
    by_cases hv : float64OfInt (intOfFloat64 v) = v <;> simp [maxProperties, hv]
  | _ => simp [maxProperties, wholeBound]

/-- Every listed keyword has a builder of a whole-number bound. -/
theorem wholeBoundKeywords_builder (T : ValueType) (name : String) (b : rawValidateFunc)
    (h : (T, name, b) ∈ wholeBoundKeywords) : WholeBoundBuilder b := by
  simp only [wholeBoundKeywords, List.mem_cons, List.mem_singleton, List.not_mem_nil,
    or_false, Prod.mk.injEq] at h
  rcases h with h | h | h | h | h | h | h | h | h | h | h <;> obtain ⟨-, -, rfl⟩ := h
  · exact minimumInteger_wholeBound
  · exact exclusiveMinimumInteger_wholeBound
  · exact maximumInteger_wholeBound
  · exact exclusiveMaximumInteger_wholeBound
  · exact multipleOfInteger_wholeBound
  · exact minLength_wholeBound
  · exact maxLength_wholeBound
  · exact minItems_wholeBound
  · exact maxItems_wholeBound
  · exact minProperties_wholeBound
  · exact maxProperties_wholeBound

/-- Every listed keyword stands in the registry of its type, without siblings. -/
theorem wholeBoundKeywords_registry (lib : Lib) (T : ValueType) (name : String)
    (b : rawValidateFunc) (h : (T, name, b) ∈ wholeBoundKeywords) :
    ∃ reg, validations lib T = some reg ∧ (name, (⟨b, []⟩ : rawValidation)) ∈ reg ∧
      validateValueType T = true := by
  simp only [wholeBoundKeywords, List.mem_cons, List.mem_singleton, List.not_mem_nil,
    or_false, Prod.mk.injEq] at h
  rcases h with h | h | h | h | h | h | h | h | h | h | h <;> obtain ⟨rfl, rfl, rfl⟩ := h <;>
    simp [validations, integerValidation, stringValidation, sliceValidation, objectValidation,
      validateValueType]


/-- The round of a keyword whose builder returns no predicate returns none. -/
theorem keywordResult_of_builder_fails (values : List (String × Any)) (name : String)
    (rv : rawValidation) (c : Any) (hreq : rv.requires = [])
    (hl : values.lookup name = some c) (hb : ¬ returnsOk (rv.function c)) :
    ¬ returnsOk (keywordResult values (name, rv)) := by
  simp only [keywordResult, hl, hreq, List.length_nil, if_true]
  revert hb
  cases rv.function c with
  | panic msg => simp [returnsOk]
  | ret r => cases r <;> simp [returnsOk]

/-- The loop of `getValidation` returns no predicates when the builder of a keyword
that is present returns none. -/
theorem getValidationLoop_of_builder_fails (values : List (String × Any)) (name : String)
    (rv : rawValidation) (c : Any) (reg : List (String × rawValidation))
    (hmem : (name, rv) ∈ reg) (hreq : rv.requires = [])
    (hl : values.lookup name = some c) (hb : ¬ returnsOk (rv.function c)) :
    ¬ returnsOk (getValidationLoop values reg) := by
  rw [getValidationLoop_eq_rounds, runRounds_returnsOk_iff]
  intro h
  exact keywordResult_of_builder_fails values name rv c hreq hl hb
    (h _ (List.mem_map_of_mem _ hmem))

/-- `getValueType` returns a recognised name. -/
theorem getValueType_valid (T : ValueType) (hT : validateValueType T = true) :
    getValueType (some (.string T)) = some T := by
  simp [getValueType, hT]

/-- `createSchemaFromJSON` returns no schema when the loop of `getValidation`
over the registry of its type returns no predicates. -/
theorem createSchema_of_loop_fails (lib : Lib) (values : List (String × Any)) (T : ValueType)
    (reg : List (String × rawValidation)) (hreg : validations lib T = some reg)
    (hT : validateValueType T = true) (htype : values.lookup "type" = some (.string T))
    (hloop : ¬ returnsOk (getValidationLoop values reg)) :
    ¬ returnsOk (createSchemaFromJSON lib values) := by
  rw [createSchemaFromJSON_eq, htype, getValueType_valid T hT]
  simp only [getValidation, hreg]
  revert hloop
  cases getValidationLoop values reg with
  | panic msg => simp [returnsOk]
  | ret r => cases r <;> simp [returnsOk]

/-- What returns, and returns no value, returns an error. -/
theorem error_of_not_returnsOk {α : Type} (x : Go (Except String α)) (h : ¬ returnsOk x) :
    ∀ r, x = .ret r → ∃ err, r = .error err := by
  intro r hr
  subst hr
  cases r with
  | error err => exact ⟨err, rfl⟩
  | ok a => exact absurd trivial h

/-- C14 (as amended): for each keyword that takes a whole-number bound and
every configuration `c`, the builder returns a predicate exactly when `c` is a
float with zero fractional part inside the signed 64 bit range; for every other
configuration it returns a configuration error, the loop of `getValidation`
returns no predicates in whatever order the registry is visited, and whatever
`createSchemaFromJSON` returns for a raw schema of the type with that keyword is
a configuration error. -/
theorem whole_bound_configuration (lib : Lib) (T : ValueType) (name : String)
    (b : rawValidateFunc) (c : Any) (h : (T, name, b) ∈ wholeBoundKeywords) :
    ((∃ f, b c = .ret (.ok f)) ↔ ∃ n, inInt64 n ∧ c = wholeBound n) ∧
    ((¬ ∃ n, inInt64 n ∧ c = wholeBound n) →
      (∃ msg, b c = .ret (.error msg)) ∧
      ∀ values : List (String × Any), values.lookup "type" = some (.string T) →
        values.lookup name = some c →
        (∀ reg reg', validations lib T = some reg → reg'.Perm reg →
          ¬ returnsOk (getValidationLoop values reg')) ∧
        ∀ r, createSchemaFromJSON lib values = .ret r → ∃ err, r = .error err) := by
  have hb := wholeBoundKeywords_builder T name b h c
  refine ⟨hb.1, fun hc => ⟨hb.2 hc, ?_⟩⟩
  intro values htype hl
  obtain ⟨reg, hreg, hmem, hT⟩ := wholeBoundKeywords_registry lib T name b h
  have hno : ¬ returnsOk (b c) := by
    obtain ⟨msg, hmsg⟩ := hb.2 hc
    rw [hmsg]
    simp [returnsOk]
  constructor
  · intro reg0 reg' hreg0 hp
    rw [hreg] at hreg0
    injection hreg0 with hreg0
    subst hreg0
    exact getValidationLoop_of_builder_fails values name ⟨b, []⟩ c reg'
      (hp.mem_iff.mpr hmem) rfl hl hno
  · exact error_of_not_returnsOk _ (createSchema_of_loop_fails lib values T reg hreg hT htype
      (getValidationLoop_of_builder_fails values name ⟨b, []⟩ c reg hmem rfl hl hno))

/-- C14, witness: `maxLength` builds a predicate from 3 and returns a
configuration error for one half. -/
theorem whole_bound_configuration_witness :
    (("string", "maxLength", maxLength) ∈ wholeBoundKeywords) ∧
    ((∃ f, maxLength (.float64 3) = .ret (.ok f)) ↔
      ∃ n, inInt64 n ∧ Any.float64 3 = wholeBound n) ∧
    (∃ f, maxLength (.float64 3) = .ret (.ok f)) ∧
    ∃ msg, maxLength (.float64 (1 / 2)) = .ret (.error msg) := by
  have hm : ("string", "maxLength", maxLength) ∈ wholeBoundKeywords := by
    simp [wholeBoundKeywords]
  have h3 := whole_bound_configuration plainLib "string" "maxLength" maxLength (.float64 3) hm
  have hh := whole_bound_configuration plainLib "string" "maxLength" maxLength
    (.float64 (1 / 2)) hm
  refine ⟨hm, h3.1, h3.1.mpr ⟨3, by unfold inInt64; norm_num, by simp [wholeBound]⟩,
    (hh.2 ?_).1⟩
  rintro ⟨n, -, hn⟩
  simp only [wholeBound, Any.float64.injEq] at hn
  have h2 : (2 : ℚ) * (n : ℚ) = 1 := by rw [← hn]; norm_num
  have h3 : (2 * n : Int) = 1 := by exact_mod_cast h2
  omega

/-- C14, counterexample: the float 2^64 has zero fractional part, and
`maxLength` returns a configuration error for it and no predicate. -/
theorem whole_bound_rejects_large_whole_float :
    Int.fract ((2 : ℚ) ^ 64) = 0 ∧
    maxLength (.float64 (2 ^ 64)) = .ret (.error "maxLength requires integer") ∧
    ¬ ∃ f, maxLength (.float64 (2 ^ 64)) = .ret (.ok f) := by
  have hf : Int.fract ((2 : ℚ) ^ 64) = 0 := by
    have h : ((2 : ℚ) ^ 64) = ((2 ^ 64 : Int) : ℚ) := by norm_num
    rw [h]
    exact Int.fract_intCast _
  have he : maxLength (.float64 (2 ^ 64)) = .ret (.error "maxLength requires integer") := by
    simp [maxLength, intOfFloat64_two_pow_64, float64OfInt]
    norm_num
  refine ⟨hf, he, ?_⟩
  rintro ⟨f, hf2⟩
  rw [he] at hf2
  simp at hf2

/-! ## Naming an error -/

/-- C17, amended: for every error `e` and names `a`, `b`, when `a` is not the
empty string or `e` already carries a keyword, naming `e` with `a` and then
with `b` leaves the keyword that `e.SetName a` has; an already named error
keeps its keyword, an unnamed one takes `a`; and `SetName` never changes the
`expect` and `got` fields. -/
theorem setName_keeps_first (e : Error) (a b : String) :
    (a ≠ "" ∨ e.name ≠ "" → ((e.SetName a).SetName b).name = (e.SetName a).name) ∧
    (e.name ≠ "" → (e.SetName a).name = e.name) ∧
    (e.name = "" → (e.SetName a).name = a) ∧
    (e.SetName a).expect = e.expect ∧ (e.SetName a).got = e.got ∧
    ((e.SetName a).SetName b).expect = e.expect ∧ ((e.SetName a).SetName b).got = e.got := by
  obtain ⟨x, g, n⟩ := e
  by_cases hn : n = "" <;> by_cases ha : a = "" <;> simp [Error.SetName, hn, ha]

/-- C17, instance: an unnamed error named "minimum" and then "items" keeps
the keyword "minimum". -/
theorem setName_keeps_first_witness :
    (((NewError (.string "x") (.string "y")).SetName "minimum").SetName "items").name =
      ((NewError (.string "x") (.string "y")).SetName "minimum").name :=
  (setName_keeps_first (NewError (.string "x") (.string "y")) "minimum" "items").1
    (Or.inl (by decide))

/-- C17, counterexample: naming an unnamed error with the empty string
leaves it unnamed, so a later `SetName "minimum"` does change the keyword
of `e.SetName ""`. -/
theorem setName_empty_then_named :
    ((NewError (.string "x") (.string "y")).SetName "").name = "" ∧
    (((NewError (.string "x") (.string "y")).SetName "").SetName "minimum").name =
      "minimum" := by
  simp [NewError, Error.SetName]

/-! ## The error of a violated bound -/

theorem inInt64_five : inInt64 5 := by unfold inInt64; norm_num

theorem inInt64_seven : inInt64 7 := by unfold inInt64; norm_num

/-- C15, failing input: the integer schema with `"maximum": 5` compiles, and
validating the target 7 returns an error named "maximum" whose `expect`
field is the target 7 and whose `got` field is the bound 5. -/
theorem integer_bound_error_swapped :
    ∃ s, createSchemaFromJSON plainLib [("type", .string "integer"), ("maximum", .float64 5)] =
        .ret (.ok s) ∧
      validate (.float64 7) s = .ret (some ⟨.float64 7, .float64 5, "maximum"⟩) := by
  have h5 : float64OfInt (intOfFloat64 5) = 5 := by simpa using whole_intCast 5 inInt64_five
  have h7 : float64OfInt (intOfFloat64 7) = 7 := by simpa using whole_intCast 7 inInt64_seven
  have h7' : intOfFloat64 7 = 7 := by simpa using intOfFloat64_intCast 7 inInt64_seven
  refine ⟨_, by simp [createSchemaFromJSON_eq, getValueType, validateValueType, getValidation,
    validations, integerValidation, getValidationLoop, List.lookup, maximumInteger, h5]
                try rfl, ?_⟩
  simp [validate, validateValue, validateValueLoop, Schema.valueType, Schema.validateFunc, h7,
    h7', float64OfInt, NewError, Error.SetName]
  try norm_num

/-! ## Object keywords given a configuration of the wrong shape -/

/-- C13, failing inputs: `required` given a string returns a predicate, and
that predicate faults on an object target; `dependentRequired`,
`properties`, `propertyNames` and `patternProperties` given a number (or a
mapping with entries of the wrong shape) fault instead of returning a
configuration error; so compiling `{"type":"object","properties":5}`
faults, and `{"type":"object","required":"a"}` compiles to a schema whose
validation faults on the empty object. -/
theorem object_builders_fault_on_wrong_shape :
    (∃ f, required (.string "a") = .ret (.ok f) ∧ f (.map []) = .panic "interface conversion") ∧
    dependentRequired (.float64 5) = .panic "interface conversion" ∧
    dependentRequired (.map [("a", .string "b")]) = .panic "interface conversion" ∧
    properties (.float64 5) = .panic "interface conversion" ∧
    properties (.map [("a", .float64 5)]) = .panic "interface conversion" ∧
    propertyNames plainLib (.float64 5) = .panic "interface conversion" ∧
    patternProperties plainLib (.float64 5) = .panic "interface conversion" ∧
    createSchemaFromJSON plainLib [("type", .string "object"), ("properties", .float64 5)] =
      .panic "interface conversion" ∧
    ∃ s, createSchemaFromJSON plainLib [("type", .string "object"), ("required", .string "a")] =
        .ret (.ok s) ∧
      validate (.map []) s = .panic "interface conversion" := by
  have hr : ∃ f, required (.string "a") = .ret (.ok f) ∧
      f (.map []) = .panic "interface conversion" := ⟨_, rfl, rfl⟩
  refine ⟨hr, rfl, rfl, rfl, rfl, rfl, rfl, ?_, ?_⟩
  · simp [createSchemaFromJSON_eq, getValueType, validateValueType, getValidation,
      validations, objectValidation, getValidationLoop, List.lookup, properties]
  · obtain ⟨f, hf, hp⟩ := hr
    refine ⟨Schema.mk "object" [("required", f)] [], ?_, ?_⟩
    · simp [createSchemaFromJSON_eq, getValueType, validateValueType, getValidation,
        validations, objectValidation, getValidationLoop, List.lookup, hf]
    · simp [validate, validateValue, validateValueLoop, Schema.valueType, Schema.validateFunc,
        hp]

/-! ## Positional items against a shorter array -/

/-- C20, failing input: the array schema whose `items` is the sequence
`[{"type":"string"},{"type":"integer"}]` compiles, and validating the
one-element array `["a"]` faults with an index out of range. -/
theorem itemsSlice_index_out_of_range :
    ∃ s, createSchemaFromJSON plainLib [("type", .string "array"), ("items", .slice
        [.map [("type", .string "string")], .map [("type", .string "integer")]])] =
        .ret (.ok s) ∧
      validate (.slice [.string "a"]) s = .panic "index out of range" := by
  refine ⟨_, by simp [createSchemaFromJSON_eq, getValueType, validateValueType, getValidation,
    validations, sliceValidation, getValidationLoop, List.lookup, items, itemsSlice,
    itemsSliceTypes]
                try rfl, ?_⟩
  simp [validate, validateValue, validateValueLoop, Schema.valueType, Schema.validateFunc,
    itemsSliceCheck]

/-! ## The validator set and the keys of the raw schema -/

/-- A round that returns contributes nothing for an absent keyword and one
predicate, under the name of the keyword, for a present one. -/
theorem keywordResult_ok_cases (values : List (String × Any)) (p : String × rawValidation)
    (o : Option (String × validateFunc)) (h : keywordResult values p = .ret (.ok o)) :
    (values.lookup p.1 = none ∧ o = none) ∨
      ∃ c f, values.lookup p.1 = some c ∧ o = some (p.1, f) := by
  unfold keywordResult at h
  cases hl : values.lookup p.1 with
  | none =>
    rw [hl] at h
    simp only [Go.ret.injEq, Except.ok.injEq] at h
    exact Or.inl ⟨rfl, h.symm⟩
  | some c =>
    rw [hl] at h
    simp only at h
    refine Or.inr ⟨c, ?_⟩
    split at h
    · cases hf : p.2.function c with
      | panic msg => simp [hf] at h
      | ret r =>
        cases r with
        | error e => simp [hf] at h
        | ok f =>
          simp [hf] at h
          exact ⟨f, rfl, h.symm⟩
    · split at h
      · simp at h
      · rename_i input _
        cases hf : p.2.function (.slice (c :: input)) with
        | panic msg => simp [hf] at h
        | ret r =>
          cases r with
          | error e => simp [hf] at h
          | ok f =>
            simp [hf] at h
            exact ⟨f, rfl, h.symm⟩

/-- The names of the predicates that the loop of `getValidation` returns are
the names of the registry that are keys of the raw schema. -/
theorem getValidationLoop_names (values : List (String × Any))
    (reg : List (String × rawValidation)) (fs : List (String × validateFunc))
    (h : getValidationLoop values reg = .ret (.ok fs)) (name : String) :
    name ∈ fs.map Prod.fst ↔ name ∈ reg.map Prod.fst ∧ name ∈ keys values := by
  rw [getValidationLoop_eq_rounds] at h
  have hok : ∀ x ∈ reg.map (keywordResult values), returnsOk x := by
    rw [← runRounds_returnsOk_iff, h]
    trivial
  have e := runRounds_eq_of_ok _ hok
  rw [h] at e
  injection e with e
  injection e with e
  subst e
  simp only [List.mem_map, List.mem_filterMap, Prod.exists, exists_and_right, exists_eq_right]
  constructor
  · rintro ⟨f, x, ⟨kw, rv, hmem, rfl⟩, hx⟩
    have hr := hok _ (List.mem_map_of_mem _ hmem)
    cases hk : keywordResult values (kw, rv) with
    | panic msg => rw [hk] at hr; exact absurd hr (by simp [returnsOk])
    | ret r =>
      cases r with
      | error e => rw [hk] at hr; exact absurd hr (by simp [returnsOk])
      | ok o =>
        rw [hk] at hx
        rcases keywordResult_ok_cases values (kw, rv) o hk with ⟨-, ho⟩ | ⟨c, g, hc, ho⟩
        · subst ho
          simp [roundValue] at hx
        · subst ho
          simp only [roundValue, Option.some.injEq, Prod.mk.injEq] at hx
          obtain ⟨rfl, -⟩ := hx
          refine ⟨⟨rv, hmem⟩, ?_⟩
          by_contra hn
          rw [(lookup_isNone_iff values kw).mpr hn] at hc
          exact Option.noConfusion hc
  · rintro ⟨⟨rv, hmem⟩, hkey⟩
    have hr := hok _ (List.mem_map_of_mem _ hmem)
    cases hk : keywordResult values (name, rv) with
    | panic msg => rw [hk] at hr; exact absurd hr (by simp [returnsOk])
    | ret r =>
      cases r with
      | error e => rw [hk] at hr; exact absurd hr (by simp [returnsOk])
      | ok o =>
        rcases keywordResult_ok_cases values (name, rv) o hk with ⟨hl, -⟩ | ⟨c, g, hc, ho⟩
        · exact absurd ((lookup_isNone_iff values name).mp hl) (not_not.mpr hkey)
        · subst ho
          exact ⟨g, _, ⟨name, rv, hmem, rfl⟩, by rw [hk]; rfl⟩


/-- The siblings collected depend only on the entries of the sibling names. -/
theorem collectRequires_congr (v w : List (String × Any)) (rs : List String)
    (h : ∀ r ∈ rs, w.lookup r = v.lookup r) : collectRequires w rs = collectRequires v rs := by
  induction rs with
  | nil => rfl
  | cons r rest ih =>
    simp only [collectRequires, h r (List.mem_cons_self _ _),
      ih (fun x hx => h x (List.mem_cons_of_mem _ hx))]

/-- A round depends only on the entries of the keyword and of its siblings. -/
theorem keywordResult_congr (v w : List (String × Any)) (p : String × rawValidation)
    (h1 : w.lookup p.1 = v.lookup p.1) (h2 : ∀ r ∈ p.2.requires, w.lookup r = v.lookup r) :
    keywordResult w p = keywordResult v p := by
  simp only [keywordResult, h1, collectRequires_congr v w _ h2]

/-- The loop of `getValidation` depends only on the entries of the keywords
of the registry and of their siblings. -/
theorem getValidationLoop_congr (v w : List (String × Any))
    (reg : List (String × rawValidation))
    (h : ∀ p ∈ reg, w.lookup p.1 = v.lookup p.1 ∧ ∀ r ∈ p.2.requires, w.lookup r = v.lookup r) :
    getValidationLoop w reg = getValidationLoop v reg := by
  rw [getValidationLoop_eq_rounds, getValidationLoop_eq_rounds]
  congr 1
  exact List.map_congr_left fun p hp => keywordResult_congr v w p (h p hp).1 (h p hp).2

/-- The registries that `validations` returns. -/
theorem validations_cases (lib : Lib) (T : ValueType) (reg : List (String × rawValidation))
    (h : validations lib T = some reg) :
    reg = stringValidation lib ∨ reg = integerValidation ∨ reg = numberValidation ∨
      reg = sliceValidation lib ∨ reg = objectValidation lib := by
  unfold validations at h
  split_ifs at h <;> simp at h <;> simp [h]

/-- In every registry the required siblings of a keyword are keywords of the
same registry. -/
theorem requires_recognised (lib : Lib) (T : ValueType) (reg : List (String × rawValidation))
    (h : validations lib T = some reg) :
    ∀ p ∈ reg, ∀ r ∈ p.2.requires, r ∈ reg.map Prod.fst := by
  rcases validations_cases lib T reg h with rfl | rfl | rfl | rfl | rfl <;>
    simp [stringValidation, integerValidation, numberValidation, sliceValidation,
      objectValidation]

/-- No registry holds a keyword name twice. -/
theorem registry_names_nodup (lib : Lib) (T : ValueType) (reg : List (String × rawValidation))
    (h : validations lib T = some reg) : (reg.map Prod.fst).Nodup := by
  rcases validations_cases lib T reg h with rfl | rfl | rfl | rfl | rfl <;>
    simp [stringValidation, integerValidation, numberValidation, sliceValidation,
      objectValidation]

/-- The names of the predicates returned follow the order of the registry. -/
theorem getValidationLoop_names_sublist (values : List (String × Any))
    (reg : List (String × rawValidation)) (fs : List (String × validateFunc))
    (h : getValidationLoop values reg = .ret (.ok fs)) :
    (fs.map Prod.fst).Sublist (reg.map Prod.fst) := by
  rw [getValidationLoop_eq_rounds] at h
  induction reg generalizing fs with
  | nil =>
    simp only [List.map_nil, runRounds, Go.ret.injEq, Except.ok.injEq] at h
    subst h
    exact List.Sublist.refl _
  | cons p rest ih =>
    simp only [List.map_cons, runRounds] at h
    cases hk : keywordResult values p with
    | panic msg => simp [hk] at h
    | ret r =>
      cases r with
      | error e => simp [hk] at h
      | ok o =>
        rw [hk] at h
        simp only [bind_ret] at h
        cases hr : runRounds (rest.map (keywordResult values)) with
        | panic msg => simp [hr] at h
        | ret rs =>
          cases rs with
          | error e => simp [hr] at h
          | ok res =>
            simp [hr] at h
            subst h
            have ih := ih res hr
            rcases keywordResult_ok_cases values p o hk with ⟨-, ho⟩ | ⟨c, g, -, ho⟩
            · subst ho
              simpa using ih.trans (List.sublist_cons_self _ _)
            · subst ho
              simpa using ih

/-- A compiled node carries the type of the raw schema and the predicates that
`getValidation` returns for it. -/
theorem createSchema_ok_parts (lib : Lib) (values : List (String × Any)) (s : Schema)
    (hs : createSchemaFromJSON lib values = .ret (.ok s)) :
    getValueType (values.lookup "type") = some s.valueType ∧
      getValidation lib s.valueType values = .ret (.ok s.validateFunc) := by
  rw [createSchemaFromJSON_eq] at hs
  cases hT : getValueType (values.lookup "type") with
  | none => simp [hT] at hs
  | some T =>
    rw [hT] at hs
    simp only at hs
    cases hg : getValidation lib T values with
    | panic msg => simp [hg] at hs
    | ret r =>
      cases r with
      | error e => simp [hg] at hs
      | ok fs =>
        rw [hg] at hs
        simp only [bind_ret] at hs
        split at hs
        · split at hs
          · simp only [Go.ret.injEq, Except.ok.injEq] at hs
            subst hs
            exact ⟨rfl, hg⟩
          · rename_i ps _
            cases hc : compileProperties lib ps with
            | panic msg => simp [hc] at hs
            | ret r =>
              cases r with
              | error e => simp [hc] at hs
              | ok props =>
                simp [hc] at hs
                subst hs
                exact ⟨rfl, hg⟩
          · simp at hs
        · simp only [Go.ret.injEq, Except.ok.injEq] at hs
          subst hs
          exact ⟨rfl, hg⟩

/-- Compilation reads the entry `"type"` and the entries of the keywords of
the registry of the type, and nothing else. -/
theorem createSchema_congr (lib : Lib) (v w : List (String × Any)) (T : ValueType)
    (hT : getValueType (v.lookup "type") = some T)
    (htype : w.lookup "type" = v.lookup "type")
    (h : ∀ name ∈ registryNames lib T, w.lookup name = v.lookup name) :
    createSchemaFromJSON lib w = createSchemaFromJSON lib v := by
  rw [createSchemaFromJSON_eq, createSchemaFromJSON_eq, htype, hT]
  simp only
  have hg : getValidation lib T w = getValidation lib T v := by
    unfold getValidation
    cases hv : validations lib T with
    | none => rfl
    | some reg =>
      simp only
      have hn : ∀ name ∈ reg.map Prod.fst, w.lookup name = v.lookup name := by
        simpa [registryNames, hv] using h
      refine getValidationLoop_congr v w reg fun p hp => ⟨hn _ (List.mem_map_of_mem _ hp), ?_⟩
      exact fun r hr => hn r (requires_recognised lib T reg hv p hp r hr)
  rw [hg]
  by_cases ho : T = ValueType.Object
  · have hp : w.lookup "properties" = v.lookup "properties" := by
      apply h
      subst ho
      simp [registryNames, validations, objectValidation]
    simp only [ho, hp]
  · simp only [ho, ↓reduceIte]

/-- C16: for every raw schema that compiles to a node `s`, the names of the
validator set of `s` are exactly the keys of the raw schema that the registry
of its type recognises, each once, and there are none for `boolean` and
`null`; and every raw schema with the same `"type"` entry and the same entries
under the names of that registry compiles to the same node `s`, hence with the
same verdict on every target. -/
theorem validator_names_are_recognised_keys (lib : Lib) (values : List (String × Any))
    (s : Schema) (hs : createSchemaFromJSON lib values = .ret (.ok s)) :
    getValueType (values.lookup "type") = some s.valueType ∧
    (∀ name, name ∈ s.validateFunc.map Prod.fst ↔
      name ∈ registryNames lib s.valueType ∧ name ∈ keys values) ∧
    (s.validateFunc.map Prod.fst).Nodup ∧
    (s.valueType = ValueType.Boolean ∨ s.valueType = ValueType.Null → s.validateFunc = []) ∧
    ∀ values' : List (String × Any), values'.lookup "type" = values.lookup "type" →
      (∀ name ∈ registryNames lib s.valueType, values'.lookup name = values.lookup name) →
      createSchemaFromJSON lib values' = .ret (.ok s) := by
  obtain ⟨hT, hg⟩ := createSchema_ok_parts lib values s hs
  refine ⟨hT, ?_, ?_, ?_, ?_⟩
  · intro name
    unfold getValidation at hg
    cases hv : validations lib s.valueType with
    | none =>
      rw [hv] at hg
      simp only [Go.ret.injEq, Except.ok.injEq] at hg
      simp [registryNames, hv, ← hg]
    | some reg =>
      rw [hv] at hg
      simpa [registryNames, hv] using getValidationLoop_names values reg _ hg name
  · unfold getValidation at hg
    cases hv : validations lib s.valueType with
    | none =>
      rw [hv] at hg
      simp only [Go.ret.injEq, Except.ok.injEq] at hg
      simp [← hg]
    | some reg =>
      rw [hv] at hg
      exact (getValidationLoop_names_sublist values reg _ hg).nodup
        (registry_names_nodup lib _ reg hv)
  · intro hb
    have hv : validations lib s.valueType = none := by
      rcases hb with hb | hb <;> rw [hb] <;> simp [validations]
    simpa [getValidation, hv] using hg.symm
  · intro values' htype h
    rw [createSchema_congr lib values values' s.valueType hT htype h, hs]


/-- C16, instance: the string schema with `minLength` 1 and an unrecognised
key `title` compiles to a node whose only predicate is named `minLength`, and
the raw schema without `title` compiles to the same node. -/
theorem validator_names_are_recognised_keys_witness :
    ∃ s, createSchemaFromJSON plainLib
        [("type", .string "string"), ("title", .string "t"), ("minLength", .float64 1)] =
        .ret (.ok s) ∧
      (∀ name, name ∈ s.validateFunc.map Prod.fst ↔ name = "minLength") ∧
      createSchemaFromJSON plainLib [("minLength", .float64 1), ("type", .string "string")] =
        .ret (.ok s) := by
  have h1 : float64OfInt (intOfFloat64 1) = 1 := by simpa using whole_intCast 1 inInt64_one
  obtain ⟨f, hf⟩ : ∃ f, minLength (.float64 1) = .ret (.ok f) := by simp [minLength, h1]
  have hs : createSchemaFromJSON plainLib
      [("type", .string "string"), ("title", .string "t"), ("minLength", .float64 1)] =
      .ret (.ok (Schema.mk "string" [("minLength", f)] [])) := by
    simp [createSchemaFromJSON_eq, getValueType, validateValueType, getValidation, validations,
      stringValidation, getValidationLoop, List.lookup, hf]
  have h := validator_names_are_recognised_keys plainLib _ _ hs
  refine ⟨_, hs, ?_, h.2.2.2.2 _ (by simp [List.lookup]) ?_⟩
  · intro name
    simp [Schema.validateFunc]
  · intro name hn
    simp [registryNames, validations, stringValidation, Schema.valueType] at hn
    rcases hn with rfl | rfl | rfl | rfl <;> simp [List.lookup]

/-! ## Items given as a single sub-schema -/

/-- Over a registry whose keywords require no sibling, the loop of `itemsMap`
builds what the loop of `getValidation` builds. -/
theorem buildKeywords_eq_getValidationLoop (values : List (String × Any))
    (reg : List (String × rawValidation)) (h : ∀ p ∈ reg, p.2.requires = []) :
    buildKeywords values reg = getValidationLoop values reg := by
  induction reg with
  | nil => rfl
  | cons p rest ih =>
    obtain ⟨name, validation⟩ := p
    have hr : validation.requires = [] := h (name, validation) (List.mem_cons_self _ _)
    have ih := ih (fun q hq => h q (List.mem_cons_of_mem _ hq))
    simp only [buildKeywords, getValidationLoop, ih, hr, List.length_nil, ↓reduceIte]

/-- The element loop returns no error exactly when every element validates. -/
theorem validateEach_none_iff (s : Schema) (xs : List Any) :
    validateEach s xs = .ret none ↔ ∀ x ∈ xs, validate x s = .ret none := by
  induction xs with
  | nil => simp [validateEach]
  | cons x rest ih =>
    simp only [validateEach, List.mem_cons, forall_eq_or_imp, ← ih]
    cases validate x s with
    | panic msg => simp
    | ret o => cases o <;> simp

/-- For integer, string and number, `itemsMap` consults the registry of the
type, and no keyword of it requires a sibling. -/
theorem scalarRegistry_eq (lib : Lib) (T : ValueType)
    (hT : T = "integer" ∨ T = "string" ∨ T = "number") :
    validations lib T = some (scalarRegistry lib T) ∧
      ∀ p ∈ scalarRegistry lib T, p.2.requires = [] := by
  rcases hT with rfl | rfl | rfl <;>
    simp [validations, scalarRegistry, integerValidation, stringValidation, numberValidation]

/-- For a sub-schema of type integer, string or number, `items` follows the
compilation of the sub-schema, and its predicate runs the element loop with
the compiled node. -/
theorem itemsMap_scalar (lib : Lib) (S : List (String × Any)) (T : ValueType)
    (hS : getValueType (S.lookup "type") = some T)
    (hT : T = "integer" ∨ T = "string" ∨ T = "number") :
    (∀ s, createSchemaFromJSON lib S = .ret (.ok s) →
      ∃ f, items lib (.map S) = .ret (.ok f) ∧ ∀ xs, f (.slice xs) = validateEach s xs) ∧
    (∀ err, createSchemaFromJSON lib S = .ret (.error err) →
      items lib (.map S) = .ret (.error err)) ∧
    (∀ msg, createSchemaFromJSON lib S = .panic msg → items lib (.map S) = .panic msg) := by
  obtain ⟨hv, hreq⟩ := scalarRegistry_eq lib T hT
  have hno : T ≠ ValueType.Object := by
    rcases hT with rfl | rfl | rfl <;> simp
  have hb : buildKeywords S (scalarRegistry lib T) = getValidation lib T S := by
    rw [buildKeywords_eq_getValidationLoop S _ hreq]
    simp [getValidation, hv]
  rw [createSchemaFromJSON_eq, hS]
  simp only [items, itemsMap, hS, hb, hno, ↓reduceIte]
  cases getValidation lib T S with
  | panic msg => simp
  | ret r =>
    cases r with
    | error e => simp
    | ok fs =>
      simp only [bind_ret, Go.ret.injEq, Except.ok.injEq, forall_eq', reduceCtorEq,
        false_implies, implies_true, and_true]
      exact ⟨_, rfl, fun xs => rfl⟩

/-- For a sub-schema of any other type, `items` returns the predicate that
runs the element loop with the bare node of the type. -/
theorem itemsMap_other (lib : Lib) (S : List (String × Any)) (T : ValueType)
    (hS : getValueType (S.lookup "type") = some T)
    (hT : T = "array" ∨ T = "object" ∨ T = "boolean" ∨ T = "null") :
    ∃ f, items lib (.map S) = .ret (.ok f) ∧
      ∀ xs, f (.slice xs) = validateEach (Schema.mk T [] []) xs := by
  have hr : scalarRegistry lib T = [] := by
    rcases hT with rfl | rfl | rfl | rfl <;> simp [scalarRegistry]
  simp only [items, itemsMap, hS, hr, buildKeywords, bind_ret]
  exact ⟨_, rfl, fun xs => rfl⟩

/-- A type that `getValueType` returns is one of the seven value types. -/
theorem validateValueType_of_getValueType (o : Option Any) (T : ValueType) (h : getValueType o = some T) :
    validateValueType T = true := by
  unfold getValueType at h
  split at h
  · split at h
    · simp at h; subst h; assumption
    · simp at h
  · simp at h

/-- Items given as a single sub-schema: let `items` be configured as a single
sub-schema `S` of type `T`.  For `T` integer, string or number, `items` returns a predicate when
`S` compiles, and that predicate passes on an array exactly when every element
validates against the node compiled from `S`; when compiling `S` returns an
error or faults, so does `items`.  For `T` array, object, boolean or null,
`items` returns a predicate that passes exactly when every element is of type
`T`: the other keywords of `S` are not consulted. -/
theorem items_single_schema (lib : Lib) (S : List (String × Any)) (T : ValueType)
    (hS : getValueType (S.lookup "type") = some T) :
    (T = "integer" ∨ T = "string" ∨ T = "number" →
      (∀ s, createSchemaFromJSON lib S = .ret (.ok s) →
        ∃ f, items lib (.map S) = .ret (.ok f) ∧
          ∀ xs, f (.slice xs) = .ret none ↔ ∀ x ∈ xs, validate x s = .ret none) ∧
      (∀ err, createSchemaFromJSON lib S = .ret (.error err) →
        items lib (.map S) = .ret (.error err)) ∧
      (∀ msg, createSchemaFromJSON lib S = .panic msg → items lib (.map S) = .panic msg)) ∧
    (T = "array" ∨ T = "object" ∨ T = "boolean" ∨ T = "null" →
      ∃ f, items lib (.map S) = .ret (.ok f) ∧
        ∀ xs, f (.slice xs) = .ret none ↔ ∀ x ∈ xs, typeMatches T x) := by
  constructor
  · intro hT
    obtain ⟨h1, h2, h3⟩ := itemsMap_scalar lib S T hS hT
    refine ⟨fun s hs => ?_, h2, h3⟩
    obtain ⟨f, hf, hx⟩ := h1 s hs
    exact ⟨f, hf, fun xs => by rw [hx, validateEach_none_iff]⟩
  · intro hT
    obtain ⟨f, hf, hx⟩ := itemsMap_other lib S T hS hT
    refine ⟨f, hf, fun xs => ?_⟩
    rw [hx, validateEach_none_iff]
    have hv := validateValueType_of_getValueType _ T hS
    exact forall₂_congr fun x _ => validate_bare_iff T hv x


/-- An instance of `items_single_schema`: for the sub-schema
`{"type":"integer","maximum":5}` the predicate of `items` passes exactly on the
arrays whose elements all validate against the compiled sub-schema. -/
theorem items_single_schema_witness :
    ∃ s f, createSchemaFromJSON plainLib [("type", .string "integer"), ("maximum", .float64 5)] =
        .ret (.ok s) ∧
      items plainLib (.map [("type", .string "integer"), ("maximum", .float64 5)]) =
        .ret (.ok f) ∧
      ∀ xs, f (.slice xs) = .ret none ↔ ∀ x ∈ xs, validate x s = .ret none := by
  have h5 : float64OfInt (intOfFloat64 5) = 5 := by simpa using whole_intCast 5 inInt64_five
  obtain ⟨s, hs⟩ : ∃ s, createSchemaFromJSON plainLib
      [("type", .string "integer"), ("maximum", .float64 5)] = .ret (.ok s) := by
    refine ⟨_, by simp [createSchemaFromJSON_eq, getValueType, validateValueType, getValidation,
      validations, integerValidation, getValidationLoop, List.lookup, maximumInteger, h5]
                  try rfl⟩
  have hS : getValueType (List.lookup "type"
      [("type", Any.string "integer"), ("maximum", Any.float64 5)]) = some "integer" := by
    simp [List.lookup, getValueType, validateValueType]
  obtain ⟨f, hf, hx⟩ := ((items_single_schema plainLib _ "integer" hS).1 (Or.inl rfl)).1 s hs
  exact ⟨s, f, hs, hf, hx⟩

/-- C19, the code at the failing input: the schema compiled from
`{"type":"array","minItems":2}` rejects `[1]`, yet `items` configured with that
sub-schema passes on `[[1]]`, and so does the array schema that carries it.
The switch of `itemsMap` compiles the keywords of a sub-schema of type integer,
string or number and has no case for the other types. -/
theorem items_array_schema_ignores_keywords :
    (∃ s, createSchemaFromJSON plainLib [("type", .string "array"), ("minItems", .float64 2)] =
        .ret (.ok s) ∧
      ∃ e, validate (.slice [.float64 1]) s = .ret (some e)) ∧
    (∃ f, items plainLib (.map [("type", .string "array"), ("minItems", .float64 2)]) =
        .ret (.ok f) ∧
      f (.slice [.slice [.float64 1]]) = .ret none) ∧
    ∃ s, createSchemaFromJSON plainLib [("type", .string "array"),
        ("items", .map [("type", .string "array"), ("minItems", .float64 2)])] = .ret (.ok s) ∧
      validate (.slice [.slice [.float64 1]]) s = .ret none := by
  obtain ⟨g, hg, hgx⟩ := minItems_decides.2 2 inInt64_two
  have hw : wholeBound 2 = .float64 2 := by simp [wholeBound]
  rw [hw] at hg
  obtain ⟨e, he⟩ := (hgx [.float64 1]).2 (by simp)
  have hS : getValueType (List.lookup "type"
      [("type", Any.string "array"), ("minItems", Any.float64 2)]) = some "array" := by
    simp [List.lookup, getValueType, validateValueType]
  obtain ⟨f, hf, hfx⟩ := itemsMap_other plainLib _ "array" hS (Or.inl rfl)
  have hf1 : f (.slice [.slice [.float64 1]]) = .ret none := by
    rw [hfx]
    simp [validateEach, validate, validateValue, validateValueLoop, Schema.valueType,
      Schema.validateFunc]
  refine ⟨⟨Schema.mk "array" [("minItems", g)] [], ?_, e.SetName "minItems", ?_⟩, ⟨f, hf, hf1⟩,
    ⟨Schema.mk "array" [("items", f)] [], ?_, ?_⟩⟩
  · simp [createSchemaFromJSON_eq, getValueType, validateValueType, getValidation,
      validations, sliceValidation, getValidationLoop, List.lookup, hg]
  · simp [validate, validateValue, validateValueLoop, Schema.valueType, Schema.validateFunc,
      he]
  · simp [createSchemaFromJSON_eq, getValueType, validateValueType, getValidation,
      validations, sliceValidation, getValidationLoop, List.lookup, hf]
  · simp [validate, validateValue, validateValueLoop, Schema.valueType, Schema.validateFunc,
      hf1]

/-! ## A schema handed to the entry point by value -/

/-- C18, failing input: for every compiled schema `s`, `validateSchema` given
`s` by value returns the error "unknown schema" and no schema, while given a
pointer to `s` it returns `s`; hence `Validate` with `s` by value never
accepts, and for every target that resolves to a value `t` it returns that
error, whereas with the pointer it accepts exactly when `validate t s` does. -/
theorem validateSchema_rejects_schema_value (lib : Lib) (w : World) (s : Schema)
    (target : Arg) :
    validateSchema lib w (.schema s) = .ret (.error "unknown schema") ∧
    validateSchema lib w (.schemaPtr (some s)) = .ret (.ok (some s)) ∧
    validateSchema lib w (.pointer (.schema s)) = .ret (.error "unknown schema") ∧
    Validate lib w target (.schema s) ≠ .ret none ∧
    ∀ t, validateTarget w target = .ok t →
      Validate lib w target (.schema s) = .ret (some (.plain "unknown schema")) ∧
      (Validate lib w target (.schemaPtr (some s)) = .ret none ↔ validate t s = .ret none) := by
  refine ⟨rfl, rfl, rfl, ?_, ?_⟩
  · unfold Validate
    cases validateTarget w target <;> simp [validateSchema]
  · intro t ht
    unfold Validate
    rw [ht]
    simp only [validateSchema, bind_ret, true_and]
    cases validate t s with
    | panic msg => simp
    | ret o => cases o <;> simp

/-- The null schema, handed to `Validate` by pointer, accepts the text `null`;
handed by value it is refused as an unknown schema. -/
theorem validate_schema_by_value_example :
    createSchemaFromJSON plainLib [("type", .string "null")] =
      .ret (.ok (Schema.mk "null" [] [])) ∧
    Validate plainLib plainWorld (.string "null") (.schemaPtr (some (Schema.mk "null" [] []))) =
      .ret none ∧
    Validate plainLib plainWorld (.string "null") (.schema (Schema.mk "null" [] [])) =
      .ret (some (.plain "unknown schema")) := by
  refine ⟨createSchema_typeOnly plainLib "null" (by simp [validateValueType]), ?_, ?_⟩
  · simp [Validate, validateTarget, targetFromString, plainWorld, validateSchema, validate,
      Schema.valueType]
  · simp [Validate, validateTarget, targetFromString, plainWorld, validateSchema]

/-! ## Acceptance and the order of iteration -/

/-- A node accepts a target exactly when the target is of its type and every
predicate of the node passes on the value handed to it. -/
theorem validate_iff_predicates (T : ValueType) (fs : List (String × validateFunc))
    (props : List (String × Schema)) (target : Any) (hT : validateValueType T = true)
    (hnull : T = "null" → fs = []) :
    validate target (Schema.mk T fs props) = .ret none ↔
      typeMatches T target ∧ ∀ p ∈ fs, p.2 (handedTarget T target) = .ret none := by
  rw [validateValueType_iff] at hT
  rcases hT with h | h | h | h | h | h | h <;> subst h
  case inr.inr.inr.inr.inr.inr =>
    have := hnull rfl
    subst this
    cases target <;> simp [validate, Schema.valueType, typeMatches]
  case inr.inl =>
    cases target with
    | float64 v =>
      by_cases hv : float64OfInt (intOfFloat64 v) = v
      · have hw := (whole_iff v).mp hv
        simp [validate, Schema.valueType, validateValue, Schema.validateFunc, typeMatches,
          handedTarget, validateValueLoop_none_iff, hv, hw]
      · have hw : ¬ ∃ n : Int, inInt64 n ∧ v = (n : ℚ) := fun h => hv ((whole_iff v).mpr h)
        simp [validate, Schema.valueType, validateValue, Schema.validateFunc, typeMatches,
          handedTarget, hv, hw]
    | _ => simp [validate, Schema.valueType, typeMatches]
  all_goals
    cases target <;>
      simp [validate, Schema.valueType, validateValue, Schema.validateFunc, typeMatches,
        handedTarget, validateValueLoop_none_iff]

/-- When no predicate panics, the loop over the predicates returns. -/
theorem validateValueLoop_total (t : Any) (fs : List (String × validateFunc))
    (h : ∀ p ∈ fs, ∃ r, p.2 t = .ret r) : ∃ r, validateValueLoop t fs = .ret r := by
  induction fs with
  | nil => exact ⟨none, rfl⟩
  | cons p rest ih =>
    obtain ⟨name, f⟩ := p
    obtain ⟨r, hr⟩ := h (name, f) (List.mem_cons_self _ _)
    have ih := ih (fun q hq => h q (List.mem_cons_of_mem _ hq))
    simp only at hr
    simp only [validateValueLoop, hr, bind_ret]
    cases r with
    | none => exact ih
    | some e => exact ⟨_, rfl⟩

/-- When no predicate of a node panics on the handed value, `validate`
returns. -/
theorem validate_total (T : ValueType) (fs : List (String × validateFunc))
    (props : List (String × Schema)) (target : Any)
    (h : ∀ p ∈ fs, ∃ r, p.2 (handedTarget T target) = .ret r) :
    ∃ r, validate target (Schema.mk T fs props) = .ret r := by
  have hl := validateValueLoop_total (handedTarget T target) fs h
  unfold validate
  simp only [Schema.valueType, validateValue, Schema.validateFunc]
  split_ifs with h1 h2 h3 h4 h5 h6 h7 <;> cases target <;>
    first
    | exact ⟨_, rfl⟩
    | exact hl
    | (simp only [handedTarget, h2, ↓reduceIte] at hl
       first
       | exact hl
       | (simp only []
          split_ifs
          · exact ⟨_, rfl⟩
          · exact hl))

/-- `getValidation` is its loop over the registry of the type, the empty
registry for a type that has none. -/
theorem getValidation_eq_loop (lib : Lib) (T : ValueType) (values : List (String × Any)) :
    getValidation lib T values = getValidationLoop values ((validations lib T).getD []) := by
  unfold getValidation
  cases validations lib T <;> rfl


/-- Acceptance apart from faults: for every raw schema of type `T`, every
target and any two orders
`regs₁`, `regs₂` of visiting the registry of `T`: the loop of `getValidation`
returns predicates in one order exactly when it does in the other (and it does
whenever `createSchemaFromJSON` returns a node, whose predicates are then the
same up to order); and for any two orders `gs₁`, `gs₂` of iterating the
predicates so compiled, validation accepts with `gs₁` exactly when it accepts
with `gs₂`, which is exactly when the target is of type `T` and every installed
predicate passes on the value handed to it; when no installed predicate
panics, both runs return, so both accept or both return an error. -/
theorem acceptance_independent_of_order (lib : Lib) (values : List (String × Any))
    (T : ValueType) (target : Any) (regs₁ regs₂ : List (String × rawValidation))
    (hT : getValueType (values.lookup "type") = some T)
    (h₁ : regs₁.Perm ((validations lib T).getD []))
    (h₂ : regs₂.Perm ((validations lib T).getD [])) :
    (returnsOk (getValidationLoop values regs₁) ↔ returnsOk (getValidationLoop values regs₂)) ∧
    (∀ s, createSchemaFromJSON lib values = .ret (.ok s) →
      s.valueType = T ∧
      ∃ fs₁, getValidationLoop values regs₁ = .ret (.ok fs₁) ∧ fs₁.Perm s.validateFunc) ∧
    ∀ fs₁ fs₂, getValidationLoop values regs₁ = .ret (.ok fs₁) →
      getValidationLoop values regs₂ = .ret (.ok fs₂) →
      ∀ gs₁ gs₂ props₁ props₂, gs₁.Perm fs₁ → gs₂.Perm fs₂ →
        (validate target (Schema.mk T gs₁ props₁) = .ret none ↔
          validate target (Schema.mk T gs₂ props₂) = .ret none) ∧
        (validate target (Schema.mk T gs₁ props₁) = .ret none ↔
          typeMatches T target ∧ ∀ p ∈ gs₁, p.2 (handedTarget T target) = .ret none) ∧
        ((∀ p ∈ gs₁, ∃ r, p.2 (handedTarget T target) = .ret r) →
          (∃ r, validate target (Schema.mk T gs₁ props₁) = .ret r) ∧
          ∃ r, validate target (Schema.mk T gs₂ props₂) = .ret r) := by
  have hv := validateValueType_of_getValueType _ T hT
  have h₁₂ : regs₁.Perm regs₂ := h₁.trans h₂.symm
  refine ⟨(getValidationLoop_perm values regs₁ regs₂ h₁₂).1, ?_, ?_⟩
  · intro s hs
    obtain ⟨hT', hg⟩ := createSchema_ok_parts lib values s hs
    rw [hT] at hT'
    injection hT' with hT'
    subst hT'
    rw [getValidation_eq_loop] at hg
    obtain ⟨fs₁, hf, hp⟩ := (getValidationLoop_perm values _ regs₁ h₁.symm).2 _ hg
    exact ⟨rfl, fs₁, hf, hp.symm⟩
  · intro fs₁ fs₂ hf₁ hf₂ gs₁ gs₂ props₁ props₂ hg₁ hg₂
    obtain ⟨fs, hf, hp⟩ := (getValidationLoop_perm values regs₁ regs₂ h₁₂).2 fs₁ hf₁
    rw [hf₂] at hf
    injection hf with hf
    injection hf with hf
    subst hf
    have hperm : gs₁.Perm gs₂ := (hg₁.trans hp).trans hg₂.symm
    have hnull : ∀ gs : List (String × validateFunc), gs.Perm fs₁ → T = "null" → gs = [] := by
      intro gs hgs hn
      subst hn
      have hr : regs₁ = [] := by simpa [validations] using h₁
      subst hr
      simp only [getValidationLoop, Go.ret.injEq, Except.ok.injEq] at hf₁
      subst hf₁
      simpa using hgs
    have e₁ := validate_iff_predicates T gs₁ props₁ target hv (hnull gs₁ hg₁)
    have e₂ := validate_iff_predicates T gs₂ props₂ target hv (hnull gs₂ (hg₂.trans hp.symm))
    refine ⟨?_, e₁, ?_⟩
    · rw [e₁, e₂]
      exact and_congr_right fun _ =>
        ⟨fun h p hp => h p (hperm.mem_iff.mpr hp), fun h p hp => h p (hperm.mem_iff.mp hp)⟩
    · intro htot
      exact ⟨validate_total T gs₁ props₁ target htot,
        validate_total T gs₂ props₂ target (fun p hp => htot p (hperm.mem_iff.mpr hp))⟩


/-- An instance of `acceptance_independent_of_order`: the string schema with
`minLength` 1 and `maxLength` 3, with the registry visited in the order of the
source and in the reverse order. -/
theorem acceptance_independent_of_order_witness :
    getValueType (List.lookup "type"
      [("type", Any.string "string"), ("minLength", .float64 1), ("maxLength", .float64 3)]) =
      some "string" ∧
    (stringValidation plainLib).reverse.Perm ((validations plainLib "string").getD []) ∧
    (returnsOk (getValidationLoop
        [("type", Any.string "string"), ("minLength", .float64 1), ("maxLength", .float64 3)]
        (stringValidation plainLib)) ↔
      returnsOk (getValidationLoop
        [("type", Any.string "string"), ("minLength", .float64 1), ("maxLength", .float64 3)]
        (stringValidation plainLib).reverse)) := by
  have hT : getValueType (List.lookup "type"
      [("type", Any.string "string"), ("minLength", .float64 1), ("maxLength", .float64 3)]) =
      some "string" := by
    simp [List.lookup, getValueType, validateValueType]
  have hv : (validations plainLib "string").getD [] = stringValidation plainLib := by
    simp [validations]
  have h₁ : (stringValidation plainLib).Perm ((validations plainLib "string").getD []) := by
    rw [hv]
  have h₂ : (stringValidation plainLib).reverse.Perm
      ((validations plainLib "string").getD []) := by
    rw [hv]
    exact List.reverse_perm _
  exact ⟨hT, h₂, (acceptance_independent_of_order plainLib _ "string" (.string "ab") _ _
    hT h₁ h₂).1⟩

/-! ## The keyword of a returned error -/

/-- The errors of the predicates of `maxLength` carry no keyword. -/
theorem maxLength_unnamed : UnnamedBuilder maxLength := by
  intro c f h t e he
  unfold maxLength at h
  split at h <;> (try split at h) <;>
    simp only [Go.ret.injEq, Except.ok.injEq, reduceCtorEq] at h
  subst h
  beta_reduce at he
  split at he <;> (try split at he) <;>
    simp only [Go.ret.injEq, Option.some.injEq, reduceCtorEq] at he
  all_goals
    subst he
    rfl

/-- The errors of the predicates of `minLength` carry no keyword. -/
theorem minLength_unnamed : UnnamedBuilder minLength := by
  intro c f h t e he
  unfold minLength at h
  split at h <;> (try split at h) <;>
    simp only [Go.ret.injEq, Except.ok.injEq, reduceCtorEq] at h
  subst h
  beta_reduce at he
  split at he <;> (try split at he) <;>
    simp only [Go.ret.injEq, Option.some.injEq, reduceCtorEq] at he
  all_goals
    subst he
    rfl

/-- The errors of the predicates of `multipleOf` carry no keyword. -/
theorem multipleOf_unnamed : UnnamedBuilder multipleOf := by
  intro c f h t e he
  unfold multipleOf at h
  split at h <;> simp only [Go.ret.injEq, Except.ok.injEq, reduceCtorEq] at h
  subst h
  beta_reduce at he
  split at he <;> (try split at he) <;> (try split at he) <;>
    simp only [Go.ret.injEq, Option.some.injEq, reduceCtorEq] at he
  all_goals
    subst he
    rfl

/-- The errors of the predicates of `exclusiveMaximum` carry no keyword. -/
theorem exclusiveMaximum_unnamed : UnnamedBuilder exclusiveMaximum := by
  intro c f h t e he
  unfold exclusiveMaximum at h
  split at h <;> simp only [Go.ret.injEq, Except.ok.injEq, reduceCtorEq] at h
  subst h
  beta_reduce at he
  split at he <;> (try split at he) <;>
    simp only [Go.ret.injEq, Option.some.injEq, reduceCtorEq] at he
  all_goals
    subst he
    rfl

/-- The errors of the predicates of `maximum` carry no keyword. -/
theorem maximum_unnamed : UnnamedBuilder maximum := by
  intro c f h t e he
  unfold maximum at h
  split at h <;> simp only [Go.ret.injEq, Except.ok.injEq, reduceCtorEq] at h
  subst h
  beta_reduce at he
  split at he <;> (try split at he) <;>
    simp only [Go.ret.injEq, Option.some.injEq, reduceCtorEq] at he
  all_goals
    subst he
    rfl

/-- The errors of the predicates of `exclusiveMinimum` carry no keyword. -/
theorem exclusiveMinimum_unnamed : UnnamedBuilder exclusiveMinimum := by
  intro c f h t e he
  unfold exclusiveMinimum at h
  split at h <;> simp only [Go.ret.injEq, Except.ok.injEq, reduceCtorEq] at h
  subst h
  beta_reduce at he
  split at he <;> (try split at he) <;>
    simp only [Go.ret.injEq, Option.some.injEq, reduceCtorEq] at he
  all_goals
    subst he
    rfl

/-- The errors of the predicates of `minimum` carry no keyword. -/
theorem minimum_unnamed : UnnamedBuilder minimum := by
  intro c f h t e he
  unfold minimum at h
  split at h <;> simp only [Go.ret.injEq, Except.ok.injEq, reduceCtorEq] at h
  subst h
  beta_reduce at he
  split at he <;> (try split at he) <;>
    simp only [Go.ret.injEq, Option.some.injEq, reduceCtorEq] at he
  all_goals
    subst he
    rfl

/-- The errors of the predicates of `multipleOfInteger` carry no keyword. -/
theorem multipleOfInteger_unnamed : UnnamedBuilder multipleOfInteger := by
  intro c f h t e he
  unfold multipleOfInteger at h
  split at h <;> (try split at h) <;>
    simp only [Go.ret.injEq, Except.ok.injEq, reduceCtorEq] at h
  subst h
  beta_reduce at he
  split at he <;> (try split at he) <;> (try split at he) <;>
    simp only [Go.ret.injEq, Option.some.injEq, reduceCtorEq] at he
  all_goals
    subst he
    rfl

/-- The errors of the predicates of `exclusiveMaximumInteger` carry no keyword. -/
theorem exclusiveMaximumInteger_unnamed : UnnamedBuilder exclusiveMaximumInteger := by
  intro c f h t e he
  unfold exclusiveMaximumInteger at h
  split at h <;> (try split at h) <;>
    simp only [Go.ret.injEq, Except.ok.injEq, reduceCtorEq] at h
  subst h
  beta_reduce at he
  split at he <;> (try split at he) <;>
    simp only [Go.ret.injEq, Option.some.injEq, reduceCtorEq] at he
  all_goals
    subst he
    rfl

/-- The errors of the predicates of `maximumInteger` carry no keyword. -/
theorem maximumInteger_unnamed : UnnamedBuilder maximumInteger := by
  intro c f h t e he
  unfold maximumInteger at h
  split at h <;> (try split at h) <;>
    simp only [Go.ret.injEq, Except.ok.injEq, reduceCtorEq] at h
  subst h
  beta_reduce at he
  split at he <;> (try split at he) <;>
    simp only [Go.ret.injEq, Option.some.injEq, reduceCtorEq] at he
  all_goals
    subst he
    rfl

/-- The errors of the predicates of `exclusiveMinimumInteger` carry no keyword. -/
theorem exclusiveMinimumInteger_unnamed : UnnamedBuilder exclusiveMinimumInteger := by
  intro c f h t e he
  unfold exclusiveMinimumInteger at h
  split at h <;> (try split at h) <;>
    simp only [Go.ret.injEq, Except.ok.injEq, reduceCtorEq] at h
  subst h
  beta_reduce at he
  split at he <;> (try split at he) <;>
    simp only [Go.ret.injEq, Option.some.injEq, reduceCtorEq] at he
  all_goals
    subst he
    rfl

/-- The errors of the predicates of `minimumInteger` carry no keyword. -/
theorem minimumInteger_unnamed : UnnamedBuilder minimumInteger := by
  intro c f h t e he
  unfold minimumInteger at h
  split at h <;> (try split at h) <;>
    simp only [Go.ret.injEq, Except.ok.injEq, reduceCtorEq] at h
  subst h
  beta_reduce at he
  split at he <;> (try split at he) <;>
    simp only [Go.ret.injEq, Option.some.injEq, reduceCtorEq] at he
  all_goals
    subst he
    rfl

/-- The errors of the predicates of `maxItems` carry no keyword. -/
theorem maxItems_unnamed : UnnamedBuilder maxItems := by
  intro c f h t e he
  unfold maxItems at h
  split at h <;> (try split at h) <;>
    simp only [Go.ret.injEq, Except.ok.injEq, reduceCtorEq] at h
  subst h
  beta_reduce at he
  split at he <;> (try split at he) <;>
    simp only [Go.ret.injEq, Option.some.injEq, reduceCtorEq] at he
  all_goals
    subst he
    rfl

/-- The errors of the predicates of `minItems` carry no keyword. -/
theorem minItems_unnamed : UnnamedBuilder minItems := by
  intro c f h t e he
  unfold minItems at h
  split at h <;> (try split at h) <;>
    simp only [Go.ret.injEq, Except.ok.injEq, reduceCtorEq] at h
  subst h
  beta_reduce at he
  split at he <;> (try split at he) <;>
    simp only [Go.ret.injEq, Option.some.injEq, reduceCtorEq] at he
  all_goals
    subst he
    rfl

/-- The errors of the predicates of `minProperties` carry no keyword. -/
theorem minProperties_unnamed : UnnamedBuilder minProperties := by
  intro c f h t e he
  unfold minProperties at h
  split at h <;> (try split at h) <;>
    simp only [Go.ret.injEq, Except.ok.injEq, reduceCtorEq] at h
  subst h
  beta_reduce at he
  split at he <;> (try split at he) <;>
    simp only [Go.ret.injEq, Option.some.injEq, reduceCtorEq] at he
  all_goals
    subst he
    rfl

/-- The errors of the predicates of `maxProperties` carry no keyword. -/
theorem maxProperties_unnamed : UnnamedBuilder maxProperties := by
  intro c f h t e he
  unfold maxProperties at h
  split at h <;> (try split at h) <;>
    simp only [Go.ret.injEq, Except.ok.injEq, reduceCtorEq] at h
  subst h
  beta_reduce at he
  split at he <;> (try split at he) <;>
    simp only [Go.ret.injEq, Option.some.injEq, reduceCtorEq] at he
  all_goals
    subst he
    rfl

/-- The error of a type mismatch carries no keyword. -/
theorem validate_bare_unnamed (T : ValueType) (x : Any) (e : Error)
    (he : validate x (Schema.mk T [] []) = .ret (some e)) : e.name = "" := by
  unfold validate at he
  simp only [Schema.valueType, validateValue, Schema.validateFunc, validateValueLoop] at he
  split_ifs at he <;> cases x <;>
    simp only [Go.ret.injEq, Option.some.injEq, reduceCtorEq] at he
  all_goals first
    | (subst he; rfl)
    | (split_ifs at he
       all_goals simp only [Go.ret.injEq, Option.some.injEq, reduceCtorEq] at he
       subst he
       rfl)

/-- The errors of the predicates of `pattern` carry no keyword. -/
theorem pattern_unnamed (lib : Lib) : UnnamedBuilder (pattern lib) := by
  intro c f h t e he
  unfold pattern at h
  split at h <;> (try split at h) <;>
    simp only [Go.ret.injEq, Except.ok.injEq, reduceCtorEq] at h
  subst h
  beta_reduce at he
  split at he <;> (try split at he) <;>
    simp only [Go.ret.injEq, Option.some.injEq, reduceCtorEq] at he
  all_goals
    subst he
    rfl

/-- The errors of the predicate of a format carry no keyword. -/
theorem formatCheck_unnamed (n : String) (p : String → Bool) : Unnamed (formatCheck n p) := by
  intro t e he
  unfold formatCheck at he
  split at he <;> (try split at he) <;>
    simp only [Go.ret.injEq, Option.some.injEq, reduceCtorEq] at he
  all_goals
    subst he
    rfl

/-- The errors of the predicates of `format` carry no keyword. -/
theorem format_unnamed (lib : Lib) : UnnamedBuilder (format lib) := by
  intro c f h
  unfold format at h
  split at h
  · split_ifs at h <;> simp only [Go.ret.injEq, Except.ok.injEq, reduceCtorEq] at h <;>
      subst h <;> exact formatCheck_unnamed _ _
  · simp at h

/-- The error of the loop of `uniqueItems` carries no keyword. -/
theorem uniqueItemsLoop_unnamed (lib : Lib) (xs : List Any) :
    ∀ check e, uniqueItemsLoop lib check xs = .ret (some e) → e.name = "" := by
  induction xs with
  | nil =>
    intro check e he
    simp [uniqueItemsLoop] at he
  | cons x rest ih =>
    intro check e he
    unfold uniqueItemsLoop at he
    split_ifs at he
    · simp only [Go.ret.injEq, Option.some.injEq] at he
      subst he
      rfl
    · exact ih _ e he

/-- The errors of the predicates of `uniqueItems` carry no keyword. -/
theorem uniqueItems_unnamed (lib : Lib) : UnnamedBuilder (uniqueItems lib) := by
  intro c f h t e he
  unfold uniqueItems at h
  split at h <;> simp only [Go.ret.injEq, Except.ok.injEq, reduceCtorEq] at h
  subst h
  beta_reduce at he
  split_ifs at he
  · simp at he
  · split at he
    · exact uniqueItemsLoop_unnamed lib _ _ e he
    · simp at he

/-- The error of the loop of `contains` carries no keyword. -/
theorem containsLoop_unnamed (T : ValueType) (xs : List Any) :
    ∀ types e, containsLoop T types xs = .ret (some e) → e.name = "" := by
  induction xs with
  | nil =>
    intro types e he
    simp only [containsLoop, Go.ret.injEq, Option.some.injEq] at he
    subst he
    rfl
  | cons x rest ih =>
    intro types e he
    simp only [containsLoop] at he
    cases hv : validate x (Schema.mk T [] []) with
    | panic msg => simp [hv] at he
    | ret r =>
      rw [hv] at he
      cases r with
      | none => simp at he
      | some e' => exact ih _ e he

/-- The errors of the predicates of `contains` carry no keyword. -/
theorem contains_unnamed : UnnamedBuilder contains := by
  intro c f h t e he
  unfold contains at h
  split at h <;> (try split at h) <;>
    simp only [Go.ret.injEq, Except.ok.injEq, reduceCtorEq] at h
  subst h
  beta_reduce at he
  split at he
  · exact containsLoop_unnamed _ _ _ e he
  · simp at he

/-- The errors of the predicates of `maxContains` carry no keyword. -/
theorem maxContains_unnamed : UnnamedBuilder maxContains := by
  intro c f h t e he
  unfold maxContains at h
  split at h
  · split_ifs at h
    · simp at h
    · split at h
      · split at h
        · simp at h
        · split at h <;> simp only [Go.ret.injEq, Except.ok.injEq, reduceCtorEq] at h
          subst h
          beta_reduce at he
          split at he
          · generalize countCorrect _ _ = r at he
            cases r with
            | panic msg => simp at he
            | ret n =>
              simp only [bind_ret] at he
              split_ifs at he
              · simp at he
              · simp only [Go.ret.injEq, Option.some.injEq] at he
                subst he
                rfl
          · simp at he
      · simp at h
  · simp at h

/-- The errors of the predicates of `minContains` carry no keyword. -/
theorem minContains_unnamed : UnnamedBuilder minContains := by
  intro c f h t e he
  unfold minContains at h
  split at h
  · split_ifs at h
    · simp at h
    · split at h
      · split at h
        · simp at h
        · split at h <;> simp only [Go.ret.injEq, Except.ok.injEq, reduceCtorEq] at h
          subst h
          beta_reduce at he
          split at he
          · generalize countCorrect _ _ = r at he
            cases r with
            | panic msg => simp at he
            | ret n =>
              simp only [bind_ret] at he
              split_ifs at he
              · simp at he
              · simp only [Go.ret.injEq, Option.some.injEq] at he
                subst he
                rfl
          · simp at he
      · simp at h
  · simp at h

/-- The error of the loop of `properties` carries no keyword. -/
theorem propertiesCheck_unnamed (props : List (String × ValueType)) (v : List (String × Any)) :
    ∀ e, propertiesCheck props v = .ret (some e) → e.name = "" := by
  induction v with
  | nil =>
    intro e he
    simp [propertiesCheck] at he
  | cons kv rest ih =>
    intro e he
    obtain ⟨name, value⟩ := kv
    simp only [propertiesCheck] at he
    cases hv : validate value (Schema.mk ((props.lookup name).getD "") [] []) with
    | panic msg => simp [hv] at he
    | ret r =>
      rw [hv] at he
      cases r with
      | none => exact ih e he
      | some e' =>
        simp only [bind_ret, Go.ret.injEq, Option.some.injEq] at he
        subst he
        exact validate_bare_unnamed _ _ _ hv

/-- The errors of the predicates of `properties` carry no keyword. -/
theorem properties_unnamed : UnnamedBuilder properties := by
  intro c f h t e he
  unfold properties at h
  split at h
  · rename_i kvs
    cases hp : propertiesTypes kvs with
    | panic msg => simp [hp] at h
    | ret r =>
      rw [hp] at h
      cases r with
      | error err => simp at h
      | ok props =>
        simp only [bind_ret, Go.ret.injEq, Except.ok.injEq] at h
        subst h
        beta_reduce at he
        split at he
        · exact propertiesCheck_unnamed _ _ e he
        · simp at he
  · simp at h

/-- The error of the loop of `required` carries no keyword. -/
theorem requiredLoop_unnamed (values : List (String × Any)) (names : List Any) :
    ∀ e, requiredLoop values names = .ret (some e) → e.name = "" := by
  induction names with
  | nil =>
    intro e he
    simp [requiredLoop] at he
  | cons n rest ih =>
    intro e he
    unfold requiredLoop at he
    split at he
    · split at he
      · simp only [Go.ret.injEq, Option.some.injEq] at he
        subst he
        rfl
      · exact ih e he
    · simp at he

/-- The errors of the predicates of `required` carry no keyword. -/
theorem required_unnamed : UnnamedBuilder required := by
  intro c f h t e he
  unfold required at h
  simp only [Go.ret.injEq, Except.ok.injEq] at h
  subst h
  beta_reduce at he
  split at he
  · split at he
    · exact requiredLoop_unnamed _ _ e he
    · simp at he
  · simp at he

/-- The error of the inner loop of `dependentRequired` carries no keyword. -/
theorem dependentMissing_unnamed (v : List (String × Any)) (names : List String) :
    ∀ e, dependentMissing v names = some e → e.name = "" := by
  induction names with
  | nil =>
    intro e he
    simp [dependentMissing] at he
  | cons n rest ih =>
    intro e he
    unfold dependentMissing at he
    split at he
    · simp only [Option.some.injEq] at he
      subst he
      rfl
    · exact ih e he

/-- The error of the outer loop of `dependentRequired` carries no keyword. -/
theorem dependentCheck_unnamed (v : List (String × Any)) (props : List (String × List String)) :
    ∀ e, dependentCheck v props = some e → e.name = "" := by
  induction props with
  | nil =>
    intro e he
    simp [dependentCheck] at he
  | cons p rest ih =>
    intro e he
    obtain ⟨name, values⟩ := p
    unfold dependentCheck at he
    split at he
    · exact ih e he
    · split at he
      · rename_i e' hm
        simp only [Option.some.injEq] at he
        subst he
        exact dependentMissing_unnamed v values _ hm
      · exact ih e he

/-- The errors of the predicates of `dependentRequired` carry no keyword. -/
theorem dependentRequired_unnamed : UnnamedBuilder dependentRequired := by
  intro c f h t e he
  unfold dependentRequired at h
  split at h
  · rename_i kvs
    cases hp : dependentProps kvs with
    | panic msg => simp [hp] at h
    | ret props =>
      rw [hp] at h
      simp only [bind_ret, Go.ret.injEq, Except.ok.injEq] at h
      subst h
      beta_reduce at he
      split at he
      · simp only [Go.ret.injEq] at he
        exact dependentCheck_unnamed _ _ e he
      · simp at he
  · simp at h

/-- Every builder of a registry other than those of the nesting keywords
returns predicates whose errors carry no keyword. -/
theorem registry_unnamed (lib : Lib) (T : ValueType) (reg : List (String × rawValidation))
    (h : validations lib T = some reg) :
    ∀ p ∈ reg, p.1 ∉ nestingKeywords → UnnamedBuilder p.2.function := by
  intro p hp hn
  rcases validations_cases lib T reg h with rfl | rfl | rfl | rfl | rfl
  · simp only [stringValidation, List.mem_cons, List.mem_singleton, List.not_mem_nil,
      or_false] at hp
    rcases hp with rfl | rfl | rfl | rfl
    exacts [minLength_unnamed, maxLength_unnamed, pattern_unnamed lib, format_unnamed lib]
  · simp only [integerValidation, List.mem_cons, List.mem_singleton, List.not_mem_nil,
      or_false] at hp
    rcases hp with rfl | rfl | rfl | rfl | rfl
    exacts [minimumInteger_unnamed, exclusiveMinimumInteger_unnamed, maximumInteger_unnamed,
      exclusiveMaximumInteger_unnamed, multipleOfInteger_unnamed]
  · simp only [numberValidation, List.mem_cons, List.mem_singleton, List.not_mem_nil,
      or_false] at hp
    rcases hp with rfl | rfl | rfl | rfl | rfl
    exacts [minimum_unnamed, exclusiveMinimum_unnamed, maximum_unnamed,
      exclusiveMaximum_unnamed, multipleOf_unnamed]
  · simp only [sliceValidation, List.mem_cons, List.mem_singleton, List.not_mem_nil,
      or_false] at hp
    rcases hp with rfl | rfl | rfl | rfl | rfl | rfl | rfl
    · exact minItems_unnamed
    · exact maxItems_unnamed
    · exact uniqueItems_unnamed lib
    · exact contains_unnamed
    · exact minContains_unnamed
    · exact maxContains_unnamed
    · exact absurd (by simp [nestingKeywords]) hn
  · simp only [objectValidation, List.mem_cons, List.mem_singleton, List.not_mem_nil,
      or_false] at hp
    rcases hp with rfl | rfl | rfl | rfl | rfl | rfl | rfl
    · exact properties_unnamed
    · exact required_unnamed
    · exact dependentRequired_unnamed
    · exact minProperties_unnamed
    · exact maxProperties_unnamed
    · exact absurd (by simp [nestingKeywords]) hn
    · exact absurd (by simp [nestingKeywords]) hn

/-- A round that contributes a predicate got it from the builder of its
keyword, under the name of the keyword. -/
theorem keywordResult_builder (values : List (String × Any)) (p : String × rawValidation)
    (q : String × validateFunc) (h : keywordResult values p = .ret (.ok (some q))) :
    q.1 = p.1 ∧ ∃ c, p.2.function c = .ret (.ok q.2) := by
  unfold keywordResult at h
  split at h
  · simp at h
  · rename_i value _
    split at h
    · cases hf : p.2.function value with
      | panic msg => simp [hf] at h
      | ret r =>
        cases r with
        | error e => simp [hf] at h
        | ok f =>
          simp [hf] at h
          subst h
          exact ⟨rfl, value, hf⟩
    · split at h
      · simp at h
      · rename_i input _
        cases hf : p.2.function (.slice (value :: input)) with
        | panic msg => simp [hf] at h
        | ret r =>
          cases r with
          | error e => simp [hf] at h
          | ok f =>
            simp [hf] at h
            subst h
            exact ⟨rfl, _, hf⟩

/-- Every predicate that the loop of `getValidation` returns was built by the
builder of a keyword of the registry, and carries the name of that keyword. -/
theorem getValidationLoop_mem_builder (values : List (String × Any))
    (reg : List (String × rawValidation)) (fs : List (String × validateFunc))
    (h : getValidationLoop values reg = .ret (.ok fs)) :
    ∀ q ∈ fs, ∃ p ∈ reg, q.1 = p.1 ∧ ∃ c, p.2.function c = .ret (.ok q.2) := by
  rw [getValidationLoop_eq_rounds] at h
  have hok : ∀ x ∈ reg.map (keywordResult values), returnsOk x := by
    rw [← runRounds_returnsOk_iff, h]
    trivial
  have e := runRounds_eq_of_ok _ hok
  rw [h] at e
  injection e with e
  injection e with e
  subst e
  intro q hq
  simp only [List.mem_filterMap, List.mem_map] at hq
  obtain ⟨x, ⟨p, hp, rfl⟩, hx⟩ := hq
  have hk : keywordResult values p = .ret (.ok (some q)) := by
    cases hkr : keywordResult values p with
    | panic msg => simp [hkr, roundValue] at hx
    | ret r =>
      cases r with
      | error e => simp [hkr, roundValue] at hx
      | ok o =>
        cases o with
        | none => simp [hkr, roundValue] at hx
        | some q' =>
          simp only [hkr, roundValue, Option.some.injEq] at hx
          rw [hx]
  exact ⟨p, hp, keywordResult_builder values p q hk⟩

/-- The error of the loop over the predicates is the error of one of them,
named after it unless it carries a keyword already. -/
theorem validateValueLoop_error (t : Any) (fs : List (String × validateFunc)) (e : Error)
    (h : validateValueLoop t fs = .ret (some e)) :
    ∃ q ∈ fs, ∃ e₀, q.2 t = .ret (some e₀) ∧ e = e₀.SetName q.1 := by
  induction fs with
  | nil => simp [validateValueLoop] at h
  | cons p rest ih =>
    obtain ⟨name, f⟩ := p
    simp only [validateValueLoop] at h
    cases hf : f t with
    | panic msg => simp [hf] at h
    | ret r =>
      rw [hf] at h
      cases r with
      | none =>
        obtain ⟨q, hq, e₀, h1, h2⟩ := ih h
        exact ⟨q, List.mem_cons_of_mem _ hq, e₀, h1, h2⟩
      | some e₀ =>
        simp only [bind_ret, Go.ret.injEq, Option.some.injEq] at h
        exact ⟨(name, f), List.mem_cons_self _ _, e₀, hf, h.symm⟩

/-- An error of `validate` is the unnamed error of a type mismatch or the
error of the loop over the predicates on the handed value. -/
theorem validate_error_cases (T : ValueType) (fs : List (String × validateFunc))
    (props : List (String × Schema)) (target : Any) (e : Error)
    (he : validate target (Schema.mk T fs props) = .ret (some e)) :
    (¬ typeMatches T target ∧ e.name = "") ∨
      (typeMatches T target ∧ validateValueLoop (handedTarget T target) fs = .ret (some e)) := by
  unfold validate at he
  simp only [Schema.valueType, validateValue, Schema.validateFunc] at he
  split_ifs at he with h1 h2 h3 h4 h5 h6 h7 <;> (try subst_vars) <;> cases target <;>
    simp [typeMatches, handedTarget] at he ⊢ <;>
    first
    | exact he
    | (subst he; rfl)
    | (rename_i v
       by_cases hv : float64OfInt (intOfFloat64 v) = v
       · simp only [hv, if_true] at he
         exact Or.inr ⟨(whole_iff v).mp hv, he⟩
       · simp only [hv, if_false, Go.ret.injEq, Option.some.injEq] at he
         subst he
         exact Or.inl ⟨fun x hx hxe => hv ((whole_iff v).mpr ⟨x, hx, hxe⟩), rfl⟩)

/-- C11 (as amended): for every compiled node, in whatever order its
predicates are iterated, an error that validation returns is either the error
of a type mismatch, which carries no keyword, or, for a target of the type of
the node, the error `e₀` that a predicate installed under a name `name`
returns on the value handed to it, so that predicate does fail; the keyword of
the returned error is `name` when `e₀` carries no keyword, which is the case
for every keyword other than `items`, `propertyNames` and
`patternProperties`, and the returned error is `e₀` itself, with the keyword
it already carries, otherwise. -/
theorem error_keyword_of_failing_predicate (lib : Lib) (values : List (String × Any))
    (s : Schema) (target : Any) (e : Error) (gs : List (String × validateFunc))
    (hs : createSchemaFromJSON lib values = .ret (.ok s)) (hg : gs.Perm s.validateFunc)
    (he : validate target (Schema.mk s.valueType gs s.properties) = .ret (some e)) :
    (¬ typeMatches s.valueType target ∧ e.name = "") ∨
    (typeMatches s.valueType target ∧
      ∃ name f e₀, (name, f) ∈ s.validateFunc ∧
        f (handedTarget s.valueType target) = .ret (some e₀) ∧
        e = e₀.SetName name ∧
        (name ∉ nestingKeywords → e.name = name) ∧
        (e₀.name = "" → e.name = name) ∧
        (e₀.name ≠ "" → e = e₀)) := by
  rcases validate_error_cases _ _ _ _ _ he with h | ⟨hm, hl⟩
  · exact Or.inl h
  · refine Or.inr ⟨hm, ?_⟩
    obtain ⟨q, hq, e₀, hq0, rfl⟩ := validateValueLoop_error _ _ _ hl
    have hq' : q ∈ s.validateFunc := hg.mem_iff.mp hq
    have hnamed : e₀.name = "" → (e₀.SetName q.1).name = q.1 := by
      intro h0
      simp [Error.SetName, h0]
    have hkept : e₀.name ≠ "" → e₀.SetName q.1 = e₀ := by
      intro h0
      simp [Error.SetName, h0]
    refine ⟨q.1, q.2, e₀, hq', hq0, rfl, ?_, hnamed, hkept⟩
    intro hn
    apply hnamed
    obtain ⟨-, hgv⟩ := createSchema_ok_parts lib values s hs
    unfold getValidation at hgv
    cases hv : validations lib s.valueType with
    | none =>
      rw [hv] at hgv
      simp only [Go.ret.injEq, Except.ok.injEq] at hgv
      rw [← hgv] at hq'
      simp at hq'
    | some reg =>
      rw [hv] at hgv
      obtain ⟨p, hp, hname, c, hc⟩ := getValidationLoop_mem_builder values reg _ hgv q hq'
      exact registry_unnamed lib _ reg hv p hp (hname ▸ hn) c q.2 hc _ e₀ hq0

/-- C11, witness: the array schema with `minItems` 2 rejects `[1]` with an
error of keyword "minItems". -/
theorem error_keyword_of_failing_predicate_witness :
    ∃ s e, createSchemaFromJSON plainLib [("type", .string "array"), ("minItems", .float64 2)] =
        .ret (.ok s) ∧
      validate (.slice [.float64 1]) s = .ret (some e) ∧ e.name = "minItems" := by
  obtain ⟨g, hg, hgx⟩ := minItems_decides.2 2 inInt64_two
  have hw : wholeBound 2 = .float64 2 := by simp [wholeBound]
  rw [hw] at hg
  obtain ⟨e', he'⟩ := (hgx [.float64 1]).2 (by simp)
  have hs : createSchemaFromJSON plainLib [("type", .string "array"), ("minItems", .float64 2)] =
      .ret (.ok (Schema.mk "array" [("minItems", g)] [])) := by
    simp [createSchemaFromJSON_eq, getValueType, validateValueType, getValidation,
      validations, sliceValidation, getValidationLoop, List.lookup, hg]
  have he : validate (.slice [.float64 1]) (Schema.mk "array" [("minItems", g)] []) =
      .ret (some (e'.SetName "minItems")) := by
    simp [validate, validateValue, validateValueLoop, Schema.valueType, Schema.validateFunc,
      he']
  refine ⟨_, _, hs, he, ?_⟩
  rcases error_keyword_of_failing_predicate plainLib _ _ (.slice [.float64 1]) _ _ hs
    (List.Perm.refl _) he with h | ⟨-, name, f, e₀, hmem, -, -, hn, -, -⟩
  · exact absurd (by simp [typeMatches, Schema.valueType]) h.1
  · simp only [Schema.validateFunc, List.mem_singleton, Prod.mk.injEq] at hmem
    obtain ⟨rfl, -⟩ := hmem
    exact hn (by simp [nestingKeywords])

/-- C11, counterexample: the array schema whose `items` is
`{"type":"integer","minimum":5}` compiles to a node whose only predicate is
installed under "items", and rejects `[1]` with an error whose keyword is
"minimum". -/
theorem inner_keyword_labels_items_error :
    ∃ s e, createSchemaFromJSON plainLib [("type", .string "array"),
        ("items", .map [("type", .string "integer"), ("minimum", .float64 5)])] =
        .ret (.ok s) ∧
      validate (.slice [.float64 1]) s = .ret (some e) ∧ e.name = "minimum" ∧
      s.validateFunc.map Prod.fst = ["items"] := by
  obtain ⟨g, hg, hgx⟩ := minimumInteger_decides.2 5 inInt64_five
  have hw : wholeBound 5 = .float64 5 := by simp [wholeBound]
  rw [hw] at hg
  obtain ⟨e', he'⟩ := (hgx 1).2 (by norm_num)
  have hn : e'.name = "" := minimumInteger_unnamed _ g hg _ e' he'
  have hsub : createSchemaFromJSON plainLib
      [("type", .string "integer"), ("minimum", .float64 5)] =
      .ret (.ok (Schema.mk "integer" [("minimum", g)] [])) := by
    simp [createSchemaFromJSON_eq, getValueType, validateValueType, getValidation,
      validations, integerValidation, getValidationLoop, List.lookup, hg]
  have hS : getValueType (List.lookup "type"
      [("type", Any.string "integer"), ("minimum", Any.float64 5)]) = some "integer" := by
    simp [List.lookup, getValueType, validateValueType]
  obtain ⟨f, hf, hfx⟩ := (itemsMap_scalar plainLib _ "integer" hS (Or.inl rfl)).1 _ hsub
  have h1' : intOfFloat64 1 = 1 := by simpa using intOfFloat64_intCast 1 inInt64_one
  have hf1 : f (.slice [.float64 1]) = .ret (some (e'.SetName "minimum")) := by
    rw [hfx]
    simp [validateEach, validate, validateValue, validateValueLoop, Schema.valueType,
      Schema.validateFunc, h1', float64OfInt, he']
  refine ⟨Schema.mk "array" [("items", f)] [], (e'.SetName "minimum").SetName "items", ?_, ?_,
    ?_, rfl⟩
  · simp [createSchemaFromJSON_eq, getValueType, validateValueType, getValidation,
      validations, sliceValidation, getValidationLoop, List.lookup, hf]
  · simp [validate, validateValue, validateValueLoop, Schema.valueType, Schema.validateFunc,
      hf1]
  · simp [Error.SetName, hn]

/-! ## The error of a violated bound on a number schema -/

/-- The number schema with `maximum` alone. -/
theorem number_maximum_schema (lib : Lib) (b t : ℚ) :
    ∃ s, createSchemaFromJSON lib [("type", .string "number"), ("maximum", .float64 b)] =
        .ret (.ok s) ∧
      (¬ t ≤ b → validate (.float64 t) s = .ret (some ⟨.float64 b, .float64 t, "maximum"⟩)) := by
  refine ⟨_, by simp [createSchemaFromJSON_eq, getValueType, validateValueType, getValidation,
    validations, numberValidation, getValidationLoop, List.lookup, maximum]
                try rfl, ?_⟩
  intro h
  simp [validate, validateValue, validateValueLoop, Schema.valueType, Schema.validateFunc, h,
    NewError, Error.SetName]

/-- The number schema with `minimum` alone. -/
theorem number_minimum_schema (lib : Lib) (b t : ℚ) :
    ∃ s, createSchemaFromJSON lib [("type", .string "number"), ("minimum", .float64 b)] =
        .ret (.ok s) ∧
      (¬ b ≤ t → validate (.float64 t) s = .ret (some ⟨.float64 b, .float64 t, "minimum"⟩)) := by
  refine ⟨_, by simp [createSchemaFromJSON_eq, getValueType, validateValueType, getValidation,
    validations, numberValidation, getValidationLoop, List.lookup, minimum]
                try rfl, ?_⟩
  intro h
  simp [validate, validateValue, validateValueLoop, Schema.valueType, Schema.validateFunc, h,
    NewError, Error.SetName]

/-- On a number schema the error of a violated bound carries the name of the
keyword, the configured bound as `expect` and the target as `got`. -/
theorem number_bound_error_fields (lib : Lib) (b t : ℚ) :
    (∃ s, createSchemaFromJSON lib [("type", .string "number"), ("maximum", .float64 b)] =
        .ret (.ok s) ∧
      (¬ t ≤ b → validate (.float64 t) s =
        .ret (some ⟨.float64 b, .float64 t, "maximum"⟩))) ∧
    (∃ s, createSchemaFromJSON lib [("type", .string "number"), ("minimum", .float64 b)] =
        .ret (.ok s) ∧
      (¬ b ≤ t → validate (.float64 t) s =
        .ret (some ⟨.float64 b, .float64 t, "minimum"⟩))) ∧
    (∃ s, createSchemaFromJSON lib
        [("type", .string "number"), ("exclusiveMaximum", .float64 b)] = .ret (.ok s) ∧
      (¬ t < b → validate (.float64 t) s =
        .ret (some ⟨.float64 b, .float64 t, "exclusiveMaximum"⟩))) ∧
    ∃ s, createSchemaFromJSON lib
        [("type", .string "number"), ("exclusiveMinimum", .float64 b)] = .ret (.ok s) ∧
      (¬ b < t → validate (.float64 t) s =
        .ret (some ⟨.float64 b, .float64 t, "exclusiveMinimum"⟩)) := by
  obtain ⟨s1, h1, h1'⟩ := number_maximum_schema lib b t
  obtain ⟨s2, h2, h2'⟩ := number_minimum_schema lib b t
  obtain ⟨s3, h3, -, h3'⟩ := number_exclusiveMaximum_schema lib b t
  obtain ⟨s4, h4, -, h4'⟩ := number_exclusiveMinimum_schema lib b t
  exact ⟨⟨s1, h1, h1'⟩, ⟨s2, h2, h2'⟩, ⟨s3, h3, h3'⟩, ⟨s4, h4, h4'⟩⟩

/-! ## Positional items against an array that is long enough -/

/-- The positional loop on a target that has an element for every declared
position: it returns, and passes exactly when every declared type matches the
element at its position. -/
theorem itemsSliceCheck_on_long (xs : List Any) :
    ∀ (ts : List ValueType) (i : Nat), i + ts.length ≤ xs.length →
      (∀ T ∈ ts, validateValueType T = true) →
      (itemsSliceCheck (.slice xs) i ts = .ret none ↔
        ∀ p ∈ ts.zip (xs.drop i), typeMatches p.1 p.2) ∧
      ∃ r, itemsSliceCheck (.slice xs) i ts = .ret r := by
  intro ts
  induction ts with
  | nil =>
    intro i _ _
    simp [itemsSliceCheck]
  | cons T rest ih =>
    intro i hlen hv
    have hi : i < xs.length := by
      simp only [List.length_cons] at hlen
      omega
    have hget : xs.get? i = some xs[i] := by simp [hi]
    have hdrop : xs.drop i = xs[i] :: xs.drop (i + 1) := List.drop_eq_getElem_cons hi
    have hT := hv T (List.mem_cons_self _ _)
    obtain ⟨hiff, hret⟩ := ih (i + 1) (by simp only [List.length_cons] at hlen; omega)
      (fun U hU => hv U (List.mem_cons_of_mem _ hU))
    obtain ⟨r, hr⟩ := validate_bare_total T (xs[i])
    have hb := validate_bare_iff T hT (xs[i])
    rw [hr] at hb
    simp only [itemsSliceCheck, hget, hr, bind_ret, hdrop, List.zip_cons_cons, List.mem_cons,
      forall_eq_or_imp]
    cases r with
    | none =>
      have hm : typeMatches T (xs[i]) := hb.mp rfl
      simp only [hm, true_and]
      exact ⟨hiff, hret⟩
    | some e =>
      have hm : ¬ typeMatches T (xs[i]) := fun h => by
        have := hb.mpr h
        simp at this
      simp [hm]

/-- The first loop of `itemsSlice` on a sequence of type declarations. -/
theorem itemsSliceTypes_typeDecl (Ts : List {T : ValueType // validateValueType T = true}) :
    itemsSliceTypes (Ts.map fun T => typeDecl T.1) = .ret (.ok (Ts.map Subtype.val)) := by
  induction Ts with
  | nil => rfl
  | cons T rest ih =>
    obtain ⟨T, hT⟩ := T
    have hl : getValueType (List.lookup "type" [("type", Any.string T)]) = some T := by
      simp [List.lookup, getValueType, hT]
    simp only [typeDecl] at ih
    simp only [List.map_cons, itemsSliceTypes, typeDecl, hl, ih, bind_ret]

/-- Positional `items` on targets that are not shorter than the sequence of
declared types: the predicate returns, and passes exactly when every element at
a declared position is of the type declared there; later elements are not
looked at. -/
theorem items_positional_on_long_targets (lib : Lib)
    (Ts : List {T : ValueType // validateValueType T = true}) :
    ∃ f, items lib (.slice (Ts.map fun T => typeDecl T.1)) = .ret (.ok f) ∧
      ∀ xs : List Any, Ts.length ≤ xs.length →
        (f (.slice xs) = .ret none ↔ ∀ p ∈ (Ts.map Subtype.val).zip xs, typeMatches p.1 p.2) ∧
        ∃ r, f (.slice xs) = .ret r := by
  refine ⟨fun a => itemsSliceCheck a 0 (Ts.map Subtype.val), ?_, ?_⟩
  · simp only [items, itemsSlice, itemsSliceTypes_typeDecl, bind_ret]
  · intro xs hlen
    have h := itemsSliceCheck_on_long xs (Ts.map Subtype.val) 0 (by simpa using hlen)
      (by
        intro T hT
        simp only [List.mem_map] at hT
        obtain ⟨U, -, rfl⟩ := hT
        exact U.2)
    simpa using h

/-! ## The length of a string -/

/-- The UTF-8 encoding of a string has at least as many bytes as the string
has characters. -/
theorem length_le_utf8Len (cs : List Char) : cs.length ≤ String.utf8Len cs := by
  induction cs with
  | nil => simp
  | cons c cs ih =>
    rw [String.utf8Len_cons, List.length_cons]
    have := Char.utf8Size_pos c
    omega

/-- `maxLength` accepts a string exactly when its UTF-8 encoding has at most
the bound of bytes. -/
theorem maxLength_bytes :
    Decides maxLength wholeBound inInt64 Any.string (fun n s => (s.utf8ByteSize : Int) ≤ n) := by
  constructor
  · intro c f h
    cases c <;> simp [maxLength] at h
    rename_i v
    by_cases hv : float64OfInt (intOfFloat64 v) = v
    · exact wholeBound_of_test v hv
    · simp [hv] at h
  · intro n hn
    refine ⟨_, by simp [maxLength, wholeBound, whole_intCast n hn]
                  try rfl, ?_⟩
    intro x
    simp only [intOfFloat64_intCast n hn, strLen]
    by_cases hx : (x.utf8ByteSize : Int) ≤ n <;> simp [hx]

/-- `minLength` accepts a string exactly when its UTF-8 encoding has at least
the bound of bytes. -/
theorem minLength_bytes :
    Decides minLength wholeBound inInt64 Any.string (fun n s => n ≤ (s.utf8ByteSize : Int)) := by
  constructor
  · intro c f h
    cases c <;> simp [minLength] at h
    rename_i v
    by_cases hv : float64OfInt (intOfFloat64 v) = v
    · exact wholeBound_of_test v hv
    · simp [hv] at h
  · intro n hn
    refine ⟨_, by simp [minLength, wholeBound, whole_intCast n hn]
                  try rfl, ?_⟩
    intro x
    simp only [intOfFloat64_intCast n hn, strLen]
    by_cases hx : n ≤ (x.utf8ByteSize : Int) <;> simp [hx]

/-- A character whose UTF-8 encoding is one byte is an ASCII character. -/
theorem ascii_of_utf8Size_one (c : Char) (h : c.utf8Size = 1) : c.toNat < 128 := by
  unfold Char.utf8Size at h
  simp only at h
  split_ifs at h with h1
  · have h2 : c.val.toNat ≤ 127 := h1
    have e : c.val.toNat = c.toNat := rfl
    omega
  all_goals omega

/-- The UTF-8 length of a list of characters is their number exactly when all
of them are ASCII characters. -/
theorem utf8Len_eq_length_iff (cs : List Char) :
    String.utf8Len cs = cs.length ↔ ∀ c ∈ cs, c.toNat < 128 := by
  constructor
  · induction cs with
    | nil => simp
    | cons c cs ih =>
      intro h
      rw [String.utf8Len_cons, List.length_cons] at h
      have h1 := length_le_utf8Len cs
      have h2 := Char.utf8Size_pos c
      have hc : c.utf8Size = 1 := by omega
      have hcs : String.utf8Len cs = cs.length := by omega
      intro d hd
      rcases List.mem_cons.mp hd with rfl | hd
      · exact ascii_of_utf8Size_one _ hc
      · exact ih hcs d hd
  · exact utf8Len_ascii cs

/-- The number of bytes of a string is its number of characters exactly when
the string is ASCII. -/
theorem utf8ByteSize_eq_length_iff (s : String) : s.utf8ByteSize = s.length ↔ isASCII s := by
  obtain ⟨cs⟩ := s
  simpa [String.utf8ByteSize_mk, isASCII] using utf8Len_eq_length_iff cs

/-- C24 (as amended): `minLength` and `maxLength` measure the target string
by the number of bytes of its UTF-8 encoding, for every string: the predicate
of `maxLength` `n`, and the string schema compiled with it, accepts a string
exactly when its encoding has at most `n` bytes, and that of `minLength` `n`
exactly when it has at least `n` bytes.  The number of bytes is at least the
number of characters, and equal to it exactly for the ASCII strings; so a
string of `k` characters always satisfies `minLength` `k`, and satisfies
`maxLength` `k` exactly when all its characters are ASCII. -/
theorem length_keywords_count_bytes :
    Decides maxLength wholeBound inInt64 Any.string (fun n s => (s.utf8ByteSize : Int) ≤ n) ∧
    Decides minLength wholeBound inInt64 Any.string (fun n s => n ≤ (s.utf8ByteSize : Int)) ∧
    (∀ (lib : Lib) (n : Int), inInt64 n →
      (∃ s', createSchemaFromJSON lib [("type", .string "string"), ("maxLength", wholeBound n)] =
          .ret (.ok s') ∧
        ∀ s : String, validate (.string s) s' = .ret none ↔ (s.utf8ByteSize : Int) ≤ n) ∧
      ∃ s', createSchemaFromJSON lib [("type", .string "string"), ("minLength", wholeBound n)] =
          .ret (.ok s') ∧
        ∀ s : String, validate (.string s) s' = .ret none ↔ n ≤ (s.utf8ByteSize : Int)) ∧
    (∀ s : String, s.length ≤ s.utf8ByteSize) ∧
    (∀ s : String, s.utf8ByteSize = s.length ↔ isASCII s) ∧
    ∀ (lib : Lib) (s : String), inInt64 s.length →
      (∃ s', createSchemaFromJSON lib
          [("type", .string "string"), ("maxLength", wholeBound s.length)] = .ret (.ok s') ∧
        (validate (.string s) s' = .ret none ↔ isASCII s)) ∧
      ∃ s', createSchemaFromJSON lib
          [("type", .string "string"), ("minLength", wholeBound s.length)] = .ret (.ok s') ∧
        validate (.string s) s' = .ret none := by
  have hschema : ∀ (lib : Lib) (n : Int), inInt64 n →
      (∃ s', createSchemaFromJSON lib [("type", .string "string"), ("maxLength", wholeBound n)] =
          .ret (.ok s') ∧
        ∀ s : String, validate (.string s) s' = .ret none ↔ (s.utf8ByteSize : Int) ≤ n) ∧
      ∃ s', createSchemaFromJSON lib [("type", .string "string"), ("minLength", wholeBound n)] =
          .ret (.ok s') ∧
        ∀ s : String, validate (.string s) s' = .ret none ↔ n ≤ (s.utf8ByteSize : Int) := by
    intro lib n hn
    obtain ⟨f, hf, hfx⟩ := maxLength_bytes.2 n hn
    obtain ⟨g, hg, hgx⟩ := minLength_bytes.2 n hn
    refine ⟨⟨Schema.mk "string" [("maxLength", f)] [], ?_, ?_⟩,
      ⟨Schema.mk "string" [("minLength", g)] [], ?_, ?_⟩⟩
    · simp [createSchemaFromJSON_eq, getValueType, validateValueType, getValidation,
        validations, stringValidation, getValidationLoop, List.lookup, hf]
    · intro s
      rw [validate_iff_predicates "string" _ _ _ (by simp [validateValueType]) (by simp)]
      simpa [typeMatches, handedTarget] using (hfx s).1
    · simp [createSchemaFromJSON_eq, getValueType, validateValueType, getValidation,
        validations, stringValidation, getValidationLoop, List.lookup, hg]
    · intro s
      rw [validate_iff_predicates "string" _ _ _ (by simp [validateValueType]) (by simp)]
      simpa [typeMatches, handedTarget] using (hgx s).1
  have hle : ∀ s : String, s.length ≤ s.utf8ByteSize := by
    intro s
    obtain ⟨cs⟩ := s
    simpa [String.utf8ByteSize_mk] using length_le_utf8Len cs
  refine ⟨maxLength_bytes, minLength_bytes, hschema, hle, utf8ByteSize_eq_length_iff, ?_⟩
  intro lib s hs
  obtain ⟨⟨a, ha, hax⟩, b, hb, hbx⟩ := hschema lib s.length hs
  refine ⟨⟨a, ha, ?_⟩, b, hb, ?_⟩
  · rw [hax s, ← utf8ByteSize_eq_length_iff]
    have := hle s
    constructor
    · intro h
      have h' : s.utf8ByteSize ≤ s.length := by exact_mod_cast h
      omega
    · intro h
      rw [h]
  · rw [hbx s]
    exact_mod_cast hle s

/-- C24, counterexample: the string "é" has one character, and the string
schema with `maxLength` 1 rejects it, reporting the length 2. -/
theorem maxLength_rejects_two_byte_character :
    "é".length = 1 ∧
    ∃ s, createSchemaFromJSON plainLib [("type", .string "string"), ("maxLength", .float64 1)] =
        .ret (.ok s) ∧
      validate (.string "é") s = .ret (some ⟨.int 1, .int 2, "maxLength"⟩) := by
  have h1 : float64OfInt (intOfFloat64 1) = 1 := by simpa using whole_intCast 1 inInt64_one
  have h1' : intOfFloat64 1 = 1 := by simpa using intOfFloat64_intCast 1 inInt64_one
  have hb : "é".utf8ByteSize = 2 := by decide
  obtain ⟨f, hf, hfx⟩ : ∃ f, maxLength (.float64 1) = .ret (.ok f) ∧
      f (.string "é") = .ret (some (NewError (.int 1) (.int 2))) := by
    refine ⟨_, by simp [maxLength, h1]; rfl, ?_⟩
    simp [h1', strLen, hb]
  refine ⟨by decide, Schema.mk "string" [("maxLength", f)] [], ?_, ?_⟩
  · simp [createSchemaFromJSON_eq, getValueType, validateValueType, getValidation,
      validations, stringValidation, getValidationLoop, List.lookup, hf]
  · simp [validate, validateValue, validateValueLoop, Schema.valueType, Schema.validateFunc,
      hfx, NewError, Error.SetName]

/-! ## The sub-schema of `contains` -/

/-- `contains` reads the type of the sub-schema and nothing else of it. -/
theorem contains_of_type (S : List (String × Any)) (T : ValueType)
    (hS : getValueType (S.lookup "type") = some T) :
    ∃ fc, contains (.map S) = .ret (.ok fc) ∧ ∀ a, fc (.slice a) = containsLoop T [] a := by
  simp only [contains, hS]
  exact ⟨_, rfl, fun a => rfl⟩

/-- `minContains` reads the type of the sub-schema and nothing else of it. -/
theorem minContains_of_type (S : List (String × Any)) (T : ValueType)
    (hS : getValueType (S.lookup "type") = some T) (m : ℚ) :
    ∃ fmin, minContains (.slice [.float64 m, .map S]) = .ret (.ok fmin) ∧
      ∀ a, fmin (.slice a) = (countCorrect T a).bind fun correct =>
        if correct ≥ intOfFloat64 m then .ret none
        else .ret (some (NewError (.int (intOfFloat64 m)) (.int correct))) := by
  simp [minContains, hS]

/-- `maxContains` reads the type of the sub-schema and nothing else of it. -/
theorem maxContains_of_type (S : List (String × Any)) (T : ValueType)
    (hS : getValueType (S.lookup "type") = some T) (M : ℚ) :
    ∃ fmax, maxContains (.slice [.float64 M, .map S]) = .ret (.ok fmax) ∧
      ∀ a, fmax (.slice a) = (countCorrect T a).bind fun correct =>
        if correct ≤ intOfFloat64 M then .ret none
        else .ret (some (NewError (.int (intOfFloat64 M)) (.int correct))) := by
  simp [maxContains, hS]

/-- The schema of `containsSchemaOf` compiles to the node with the three
predicates of `contains`, `minContains` and `maxContains`, each of which
depends on the type of the sub-schema alone. -/
theorem containsSchemaOf_compiles (lib : Lib) (S : List (String × Any)) (T : ValueType)
    (hS : getValueType (S.lookup "type") = some T) (m M : ℚ) :
    ∃ fc fmin fmax,
      createSchemaFromJSON lib (containsSchemaOf S m M) = .ret (.ok (Schema.mk "array"
        [("contains", fc), ("minContains", fmin), ("maxContains", fmax)] [])) ∧
      (∀ a, fc (.slice a) = containsLoop T [] a) ∧
      (∀ a, fmin (.slice a) = (countCorrect T a).bind fun correct =>
        if correct ≥ intOfFloat64 m then .ret none
        else .ret (some (NewError (.int (intOfFloat64 m)) (.int correct)))) ∧
      (∀ a, fmax (.slice a) = (countCorrect T a).bind fun correct =>
        if correct ≤ intOfFloat64 M then .ret none
        else .ret (some (NewError (.int (intOfFloat64 M)) (.int correct)))) := by
  obtain ⟨fc, hc, hcx⟩ := contains_of_type S T hS
  obtain ⟨fmin, hmin, hminx⟩ := minContains_of_type S T hS m
  obtain ⟨fmax, hmax, hmaxx⟩ := maxContains_of_type S T hS M
  refine ⟨fc, fmin, fmax, ?_, hcx, hminx, hmaxx⟩
  have ha : getValueType (some (.string "array")) = some "array" := by
    simp [getValueType, validateValueType]
  simp [containsSchemaOf, createSchemaFromJSON_eq, getValidation, validations,
    sliceValidation, getValidationLoop, List.lookup, collectRequires, ha, hc, hmin, hmax]

/-- C21 (as amended): for a `contains` sub-schema `S` of type `T`, whatever
other keywords `S` carries, and every target array `a`, with `c` the number of
elements of `a` that `validate` accepts for the bare type `T`: the predicate of
`contains` passes exactly when `c` is at least 1, that of `minContains` `m`
exactly when `m ≤ c`, that of `maxContains` `M` exactly when `c ≤ M` (`m` and
`M` whole numbers of the signed 64 bit range), and the array schema with the
three keywords compiles and accepts `a`, in whatever order the predicates are
visited, exactly when `1 ≤ c` and `m ≤ c ≤ M`. -/
theorem contains_counts_type_only (lib : Lib) (S : List (String × Any)) (T : ValueType)
    (m M : Int) (a : List Any) (hS : getValueType (S.lookup "type") = some T)
    (hm : inInt64 m) (hM : inInt64 M) :
    (∃ fc, contains (.map S) = .ret (.ok fc) ∧
      (fc (.slice a) = .ret none ↔ 1 ≤ matchCount T a)) ∧
    (∃ fmin, minContains (.slice [wholeBound m, .map S]) = .ret (.ok fmin) ∧
      (fmin (.slice a) = .ret none ↔ m ≤ matchCount T a)) ∧
    (∃ fmax, maxContains (.slice [wholeBound M, .map S]) = .ret (.ok fmax) ∧
      (fmax (.slice a) = .ret none ↔ matchCount T a ≤ M)) ∧
    ∃ s, createSchemaFromJSON lib (containsSchemaOf S m M) = .ret (.ok s) ∧
      ∀ fs, fs.Perm s.validateFunc →
        (validate (.slice a) (Schema.mk s.valueType fs s.properties) = .ret none ↔
          1 ≤ matchCount T a ∧ m ≤ matchCount T a ∧ matchCount T a ≤ M) := by
  have hT := validateValueType_of_getValueType _ T hS
  obtain ⟨fc, hc, hcx⟩ := contains_of_type S T hS
  obtain ⟨fmin, hmin, hminx⟩ := minContains_of_type S T hS m
  obtain ⟨fmax, hmax, hmaxx⟩ := maxContains_of_type S T hS M
  refine ⟨⟨fc, hc, ?_⟩, ⟨fmin, hmin, ?_⟩, ⟨fmax, hmax, ?_⟩, ?_⟩
  · rw [hcx, (containsLoop_eq T hT a []).1]
  · rw [hminx, countCorrect_eq T hT, intOfFloat64_intCast m hm]
    by_cases h : m ≤ matchCount T a <;> simp [h]
  · rw [hmaxx, countCorrect_eq T hT, intOfFloat64_intCast M hM]
    by_cases h : matchCount T a ≤ M <;> simp [h]
  · obtain ⟨gc, gmin, gmax, hs, hgc, hgmin, hgmax⟩ := containsSchemaOf_compiles lib S T hS m M
    refine ⟨_, hs, ?_⟩
    intro fs hfs
    simp only [Schema.valueType, Schema.properties, Schema.validateFunc] at hfs ⊢
    rw [validate_array, validateValueLoop_perm _ _ _ hfs, validateValueLoop_none_iff]
    simp only [List.mem_cons, List.mem_singleton, forall_eq_or_imp, forall_eq,
      List.not_mem_nil, false_implies, implies_true, and_true, hgc, hgmin, hgmax,
      countCorrect_eq T hT, bind_ret, intOfFloat64_intCast m hm, intOfFloat64_intCast M hM,
      (containsLoop_eq T hT a []).1]
    by_cases h1 : m ≤ matchCount T a <;> by_cases h2 : matchCount T a ≤ M <;> simp [h1, h2]


/-- C21, witness: with the sub-schema `{"type":"integer","minimum":5}`,
`minContains` 1 and `maxContains` 2, the array [1, 7, "x"] is accepted: both
numbers are counted. -/
theorem contains_counts_type_only_witness :
    getValueType (List.lookup "type"
      [("type", Any.string "integer"), ("minimum", Any.float64 5)]) = some "integer" ∧
    inInt64 1 ∧ inInt64 2 ∧
    ∃ s, createSchemaFromJSON plainLib (containsSchemaOf
        [("type", .string "integer"), ("minimum", .float64 5)] 1 2) = .ret (.ok s) ∧
      validate (.slice [.float64 1, .float64 7, .string "x"]) s = .ret none := by
  have hS : getValueType (List.lookup "type"
      [("type", Any.string "integer"), ("minimum", Any.float64 5)]) = some "integer" := by
    simp [List.lookup, getValueType, validateValueType]
  have h1 : typeMatches "integer" (.float64 1) := by
    simpa using typeMatches_integer_cast 1 inInt64_one
  have h7 : typeMatches "integer" (.float64 7) := by
    simpa using typeMatches_integer_cast 7 inInt64_seven
  have hx : ¬ typeMatches "integer" (.string "x") := by simp [typeMatches]
  obtain ⟨s, hs, hv⟩ := (contains_counts_type_only plainLib _ "integer" 1 2
    [.float64 1, .float64 7, .string "x"] hS inInt64_one inInt64_two).2.2.2
  refine ⟨hS, inInt64_one, inInt64_two, s, by simpa using hs, ?_⟩
  have := (hv s.validateFunc (List.Perm.refl _)).mpr (by simp [matchCount, h1, h7, hx])
  cases s
  simpa [Schema.valueType, Schema.validateFunc, Schema.properties] using this

/-- C21, counterexample: the schema compiled from
`{"type":"integer","minimum":5}` rejects 1, yet the array schema with that
sub-schema as `contains`, `minContains` 1 and `maxContains` 1 accepts the
array [1]: the element is counted although it violates `minimum`. -/
theorem contains_counts_element_that_fails_keyword :
    (∃ s, createSchemaFromJSON plainLib
        [("type", .string "integer"), ("minimum", .float64 5)] = .ret (.ok s) ∧
      ∃ e, validate (.float64 1) s = .ret (some e)) ∧
    ∃ s, createSchemaFromJSON plainLib (containsSchemaOf
        [("type", .string "integer"), ("minimum", .float64 5)] 1 1) = .ret (.ok s) ∧
      validate (.slice [.float64 1]) s = .ret none := by
  have hT : validateValueType "integer" = true := by simp [validateValueType]
  have hS : getValueType (List.lookup "type"
      [("type", Any.string "integer"), ("minimum", Any.float64 5)]) = some "integer" := by
    simp [List.lookup, getValueType, validateValueType]
  have h1 : typeMatches "integer" (.float64 1) := by
    simpa using typeMatches_integer_cast 1 inInt64_one
  have e1 : intOfFloat64 1 = 1 := by simpa using intOfFloat64_intCast 1 inInt64_one
  constructor
  · obtain ⟨g, hg, hgx⟩ := minimumInteger_decides.2 5 inInt64_five
    have hw : wholeBound 5 = .float64 5 := by simp [wholeBound]
    rw [hw] at hg
    obtain ⟨e', he'⟩ := (hgx 1).2 (by norm_num)
    refine ⟨Schema.mk "integer" [("minimum", g)] [], ?_, e'.SetName "minimum", ?_⟩
    · simp [createSchemaFromJSON_eq, getValueType, validateValueType, getValidation,
        validations, integerValidation, getValidationLoop, List.lookup, hg]
    · simp [validate, validateValue, validateValueLoop, Schema.valueType, Schema.validateFunc,
        e1, float64OfInt, he']
  · obtain ⟨fc, fmin, fmax, hs, hc, hmin, hmax⟩ :=
      containsSchemaOf_compiles plainLib _ "integer" hS 1 1
    refine ⟨_, hs, ?_⟩
    rw [validate_array]
    simp [validateValueLoop, hc, hmin, hmax, countCorrect_eq "integer" hT, matchCount, h1,
      containsLoop, (validate_bare_iff "integer" hT _).mpr h1, e1]

/-! ## The predicate of `properties` -/

/-- A node whose type is the empty string accepts every target. -/
theorem validate_empty_type (x : Any) : validate x (Schema.mk "" [] []) = .ret none := by
  simp [validate, Schema.valueType]

/-- On a well-formed configuration the first loop of `properties` returns the
declared type of every key. -/
theorem propertiesTypes_wellFormed (P : List (String × Any)) (hP : wellFormedProperties P) :
    ∃ props, propertiesTypes P = .ret (.ok props) ∧
      ∀ k, props.lookup k = declaredType P k := by
  induction P with
  | nil => exact ⟨[], rfl, fun k => rfl⟩
  | cons kv rest ih =>
    obtain ⟨name, value⟩ := kv
    obtain ⟨S, T, hv, hT⟩ := hP (name, value) (List.mem_cons_self _ _)
    obtain ⟨props, hp, hl⟩ := ih (fun q hq => hP q (List.mem_cons_of_mem _ hq))
    simp only at hv
    subst hv
    refine ⟨(name, T) :: props, by simp [propertiesTypes, hT, hp], ?_⟩
    intro k
    by_cases hk : k = name
    · subst hk
      simp [declaredType, List.lookup, hT]
    · have hb : (k == name) = false := by simpa using hk
      have := hl k
      simp only [declaredType, List.lookup, hb] at this ⊢
      exact this

/-- The loop of `properties` returns, and passes exactly when every entry of
the target whose key has a declared type is of that type. -/
theorem propertiesCheck_iff (props : List (String × ValueType))
    (hv : ∀ k T, props.lookup k = some T → validateValueType T = true)
    (o : List (String × Any)) :
    (propertiesCheck props o = .ret none ↔
      ∀ kv ∈ o, ∀ T, props.lookup kv.1 = some T → typeMatches T kv.2) ∧
    ∃ r, propertiesCheck props o = .ret r := by
  induction o with
  | nil => simp [propertiesCheck]
  | cons kv rest ih =>
    obtain ⟨name, value⟩ := kv
    obtain ⟨ihiff, r', hr'⟩ := ih
    simp only [propertiesCheck, List.mem_cons, forall_eq_or_imp]
    cases hl : props.lookup name with
    | none =>
      simp only [Option.getD_none, validate_empty_type, bind_ret, ihiff]
      exact ⟨by simp, r', hr'⟩
    | some T =>
      have hT := hv name T hl
      obtain ⟨r, hr⟩ := validate_bare_total T value
      have hb := validate_bare_iff T hT value
      rw [hr] at hb
      simp only [Option.getD_some, hr, bind_ret]
      cases r with
      | none =>
        have hm : typeMatches T value := hb.mp rfl
        simp only [ihiff]
        refine ⟨?_, r', hr'⟩
        constructor
        · intro h
          refine ⟨fun U hU => ?_, h⟩
          simp only [Option.some.injEq] at hU
          exact hU ▸ hm
        · exact fun h => h.2
      | some e =>
        have hm : ¬ typeMatches T value := fun h => by
          have := hb.mpr h
          simp at this
        refine ⟨?_, _, rfl⟩
        simp only [Go.ret.injEq, reduceCtorEq, false_iff, not_and]
        intro h
        exact absurd (h T rfl) hm

/-- The types that a configuration declares are among the seven. -/
theorem declaredType_valid (P : List (String × Any)) (k : String) (T : ValueType)
    (h : declaredType P k = some T) : validateValueType T = true := by
  unfold declaredType at h
  split at h
  · exact validateValueType_of_getValueType _ T h
  · simp at h

/-- The predicate of `properties` on a well-formed configuration. -/
theorem properties_of_wellFormed (P : List (String × Any)) (hP : wellFormedProperties P) :
    ∃ f, properties (.map P) = .ret (.ok f) ∧
      ∀ o : List (String × Any),
        (f (.map o) = .ret none ↔
          ∀ kv ∈ o, ∀ T, declaredType P kv.1 = some T → typeMatches T kv.2) ∧
        ∃ r, f (.map o) = .ret r := by
  obtain ⟨props, hp, hl⟩ := propertiesTypes_wellFormed P hP
  refine ⟨fun a => match a with
    | .map v => propertiesCheck props v
    | _ => .panic "interface conversion", ?_, ?_⟩
  · simp [properties, hp]
    try rfl
  · intro o
    have h := propertiesCheck_iff props
      (fun k T hk => declaredType_valid P k T (by rw [← hl k, hk])) o
    simpa only [hl] using h

/-- C22 (as amended): for every well-formed `properties` configuration `P`
the builder returns a predicate that, on every object target `o`, returns
without a fault and passes exactly when every entry of `o` whose key has a
declared type in `P` holds a value that `validate` accepts for that bare type
(for integer: a float with zero fractional part inside the signed 64 bit
range).  Keys of `o` without a declared type are unconstrained, declared keys
that `o` lacks are not required, and any well-formed configuration that
declares the same types, whatever other keywords its entries carry, yields a
predicate with the same verdicts. -/
theorem properties_checks_types_only (P : List (String × Any)) (hP : wellFormedProperties P) :
    ∃ f, properties (.map P) = .ret (.ok f) ∧
      (∀ o : List (String × Any),
        (f (.map o) = .ret none ↔
          ∀ kv ∈ o, ∀ T, declaredType P kv.1 = some T → typeMatches T kv.2) ∧
        ∃ r, f (.map o) = .ret r) ∧
      ∀ P', wellFormedProperties P' → (∀ k, declaredType P' k = declaredType P k) →
        ∃ f', properties (.map P') = .ret (.ok f') ∧
          ∀ o : List (String × Any), f' (.map o) = .ret none ↔ f (.map o) = .ret none := by
  obtain ⟨f, hf, hfx⟩ := properties_of_wellFormed P hP
  refine ⟨f, hf, hfx, ?_⟩
  intro P' hP' hsame
  obtain ⟨f', hf', hfx'⟩ := properties_of_wellFormed P' hP'
  refine ⟨f', hf', fun o => ?_⟩
  rw [(hfx' o).1, (hfx o).1]
  simp only [hsame]

/-- C22, witness: with `a` declared as a string with `minLength` 5, the
object `{"a":"x","b":1}` passes, the empty object passes, and `{"a":1}` is
rejected. -/
theorem properties_checks_types_only_witness :
    wellFormedProperties
      [("a", .map [("type", .string "string"), ("minLength", .float64 5)])] ∧
    ∃ f, properties (.map
        [("a", .map [("type", .string "string"), ("minLength", .float64 5)])]) =
        .ret (.ok f) ∧
      f (.map [("a", .string "x"), ("b", .float64 1)]) = .ret none ∧
      f (.map []) = .ret none ∧
      ∃ e, f (.map [("a", .float64 1)]) = .ret (some e) := by
  have hS : getValueType (List.lookup "type"
      [("type", Any.string "string"), ("minLength", Any.float64 5)]) = some "string" := by
    simp [List.lookup, getValueType, validateValueType]
  have hP : wellFormedProperties
      [("a", .map [("type", .string "string"), ("minLength", .float64 5)])] := by
    intro kv hkv
    simp only [List.mem_singleton] at hkv
    subst hkv
    exact ⟨_, _, rfl, hS⟩
  have ha : declaredType [("a", .map [("type", .string "string"), ("minLength", .float64 5)])]
      "a" = some "string" := by
    simp [declaredType, List.lookup, getValueType, validateValueType]
  have hb : declaredType [("a", .map [("type", .string "string"), ("minLength", .float64 5)])]
      "b" = none := by
    simp [declaredType, List.lookup]
  obtain ⟨f, hf, hfx, -⟩ := properties_checks_types_only _ hP
  refine ⟨hP, f, hf, ?_, ?_, ?_⟩
  · rw [(hfx _).1]
    simp [ha, hb, typeMatches]
  · rw [(hfx _).1]
    simp
  · obtain ⟨r, hr⟩ := (hfx [("a", .float64 1)]).2
    cases r with
    | some e => exact ⟨e, hr⟩
    | none =>
      have := (hfx [("a", .float64 1)]).1.mp hr
      simp [ha, typeMatches] at this

/-- C22, counterexample: the float 2^64 has the kind of an integer, having
zero fractional part, and the predicate of `properties` that declares `a` an
integer rejects the object whose `a` is 2^64. -/
theorem properties_rejects_large_whole_float :
    kindMatches "integer" (.float64 (2 ^ 64)) ∧
    ∃ f, properties (.map [("a", .map [("type", .string "integer")])]) = .ret (.ok f) ∧
      f (.map [("a", .float64 (2 ^ 64))]) =
        .ret (some (NewError (.string "int") (.string "float64"))) := by
  refine ⟨Or.inr ⟨rfl, ?_⟩, fun a => match a with
    | .map v => propertiesCheck [("a", "integer")] v
    | _ => .panic "interface conversion", ?_, ?_⟩
  · have h : ((2 : ℚ) ^ 64) = ((2 ^ 64 : Int) : ℚ) := by norm_num
    rw [h]
    exact Int.fract_intCast _
  · simp [properties, propertiesTypes, List.lookup, getValueType, validateValueType]
    try rfl
  · simp [propertiesCheck, List.lookup, validate_integer_two_pow_64]

/-! ## Termination of the compiler -/

/-- A value held by a mapping is not deeper than the deepest. -/
theorem depth_le_of_mem (kvs : List (String × Any)) (k : String) (v : Any)
    (h : (k, v) ∈ kvs) : v.depth ≤ Any.depthEntries kvs := by
  induction kvs with
  | nil => simp at h
  | cons kv rest ih =>
    obtain ⟨k', v'⟩ := kv
    simp only [List.mem_cons, Prod.mk.injEq] at h
    simp only [Any.depthEntries]
    rcases h with ⟨-, rfl⟩ | h
    · exact le_max_left _ _
    · exact (ih h).trans (le_max_right _ _)

/-- A value found under a key is held by the mapping. -/
theorem mem_of_lookup (kvs : List (String × Any)) (k : String) (v : Any)
    (h : kvs.lookup k = some v) : (k, v) ∈ kvs := by
  obtain ⟨l₁, l₂, hl, -⟩ := List.lookup_eq_some_iff.mp h
  rw [hl]
  simp

/-- The argument of a recursive call lies two levels below that of its
caller. -/
theorem depth_nestedProperty (prop values : List (String × Any))
    (h : nestedProperty prop values) :
    (Any.map prop).depth + 2 ≤ (Any.map values).depth := by
  obtain ⟨properties, key, hl, hm⟩ := h
  have h1 := depth_le_of_mem properties key _ hm
  have h2 := depth_le_of_mem values _ _ (mem_of_lookup values _ _ hl)
  have h3 : (Any.map properties).depth = Any.depthEntries properties + 1 := by
    simp [Any.depth]
  have h4 : (Any.map values).depth = Any.depthEntries values + 1 := by
    simp [Any.depth]
  omega

/-- The relation of the recursive calls is well founded. -/
theorem nestedProperty_wf : WellFounded nestedProperty := by
  apply Subrelation.wf (r := InvImage (· < ·) fun v => (Any.map v).depth)
  · intro a b h
    have := depth_nestedProperty a b h
    simp only [InvImage]
    omega
  · exact InvImage.wf _ Nat.lt_wfRel.wf

/-- The loop makes its recursive calls on the mappings held by `properties`
and on nothing else. -/
theorem compilePropertiesWith_congr
    (f g : List (String × Any) → Option (Go (Except String Schema)))
    (properties : List (String × Any))
    (h : ∀ key prop, (key, Any.map prop) ∈ properties → f prop = g prop) :
    compilePropertiesWith f properties = compilePropertiesWith g properties := by
  induction properties with
  | nil => rfl
  | cons kv rest ih =>
    obtain ⟨key, value⟩ := kv
    have ih := ih (fun k p hp => h k p (List.mem_cons_of_mem _ hp))
    cases value with
    | map prop =>
      have hp := h key prop (List.mem_cons_self _ _)
      simp only [compilePropertiesWith, hp, ih]
    | _ => simp only [compilePropertiesWith, ih]

/-- When every recursive call returns what `createSchemaFromJSON` returns, the
loop returns what `compileProperties` returns. -/
theorem compilePropertiesWith_eq (lib : Lib)
    (f : List (String × Any) → Option (Go (Except String Schema)))
    (properties : List (String × Any))
    (h : ∀ key prop, (key, Any.map prop) ∈ properties →
      f prop = some (createSchemaFromJSON lib prop)) :
    compilePropertiesWith f properties = some (compileProperties lib properties) := by
  induction properties with
  | nil => simp [compilePropertiesWith, compileProperties_nil]
  | cons kv rest ih =>
    obtain ⟨key, value⟩ := kv
    have ih := ih (fun k p hp => h k p (List.mem_cons_of_mem _ hp))
    cases value with
    | map prop =>
      have hp := h key prop (List.mem_cons_self _ _)
      rw [compileProperties_map]
      simp only [compilePropertiesWith, hp, ih]
      cases createSchemaFromJSON lib prop with
      | panic msg => rfl
      | ret r =>
        cases r with
        | error e => rfl
        | ok s =>
          simp only [bind_ret]
          cases compileProperties lib rest with
          | panic msg => rfl
          | ret rs => cases rs <;> rfl
    | _ =>
      rw [compileProperties_skip _ _ _ _ (by simp)]
      simp only [compilePropertiesWith, ih]

/-- With a budget that is at least the nesting depth of the raw schema, the
run with a budget returns what `createSchemaFromJSON` returns. -/
theorem createSchemaFuel_eq (lib : Lib) :
    ∀ (fuel : Nat) (values : List (String × Any)), (Any.map values).depth ≤ fuel →
      createSchemaFuel lib fuel values = some (createSchemaFromJSON lib values) := by
  intro fuel
  induction fuel with
  | zero =>
    intro values h
    simp [Any.depth] at h
  | succ fuel ih =>
    intro values h
    rw [createSchemaFromJSON_eq]
    simp only [createSchemaFuel]
    cases getValueType (values.lookup "type") with
    | none => rfl
    | some T =>
      simp only
      cases getValidation lib T values with
      | panic msg => rfl
      | ret r =>
        cases r with
        | error e => rfl
        | ok validation =>
          simp only [bind_ret]
          split_ifs with hT
          · cases hl : values.lookup "properties" with
            | none => rfl
            | some v =>
              cases v with
              | map properties =>
                have hc : compilePropertiesWith (createSchemaFuel lib fuel) properties =
                    some (compileProperties lib properties) := by
                  apply compilePropertiesWith_eq
                  intro key prop hm
                  apply ih
                  have := depth_nestedProperty prop values ⟨properties, key, hl, hm⟩
                  omega
                simp only [hc]
                cases compileProperties lib properties with
                | panic msg => rfl
                | ret rs => cases rs <;> rfl
              | _ => rfl
          · rfl

/-- C25: `createSchemaFromJSON` terminates on every raw schema.  The relation
between the argument of a recursive call and the argument of its caller, a
mapping held by the `"properties"` entry of the caller's argument, is well
founded, and the nesting depth strictly decreases along it; the loop over
`properties` makes its recursive calls on such mappings only; and run with
any budget of nested calls that is at least the nesting depth of the raw
schema, the code returns, and returns the value of the function
`createSchemaFromJSON`, which is defined by well-founded recursion. -/
theorem createSchemaFromJSON_terminates (lib : Lib) :
    WellFounded nestedProperty ∧
    (∀ prop values, nestedProperty prop values →
      (Any.map prop).depth < (Any.map values).depth) ∧
    (∀ (f g : List (String × Any) → Option (Go (Except String Schema))) properties,
      (∀ key prop, (key, Any.map prop) ∈ properties → f prop = g prop) →
      compilePropertiesWith f properties = compilePropertiesWith g properties) ∧
    ∀ values : List (String × Any), ∀ fuel, (Any.map values).depth ≤ fuel →
      createSchemaFuel lib fuel values = some (createSchemaFromJSON lib values) := by
  refine ⟨nestedProperty_wf, ?_, compilePropertiesWith_congr, fun values fuel h =>
    createSchemaFuel_eq lib fuel values h⟩
  intro prop values h
  have := depth_nestedProperty prop values h
  omega

/-! ## Multiples of an integer -/

/-- Rounding leaves a whole number as it is. -/
theorem roundHalfEven_intCast (m : Int) : roundHalfEven (m : ℚ) = m := by
  simp [roundHalfEven]

/-- Rounding moves a number by at most one half. -/
theorem roundHalfEven_near (x : ℚ) : |(roundHalfEven x : ℚ) - x| ≤ 1 / 2 := by
  have h0 : (0 : ℚ) ≤ x - ⌊x⌋ := sub_nonneg.mpr (Int.floor_le x)
  have h1 : x - ⌊x⌋ < 1 := by
    have := Int.lt_floor_add_one x
    linarith
  unfold roundHalfEven
  simp only
  split_ifs with ha hb hc
  · rw [abs_le]
    constructor <;> linarith
  · rw [abs_le]
    push_cast
    constructor <;> linarith
  · rw [abs_le]
    constructor <;> linarith
  · rw [abs_le]
    push_cast
    constructor <;> linarith

/-- The binary logarithm of a positive rational between two powers of two. -/
theorem log_two_eq (r : ℚ) (n : Int) (h1 : (2 : ℚ) ^ n ≤ r) (h2 : r < (2 : ℚ) ^ (n + 1)) :
    Int.log 2 r = n := by
  have hr : 0 < r := lt_of_lt_of_le (by positivity) h1
  have a : n ≤ Int.log 2 r := by
    rw [← Int.zpow_le_iff_le_log (by norm_num) hr]
    simpa using h1
  have b : Int.log 2 r < n + 1 := by
    rw [← Int.lt_zpow_iff_log_lt (by norm_num) hr]
    simpa using h2
  omega

/-- A power of two below a positive rational bounds its binary logarithm. -/
theorem le_log_two (r : ℚ) (n : Int) (hr : 0 < r) (h1 : (2 : ℚ) ^ n ≤ r) : n ≤ Int.log 2 r := by
  rw [← Int.zpow_le_iff_le_log (by norm_num) hr]
  simpa using h1

/-- The power of two of its binary logarithm lies below a positive rational. -/
theorem two_zpow_log_le (r : ℚ) (hr : 0 < r) : (2 : ℚ) ^ Int.log 2 r ≤ r := by
  simpa using Int.zpow_log_le_self (b := 2) (by norm_num) hr

/-- A positive rational lies below the next power of two after its binary logarithm. -/
theorem lt_two_zpow_log (r : ℚ) : r < (2 : ℚ) ^ (Int.log 2 r + 1) := by
  simpa using Int.lt_zpow_succ_log_self (b := 2) (by norm_num) r

/-- A number that is a whole multiple of the spacing of the doubles around it
is a double: rounding returns it. -/
theorem roundFloat64_exact (q : ℚ) (m : Int) (hq : q ≠ 0)
    (hm : q / (2 : ℚ) ^ (max (Int.log 2 |q|) (-1022) - 52) = m)
    (hb : |q| < (2 : ℚ) ^ (1024 : Int)) : roundFloat64 q = some q := by
  have hu : (2 : ℚ) ^ (max (Int.log 2 |q|) (-1022) - 52) ≠ 0 := by positivity
  have hr : ((roundHalfEven (q / (2 : ℚ) ^ (max (Int.log 2 |q|) (-1022) - 52)) : Int) : ℚ) *
      (2 : ℚ) ^ (max (Int.log 2 |q|) (-1022) - 52) = q := by
    rw [hm, roundHalfEven_intCast, ← hm, div_mul_cancel₀ _ hu]
  simp only [roundFloat64, hq, if_false, hr, hb, if_true]

/-- A whole number below 2^53 in absolute value is a double. -/
theorem roundFloat64_intCast (k : Int) (hk : |k| < 2 ^ 53) :
    roundFloat64 (k : ℚ) = some (k : ℚ) := by
  by_cases h0 : k = 0
  · subst h0
    simp [roundFloat64]
  have hq : (k : ℚ) ≠ 0 := by exact_mod_cast h0
  have habs : (1 : ℚ) ≤ |(k : ℚ)| := by
    have : (1 : Int) ≤ |k| := Int.one_le_abs h0
    exact_mod_cast this
  have hlt : |(k : ℚ)| < (2 : ℚ) ^ (53 : Int) := by
    have h1 : ((|k| : Int) : ℚ) < ((2 ^ 53 : Int) : ℚ) := by exact_mod_cast hk
    have h2 : (2 : ℚ) ^ (53 : Int) = ((2 ^ 53 : Int) : ℚ) := by norm_num
    rw [h2, ← Int.cast_abs]
    exact h1
  have hpos : (0 : ℚ) < |(k : ℚ)| := lt_of_lt_of_le one_pos habs
  have hlo : 0 ≤ Int.log 2 |(k : ℚ)| := le_log_two _ 0 hpos (by simpa using habs)
  have hhi : Int.log 2 |(k : ℚ)| < 53 := by
    rw [← Int.lt_zpow_iff_log_lt (by norm_num) hpos]
    simpa using hlt
  have hmax : max (Int.log 2 |(k : ℚ)|) (-1022) = Int.log 2 |(k : ℚ)| := by
    apply max_eq_left
    omega
  obtain ⟨n, hn⟩ : ∃ n : Nat, (52 : Int) - Int.log 2 |(k : ℚ)| = n :=
    ⟨(52 - Int.log 2 |(k : ℚ)|).toNat, by omega⟩
  have he : Int.log 2 |(k : ℚ)| - 52 = -(n : Int) := by omega
  apply roundFloat64_exact (k : ℚ) (k * 2 ^ n) hq
  · rw [hmax, he, zpow_neg, zpow_natCast, div_inv_eq_mul]
    push_cast
    rfl
  · exact hlt.trans (by norm_num)

/-- Rounding a number that is not below the normal doubles moves it by at most
2^-53 of its size. -/
theorem roundFloat64_near (q r : ℚ) (hq : (2 : ℚ) ^ (-1022 : Int) ≤ |q|)
    (h : roundFloat64 q = some r) : |r - q| ≤ |q| / 2 ^ 53 := by
  have hpos : (0 : ℚ) < |q| := lt_of_lt_of_le (by positivity) hq
  have hq0 : q ≠ 0 := abs_pos.mp hpos
  have hlog : -1022 ≤ Int.log 2 |q| := le_log_two _ _ hpos hq
  have hmax : max (Int.log 2 |q|) (-1022) = Int.log 2 |q| := max_eq_left hlog
  simp only [roundFloat64, hq0, if_false, hmax] at h
  split_ifs at h
  simp only [Option.some.injEq] at h
  have hle := two_zpow_log_le |q| hpos
  have e2 : (2 : ℚ) ^ (Int.log 2 |q| - 52) = (2 : ℚ) ^ Int.log 2 |q| / 2 ^ 52 := by
    rw [zpow_sub₀ (by norm_num)]
    norm_num
  generalize (2 : ℚ) ^ (Int.log 2 |q| - 52) = u at h e2
  have hu : (0 : ℚ) < u := by
    rw [e2]
    positivity
  have hu2 : u ≤ |q| / 2 ^ 52 := by
    rw [e2]
    exact div_le_div_of_nonneg_right hle (by positivity)
  have hnear := roundHalfEven_near (q / u)
  have e1 : r - q = ((roundHalfEven (q / u) : ℚ) - q / u) * u := by
    rw [← h, sub_mul, div_mul_cancel₀ _ hu.ne']
  rw [e1, abs_mul, abs_of_pos hu]
  calc |((roundHalfEven (q / u) : ℚ) - q / u)| * u
      ≤ 1 / 2 * u := mul_le_mul_of_nonneg_right hnear hu.le
    _ ≤ 1 / 2 * (|q| / 2 ^ 52) := mul_le_mul_of_nonneg_left hu2 (by norm_num)
    _ = |q| / 2 ^ 53 := by ring

/-- For a target below 2^53 in absolute value, the float quotient by a
non-zero divisor of the range of `int` is a whole number of that range exactly
when the divisor divides the target. -/
theorem float64Div_whole_iff (t d : Int) (ht : |t| < 2 ^ 53) (hd0 : d ≠ 0) (hd : inInt64 d) :
    (∃ check, float64Div (t : ℚ) (d : ℚ) = some check ∧
      float64OfInt (intOfFloat64 check) = check) ↔ d ∣ t := by
  have hdq : (d : ℚ) ≠ 0 := by exact_mod_cast hd0
  have hdpos : (0 : ℚ) < |(d : ℚ)| := abs_pos.mpr hdq
  constructor
  · rintro ⟨check, hc, hw⟩
    by_contra hnd
    simp only [float64Div, hdq, if_false] at hc
    have ht0 : t ≠ 0 := fun h => hnd (h ▸ dvd_zero d)
    -- the quotient is not below the normal doubles
    have hd63 : |(d : ℚ)| ≤ 2 ^ 63 := by
      have : |d| ≤ 2 ^ 63 := by
        unfold inInt64 at hd
        rw [abs_le]
        constructor <;> omega
      have h2 : ((|d| : Int) : ℚ) ≤ ((2 ^ 63 : Int) : ℚ) := by exact_mod_cast this
      rw [Int.cast_abs] at h2
      simpa using h2
    have ht1 : (1 : ℚ) ≤ |(t : ℚ)| := by
      have : (1 : Int) ≤ |t| := Int.one_le_abs ht0
      rw [← Int.cast_abs]
      exact_mod_cast this
    have ht53 : |(t : ℚ)| < 2 ^ 53 := by
      have h2 : ((|t| : Int) : ℚ) < ((2 ^ 53 : Int) : ℚ) := by exact_mod_cast ht
      rw [Int.cast_abs] at h2
      simpa using h2
    have hq : |(t : ℚ) / d| = |(t : ℚ)| / |(d : ℚ)| := abs_div _ _
    have hlow : (2 : ℚ) ^ (-1022 : Int) ≤ |(t : ℚ) / d| := by
      rw [hq, le_div_iff₀ hdpos]
      calc (2 : ℚ) ^ (-1022 : Int) * |(d : ℚ)| ≤ (2 : ℚ) ^ (-1022 : Int) * 2 ^ 63 :=
            mul_le_mul_of_nonneg_left hd63 (by positivity)
        _ ≤ 1 := by
            rw [show (2 : ℚ) ^ (-1022 : Int) * 2 ^ 63 = (2 : ℚ) ^ (-959 : Int) by
              rw [← zpow_natCast, ← zpow_add₀ (by norm_num)]
              norm_num]
            exact zpow_le_one_of_nonpos₀ (by norm_num) (by norm_num)
        _ ≤ |(t : ℚ)| := ht1
    have hnear := roundFloat64_near _ _ hlow hc
    -- a whole result would lie too far from the quotient
    obtain ⟨n, -, hn⟩ := (whole_iff check).mp hw
    have hne : n * d - t ≠ 0 := by
      intro h
      exact hnd ⟨n, by linarith [mul_comm n d]⟩
    have hfar : 1 / |(d : ℚ)| ≤ |check - (t : ℚ) / d| := by
      have e : check - (t : ℚ) / d = ((n * d - t : Int) : ℚ) / d := by
        rw [hn]
        push_cast
        field_simp
      rw [e, abs_div]
      apply div_le_div_of_nonneg_right _ hdpos.le
      have : (1 : Int) ≤ |n * d - t| := Int.one_le_abs hne
      rw [← Int.cast_abs]
      exact_mod_cast this
    have hclose : |(t : ℚ) / d| / 2 ^ 53 < 1 / |(d : ℚ)| := by
      rw [hq, div_div, div_lt_div_iff₀ (by positivity) hdpos]
      calc |(t : ℚ)| * |(d : ℚ)| < 2 ^ 53 * |(d : ℚ)| :=
            mul_lt_mul_of_pos_right ht53 hdpos
        _ = 1 * (|(d : ℚ)| * 2 ^ 53) := by ring
    linarith
  · rintro ⟨k, rfl⟩
    have hk : |k| < 2 ^ 53 := by
      have h1 : |d * k| = |d| * |k| := abs_mul d k
      have h2 : (1 : Int) ≤ |d| := Int.one_le_abs hd0
      have h3 : 0 ≤ |k| := abs_nonneg k
      nlinarith
    have hkr : inInt64 k := by
      unfold inInt64
      rw [abs_lt] at hk
      constructor <;> omega
    refine ⟨(k : ℚ), ?_, whole_intCast k hkr⟩
    have e : ((d * k : Int) : ℚ) / d = k := by
      push_cast
      field_simp
    simp only [float64Div, hdq, if_false, e]
    exact roundFloat64_intCast k hk

/-- The predicate of `multipleOf` of an integer schema on targets below 2^53
in absolute value. -/
theorem multipleOfInteger_divides (d : Int) (hd0 : d ≠ 0) (hd : inInt64 d) :
    ∃ f, multipleOfInteger (wholeBound d) = .ret (.ok f) ∧
      ∀ t : Int, |t| < 2 ^ 53 →
        (f (.int t) = .ret none ↔ d ∣ t) ∧ ∃ r, f (.int t) = .ret r := by
  have hw := whole_intCast d hd
  simp only [multipleOfInteger, wholeBound, hw, ne_eq, not_true_eq_false, if_false]
  refine ⟨_, rfl, ?_⟩
  intro t ht
  have hiff := float64Div_whole_iff t d ht hd0 hd
  simp only [float64OfInt]
  cases hdiv : float64Div (t : ℚ) (d : ℚ) with
  | none =>
    rw [hdiv] at hiff
    simp only [reduceCtorEq, false_and, exists_const, false_iff] at hiff
    simp [hiff]
  | some check =>
    rw [hdiv] at hiff
    simp only [Option.some.injEq, exists_eq_left', float64OfInt] at hiff
    by_cases hc : ((intOfFloat64 check : Int) : ℚ) = check
    · simp [hc, hiff.mp hc]
    · have : ¬ d ∣ t := fun h => hc (hiff.mpr h)
      simp [hc, this]

/-- C23 (as amended): for every integer target `t` below 2^53 in absolute
value and every non-zero integer divisor `d` of the signed 64 bit range, the
integer schema with `multipleOf` `d` compiles, validation of `t` returns, and
it accepts `t` exactly when `d` divides `t`. -/
theorem multipleOf_integer_accepts_iff_divides (lib : Lib) (t d : Int) (ht : |t| < 2 ^ 53)
    (hd0 : d ≠ 0) (hd : inInt64 d) :
    ∃ s, createSchemaFromJSON lib [("type", .string "integer"), ("multipleOf", wholeBound d)] =
        .ret (.ok s) ∧
      (validate (.float64 t) s = .ret none ↔ d ∣ t) ∧
      ∃ r, validate (.float64 t) s = .ret r := by
  obtain ⟨f, hf, hfx⟩ := multipleOfInteger_divides d hd0 hd
  have htr : inInt64 t := by
    unfold inInt64
    rw [abs_lt] at ht
    constructor <;> omega
  have hT : validateValueType "integer" = true := by simp [validateValueType]
  have hh : handedTarget "integer" (.float64 (t : ℚ)) = .int t := by
    simp [handedTarget, intOfFloat64_intCast t htr]
  refine ⟨Schema.mk "integer" [("multipleOf", f)] [], ?_, ?_, ?_⟩
  · simp [createSchemaFromJSON_eq, getValueType, validateValueType, getValidation,
      validations, integerValidation, getValidationLoop, List.lookup, hf]
  · rw [validate_iff_predicates "integer" _ _ _ hT (by simp)]
    simp only [List.mem_singleton, forall_eq, hh, (hfx t ht).1, and_iff_right_iff_imp]
    exact fun _ => typeMatches_integer_cast t htr
  · apply validate_total
    intro p hp
    simp only [List.mem_singleton] at hp
    subst hp
    rw [hh]
    exact (hfx t ht).2

/-- Rounding a number that lies less than one half above a whole number
yields that whole number. -/
theorem roundHalfEven_of_floor (x : ℚ) (f : Int) (h1 : (f : ℚ) ≤ x) (h2 : x - f < 1 / 2) :
    roundHalfEven x = f := by
  have hf : ⌊x⌋ = f := by
    rw [Int.floor_eq_iff]
    constructor
    · exact h1
    · linarith
  simp only [roundHalfEven, hf]
  rw [if_pos h2]

/-- The predicate of `multipleOf` of an integer schema passes when the float
quotient is a whole number of the range of `int`. -/
theorem multipleOfInteger_of_whole (d : Int) (hd : inInt64 d) :
    ∃ f, multipleOfInteger (wholeBound d) = .ret (.ok f) ∧
      ∀ (t : Int) (check : ℚ), float64Div (t : ℚ) (d : ℚ) = some check →
        float64OfInt (intOfFloat64 check) = check → f (.int t) = .ret none := by
  have hw := whole_intCast d hd
  simp only [multipleOfInteger, wholeBound, hw, ne_eq, not_true_eq_false, if_false]
  refine ⟨_, rfl, ?_⟩
  intro t check hc hwc
  simp only [float64OfInt] at hwc ⊢
  simp [hc, hwc]

/-- The float quotient of 2^55 by 3 is the whole number 12009599006321322. -/
theorem float64Div_two_pow_55_three :
    float64Div (((2 ^ 55 : Int) : Int) : ℚ) ((3 : Int) : ℚ) = some ((12009599006321322 : Int) : ℚ) := by
  have hq : (((2 ^ 55 : Int) : Int) : ℚ) / ((3 : Int) : ℚ) = 36028797018963968 / 3 := by norm_num
  have hlog : Int.log 2 |(36028797018963968 / 3 : ℚ)| = 53 := by
    apply log_two_eq
    · rw [abs_of_pos (by norm_num)]
      norm_num
    · rw [abs_of_pos (by norm_num)]
      norm_num
  have hr : roundHalfEven (18014398509481984 / 3 : ℚ) = 6004799503160661 := by
    apply roundHalfEven_of_floor <;> norm_num
  have h3 : ((3 : Int) : ℚ) ≠ 0 := by norm_num
  simp only [float64Div, h3, if_false, hq, roundFloat64, hlog]
  norm_num [hr]


/-- C23, witness: the integer schema with `multipleOf` 3 accepts 6. -/
theorem multipleOf_integer_accepts_iff_divides_witness :
    |(6 : Int)| < 2 ^ 53 ∧ (3 : Int) ≠ 0 ∧ inInt64 3 ∧
    ∃ s, createSchemaFromJSON plainLib
        [("type", .string "integer"), ("multipleOf", wholeBound 3)] = .ret (.ok s) ∧
      validate (.float64 ((6 : Int) : ℚ)) s = .ret none := by
  have h3 : inInt64 3 := by unfold inInt64; norm_num
  obtain ⟨s, hs, hiff, -⟩ := multipleOf_integer_accepts_iff_divides plainLib 6 3
    (by norm_num) (by norm_num) h3
  exact ⟨by norm_num, by norm_num, h3, s, hs, hiff.mpr (by norm_num)⟩

/-- C23, counterexample: 3 does not divide 2^55, both are whole numbers of the
signed 64 bit range that doubles represent exactly, and the integer schema
with `multipleOf` 3 accepts 2^55: the float quotient is rounded to the whole
number 12009599006321322. -/
theorem multipleOf_integer_accepts_large_non_multiple :
    ¬ (3 : Int) ∣ 2 ^ 55 ∧ inInt64 3 ∧ inInt64 (2 ^ 55) ∧
    ∃ s, createSchemaFromJSON plainLib
        [("type", .string "integer"), ("multipleOf", wholeBound 3)] = .ret (.ok s) ∧
      validate (.float64 ((2 ^ 55 : Int) : ℚ)) s = .ret none := by
  have h3 : inInt64 3 := by unfold inInt64; norm_num
  have h55 : inInt64 (2 ^ 55) := by unfold inInt64; norm_num
  have hT : validateValueType "integer" = true := by simp [validateValueType]
  obtain ⟨f, hf, hfx⟩ := multipleOfInteger_of_whole 3 h3
  have hpass : f (.int (2 ^ 55)) = .ret none :=
    hfx (2 ^ 55) _ float64Div_two_pow_55_three
      (whole_intCast 12009599006321322 (by unfold inInt64; norm_num))
  have hh : handedTarget "integer" (.float64 ((2 ^ 55 : Int) : ℚ)) = .int (2 ^ 55) := by
    simp only [handedTarget, ValueType.Integer, if_true, intOfFloat64_intCast _ h55]
  refine ⟨by norm_num, h3, h55, Schema.mk "integer" [("multipleOf", f)] [], ?_, ?_⟩
  · simp [createSchemaFromJSON_eq, getValueType, validateValueType, getValidation,
      validations, integerValidation, getValidationLoop, List.lookup, hf]
  · rw [validate_iff_predicates "integer" _ _ _ hT (by simp)]
    refine ⟨typeMatches_integer_cast _ h55, ?_⟩
    intro p hp
    simp only [List.mem_singleton] at hp
    subst hp
    rw [hh]
    exact hpass


/-! ## Inclusive bounds through the compiled schema -/

/-- From a builder to the schema with its keyword alone: when the builder
decides `accept` and returns unnamed errors, validation against the schema
compiled from the type and the keyword decides `accept` and names the keyword
in its error. -/
theorem schemaDecides_of_decides {α α' β : Type} (lib : Lib) (T : ValueType) (name : String)
    (b : rawValidateFunc) (cfg : β → Any) (good : β → Prop) (inj : α → Any)
    (accept : β → α → Prop) (target : α' → Any) (g : α' → α)
    (hd : Decides b cfg good inj accept) (hu : UnnamedBuilder b)
    (hT : validateValueType T = true) (hnn : T ≠ "null")
    (hc : ∀ c f, b c = .ret (.ok f) →
      createSchemaFromJSON lib [("type", .string T), (name, c)] =
        .ret (.ok (Schema.mk T [(name, f)] [])))
    (hm : ∀ x, typeMatches T (target x) ∧ handedTarget T (target x) = inj (g x)) :
    SchemaDecides lib T name cfg good target (fun n x => accept n (g x)) := by
  intro n hn
  obtain ⟨f, hf, hfx⟩ := hd.2 n hn
  refine ⟨_, hc _ f hf, fun x => ?_⟩
  obtain ⟨hmx, hhx⟩ := hm x
  have hiff : validate (target x) (Schema.mk T [(name, f)] []) = .ret none ↔
      accept n (g x) := by
    rw [validate_iff_predicates T _ _ _ hT (fun h => absurd h hnn)]
    simp only [List.mem_singleton, forall_eq, hhx, (hfx (g x)).1, and_iff_right_iff_imp]
    exact fun _ => hmx
  refine ⟨hiff, fun hna => ?_⟩
  obtain ⟨e₀, he₀⟩ := (hfx (g x)).2 hna
  obtain ⟨r, hr⟩ := validate_total T [(name, f)] [] (target x) (by
    intro p hp
    simp only [List.mem_singleton] at hp
    subst hp
    rw [hhx]
    exact ⟨_, he₀⟩)
  cases r with
  | none => exact absurd (hiff.mp hr) hna
  | some e =>
    refine ⟨e, hr, ?_⟩
    rcases validate_error_cases _ _ _ _ _ hr with h | ⟨-, hl⟩
    · exact absurd hmx h.1
    · obtain ⟨q, hq, e₁, hq1, rfl⟩ := validateValueLoop_error _ _ _ hl
      simp only [List.mem_singleton] at hq
      subst hq
      have hun : e₁.name = "" := hu _ f hf _ e₁ hq1
      simp [Error.SetName, hun]

/-- The raw schema that holds the type string and `maxLength` compiles to the node
with the predicate of the builder. -/
theorem createSchema_string_maxLength (lib : Lib) (c : Any) (f : validateFunc)
    (h : maxLength c = .ret (.ok f)) :
    createSchemaFromJSON lib [("type", .string "string"), ("maxLength", c)] =
      .ret (.ok (Schema.mk "string" [("maxLength", f)] [])) := by
  simp [createSchemaFromJSON_eq, getValueType, validateValueType, getValidation, validations,
    stringValidation, getValidationLoop, List.lookup, h]

/-- The raw schema that holds the type string and `minLength` compiles to the node
with the predicate of the builder. -/
theorem createSchema_string_minLength (lib : Lib) (c : Any) (f : validateFunc)
    (h : minLength c = .ret (.ok f)) :
    createSchemaFromJSON lib [("type", .string "string"), ("minLength", c)] =
      .ret (.ok (Schema.mk "string" [("minLength", f)] [])) := by
  simp [createSchemaFromJSON_eq, getValueType, validateValueType, getValidation, validations,
    stringValidation, getValidationLoop, List.lookup, h]

/-- The raw schema that holds the type array and `maxItems` compiles to the node
with the predicate of the builder. -/
theorem createSchema_array_maxItems (lib : Lib) (c : Any) (f : validateFunc)
    (h : maxItems c = .ret (.ok f)) :
    createSchemaFromJSON lib [("type", .string "array"), ("maxItems", c)] =
      .ret (.ok (Schema.mk "array" [("maxItems", f)] [])) := by
  simp [createSchemaFromJSON_eq, getValueType, validateValueType, getValidation, validations,
    sliceValidation, getValidationLoop, List.lookup, h]

/-- The raw schema that holds the type array and `minItems` compiles to the node
with the predicate of the builder. -/
theorem createSchema_array_minItems (lib : Lib) (c : Any) (f : validateFunc)
    (h : minItems c = .ret (.ok f)) :
    createSchemaFromJSON lib [("type", .string "array"), ("minItems", c)] =
      .ret (.ok (Schema.mk "array" [("minItems", f)] [])) := by
  simp [createSchemaFromJSON_eq, getValueType, validateValueType, getValidation, validations,
    sliceValidation, getValidationLoop, List.lookup, h]

/-- The raw schema that holds the type object and `maxProperties` compiles to the node
with the predicate of the builder. -/
theorem createSchema_object_maxProperties (lib : Lib) (c : Any) (f : validateFunc)
    (h : maxProperties c = .ret (.ok f)) :
    createSchemaFromJSON lib [("type", .string "object"), ("maxProperties", c)] =
      .ret (.ok (Schema.mk "object" [("maxProperties", f)] [])) := by
  simp [createSchemaFromJSON_eq, getValueType, validateValueType, getValidation, validations,
    objectValidation, getValidationLoop, List.lookup, h]

/-- The raw schema that holds the type object and `minProperties` compiles to the node
with the predicate of the builder. -/
theorem createSchema_object_minProperties (lib : Lib) (c : Any) (f : validateFunc)
    (h : minProperties c = .ret (.ok f)) :
    createSchemaFromJSON lib [("type", .string "object"), ("minProperties", c)] =
      .ret (.ok (Schema.mk "object" [("minProperties", f)] [])) := by
  simp [createSchemaFromJSON_eq, getValueType, validateValueType, getValidation, validations,
    objectValidation, getValidationLoop, List.lookup, h]

/-- The raw schema that holds the type number and `maximum` compiles to the node
with the predicate of the builder. -/
theorem createSchema_number_maximum (lib : Lib) (c : Any) (f : validateFunc)
    (h : maximum c = .ret (.ok f)) :
    createSchemaFromJSON lib [("type", .string "number"), ("maximum", c)] =
      .ret (.ok (Schema.mk "number" [("maximum", f)] [])) := by
  simp [createSchemaFromJSON_eq, getValueType, validateValueType, getValidation, validations,
    numberValidation, getValidationLoop, List.lookup, h]

/-- The raw schema that holds the type number and `minimum` compiles to the node
with the predicate of the builder. -/
theorem createSchema_number_minimum (lib : Lib) (c : Any) (f : validateFunc)
    (h : minimum c = .ret (.ok f)) :
    createSchemaFromJSON lib [("type", .string "number"), ("minimum", c)] =
      .ret (.ok (Schema.mk "number" [("minimum", f)] [])) := by
  simp [createSchemaFromJSON_eq, getValueType, validateValueType, getValidation, validations,
    numberValidation, getValidationLoop, List.lookup, h]

/-- The raw schema that holds the type integer and `maximum` compiles to the node
with the predicate of the builder. -/
theorem createSchema_integer_maximum (lib : Lib) (c : Any) (f : validateFunc)
    (h : maximumInteger c = .ret (.ok f)) :
    createSchemaFromJSON lib [("type", .string "integer"), ("maximum", c)] =
      .ret (.ok (Schema.mk "integer" [("maximum", f)] [])) := by
  simp [createSchemaFromJSON_eq, getValueType, validateValueType, getValidation, validations,
    integerValidation, getValidationLoop, List.lookup, h]

/-- The raw schema that holds the type integer and `minimum` compiles to the node
with the predicate of the builder. -/
theorem createSchema_integer_minimum (lib : Lib) (c : Any) (f : validateFunc)
    (h : minimumInteger c = .ret (.ok f)) :
    createSchemaFromJSON lib [("type", .string "integer"), ("minimum", c)] =
      .ret (.ok (Schema.mk "integer" [("minimum", f)] [])) := by
  simp [createSchemaFromJSON_eq, getValueType, validateValueType, getValidation, validations,
    integerValidation, getValidationLoop, List.lookup, h]


/-- The value handed to the predicates of an integer node for a whole float of
the range. -/
theorem handedTarget_integer_cast (m : Int) (hm : inInt64 m) :
    handedTarget "integer" (.float64 (m : ℚ)) = .int m := by
  simp [handedTarget, intOfFloat64_intCast m hm]

/-- C4 (as amended): the eight bound keywords are inclusive for the bounds of
the signed 64-bit range.  `maxLength` and `minLength` compile exactly the
whole-number bounds of that range and accept an ASCII string when its length is
at most, respectively at least, the bound; `maxItems` and `minItems` do so on
the number of elements of an array, `maxProperties` and `minProperties` on the
number of keys of an object; `maximum` and `minimum` accept a number for every
bound, and in the integer registry a whole target of that range for every
whole bound of that range, when it is at most, respectively at least, the
bound.  This holds for the builders and for validation against the schema
compiled from the type and the keyword, where a rejected target yields an
error that names the keyword.  For example the string schema with `maxLength`
3 accepts "abc" and rejects "abcd", naming the keyword. -/
theorem bound_keywords_inclusive :
    (Decides maxLength wholeBound inInt64 asciiTarget (fun n s => (s.1.length : Int) ≤ n) ∧
     Decides minLength wholeBound inInt64 asciiTarget (fun n s => n ≤ (s.1.length : Int)) ∧
     Decides maxItems wholeBound inInt64 Any.slice (fun n xs => (xs.length : Int) ≤ n) ∧
     Decides minItems wholeBound inInt64 Any.slice (fun n xs => n ≤ (xs.length : Int)) ∧
     Decides maxProperties wholeBound inInt64 Any.map (fun n kvs => (kvs.length : Int) ≤ n) ∧
     Decides minProperties wholeBound inInt64 Any.map (fun n kvs => n ≤ (kvs.length : Int)) ∧
     Decides maximum Any.float64 (fun _ => True) Any.float64 (fun b t => t ≤ b) ∧
     Decides minimum Any.float64 (fun _ => True) Any.float64 (fun b t => b ≤ t) ∧
     Decides maximumInteger wholeBound inInt64 Any.int (fun n t => t ≤ n) ∧
     Decides minimumInteger wholeBound inInt64 Any.int (fun n t => n ≤ t)) ∧
    (∀ lib : Lib,
      SchemaDecides lib "string" "maxLength" wholeBound inInt64 asciiTarget
        (fun n s => (s.1.length : Int) ≤ n) ∧
      SchemaDecides lib "string" "minLength" wholeBound inInt64 asciiTarget
        (fun n s => n ≤ (s.1.length : Int)) ∧
      SchemaDecides lib "array" "maxItems" wholeBound inInt64 Any.slice
        (fun n xs => (xs.length : Int) ≤ n) ∧
      SchemaDecides lib "array" "minItems" wholeBound inInt64 Any.slice
        (fun n xs => n ≤ (xs.length : Int)) ∧
      SchemaDecides lib "object" "maxProperties" wholeBound inInt64 Any.map
        (fun n kvs => (kvs.length : Int) ≤ n) ∧
      SchemaDecides lib "object" "minProperties" wholeBound inInt64 Any.map
        (fun n kvs => n ≤ (kvs.length : Int)) ∧
      SchemaDecides lib "number" "maximum" Any.float64 (fun _ => True) Any.float64
        (fun b t => t ≤ b) ∧
      SchemaDecides lib "number" "minimum" Any.float64 (fun _ => True) Any.float64
        (fun b t => b ≤ t) ∧
      SchemaDecides lib "integer" "maximum" wholeBound inInt64 wholeTarget
        (fun n m => m.1 ≤ n) ∧
      SchemaDecides lib "integer" "minimum" wholeBound inInt64 wholeTarget
        (fun n m => n ≤ m.1)) ∧
    ∃ s, createSchemaFromJSON plainLib [("type", .string "string"), ("maxLength", .float64 3)] =
        .ret (.ok s) ∧
      validate (.string "abc") s = .ret none ∧
      validate (.string "abcd") s = .ret (some ⟨.int 3, .int 4, "maxLength"⟩) := by
  refine ⟨⟨maxLength_decides, minLength_decides, maxItems_decides, minItems_decides,
    maxProperties_decides, minProperties_decides, maximum_decides, minimum_decides,
    maximumInteger_decides, minimumInteger_decides⟩, fun lib => ⟨?_, ?_, ?_, ?_, ?_, ?_, ?_, ?_,
    ?_, ?_⟩, ?_⟩
  · exact schemaDecides_of_decides lib "string" "maxLength" maxLength _ _ _ _ asciiTarget id
      maxLength_decides maxLength_unnamed (by decide) (by decide)
      (createSchema_string_maxLength lib) (fun x => ⟨rfl, rfl⟩)
  · exact schemaDecides_of_decides lib "string" "minLength" minLength _ _ _ _ asciiTarget id
      minLength_decides minLength_unnamed (by decide) (by decide)
      (createSchema_string_minLength lib) (fun x => ⟨rfl, rfl⟩)
  · exact schemaDecides_of_decides lib "array" "maxItems" maxItems _ _ _ _ Any.slice id
      maxItems_decides maxItems_unnamed (by decide) (by decide)
      (createSchema_array_maxItems lib) (fun x => ⟨rfl, rfl⟩)
  · exact schemaDecides_of_decides lib "array" "minItems" minItems _ _ _ _ Any.slice id
      minItems_decides minItems_unnamed (by decide) (by decide)
      (createSchema_array_minItems lib) (fun x => ⟨rfl, rfl⟩)
  · exact schemaDecides_of_decides lib "object" "maxProperties" maxProperties _ _ _ _ Any.map id
      maxProperties_decides maxProperties_unnamed (by decide) (by decide)
      (createSchema_object_maxProperties lib) (fun x => ⟨rfl, rfl⟩)
  · exact schemaDecides_of_decides lib "object" "minProperties" minProperties _ _ _ _ Any.map id
      minProperties_decides minProperties_unnamed (by decide) (by decide)
      (createSchema_object_minProperties lib) (fun x => ⟨rfl, rfl⟩)
  · exact schemaDecides_of_decides lib "number" "maximum" maximum _ _ _ _ Any.float64 id
      maximum_decides maximum_unnamed (by decide) (by decide)
      (createSchema_number_maximum lib) (fun x => ⟨Or.inl rfl, by simp [handedTarget]⟩)
  · exact schemaDecides_of_decides lib "number" "minimum" minimum _ _ _ _ Any.float64 id
      minimum_decides minimum_unnamed (by decide) (by decide)
      (createSchema_number_minimum lib) (fun x => ⟨Or.inl rfl, by simp [handedTarget]⟩)
  · exact schemaDecides_of_decides lib "integer" "maximum" maximumInteger _ _ _ _ wholeTarget
      Subtype.val maximumInteger_decides maximumInteger_unnamed (by decide) (by decide)
      (createSchema_integer_maximum lib)
      (fun x => ⟨typeMatches_integer_cast x.1 x.2, handedTarget_integer_cast x.1 x.2⟩)
  · exact schemaDecides_of_decides lib "integer" "minimum" minimumInteger _ _ _ _ wholeTarget
      Subtype.val minimumInteger_decides minimumInteger_unnamed (by decide) (by decide)
      (createSchema_integer_minimum lib)
      (fun x => ⟨typeMatches_integer_cast x.1 x.2, handedTarget_integer_cast x.1 x.2⟩)
  · have h3 : float64OfInt (intOfFloat64 3) = 3 := whole_intCast 3 (by unfold inInt64; norm_num)
    have h3' : intOfFloat64 3 = 3 := intOfFloat64_intCast 3 (by unfold inInt64; norm_num)
    refine ⟨_, by simp [createSchemaFromJSON_eq, getValueType, validateValueType, getValidation,
      validations, stringValidation, getValidationLoop, List.lookup, maxLength, h3]; rfl, ?_, ?_⟩
    · have hb : "abc".utf8ByteSize = 3 := by decide
      simp [validate, validateValue, validateValueLoop, Schema.valueType, Schema.validateFunc, h3',
        strLen, hb]
    · have hb : "abcd".utf8ByteSize = 4 := by decide
      simp [validate, validateValue, validateValueLoop, Schema.valueType, Schema.validateFunc, h3',
        strLen, NewError, Error.SetName, hb]

/-- An integer node rejects the float 2^64 whatever its predicates are. -/
theorem validate_integer_two_pow_64_any (fs : List (String × validateFunc))
    (props : List (String × Schema)) :
    validate (.float64 (2 ^ 64)) (Schema.mk "integer" fs props) =
      .ret (some (NewError (.string "int") (.string "float64"))) := by
  simp [validate, Schema.valueType, intOfFloat64_two_pow_64, float64OfInt]
  norm_num

/-- C4, counterexample: the float 2^64 is a whole number and every array has
at most that many elements, yet the array schema with `maxItems` 2^64 does not
compile; and 2^64 is a whole number that is at least 5, yet the integer schema
with `minimum` 5 rejects it, as a value that is not an integer. -/
theorem inclusive_bound_outside_int_range :
    (Int.fract ((2 : ℚ) ^ 64) = 0 ∧ ((([] : List Any).length : Int) : ℚ) ≤ 2 ^ 64 ∧
      createSchemaFromJSON plainLib [("type", .string "array"), ("maxItems", .float64 (2 ^ 64))] =
        .ret (.error "maxItems requires integer")) ∧
    (kindMatches "integer" (.float64 (2 ^ 64)) ∧ (5 : ℚ) ≤ 2 ^ 64 ∧
      ∃ s, createSchemaFromJSON plainLib [("type", .string "integer"), ("minimum", .float64 5)] =
          .ret (.ok s) ∧
        validate (.float64 (2 ^ 64)) s =
          .ret (some (NewError (.string "int") (.string "float64")))) := by
  have hf : Int.fract ((2 : ℚ) ^ 64) = 0 := by
    have h : ((2 : ℚ) ^ 64) = ((2 ^ 64 : Int) : ℚ) := by norm_num
    rw [h]
    exact Int.fract_intCast _
  refine ⟨⟨hf, by norm_num, ?_⟩, Or.inr ⟨rfl, hf⟩, by norm_num, ?_⟩
  · simp [createSchemaFromJSON_eq, getValueType, validateValueType, getValidation,
      validations, sliceValidation, getValidationLoop, List.lookup, maxItems,
      intOfFloat64_two_pow_64, float64OfInt]
    norm_num
  · obtain ⟨f, hf, -⟩ := minimumInteger_decides.2 5 inInt64_five
    have hw : wholeBound 5 = .float64 5 := by simp [wholeBound]
    rw [hw] at hf
    exact ⟨_, createSchema_integer_minimum plainLib _ f hf, validate_integer_two_pow_64_any _ _⟩

/-! ## Exclusive bounds outside the range of int -/

/-- C5, counterexample: the float 2^64 matches the kind integer and is above 5,
yet the integer schema with `exclusiveMinimum` 5 rejects it, as a value that is
not an integer. -/
theorem integer_exclusiveMinimum_rejects_large_whole_float :
    kindMatches "integer" (.float64 (2 ^ 64)) ∧ (5 : ℚ) < 2 ^ 64 ∧
      ∃ s, createSchemaFromJSON plainLib
          [("type", .string "integer"), ("exclusiveMinimum", .float64 5)] = .ret (.ok s) ∧
        validate (.float64 (2 ^ 64)) s =
          .ret (some (NewError (.string "int") (.string "float64"))) := by
  have hf : Int.fract ((2 : ℚ) ^ 64) = 0 := by
    have h : ((2 : ℚ) ^ 64) = ((2 ^ 64 : Int) : ℚ) := by norm_num
    rw [h]
    exact Int.fract_intCast _
  refine ⟨Or.inr ⟨rfl, hf⟩, by norm_num, ?_⟩
  obtain ⟨f, hf, -⟩ := exclusiveMinimumInteger_decides.2 5 inInt64_five
  have hw : wholeBound 5 = .float64 5 := by simp [wholeBound]
  rw [hw] at hf
  refine ⟨Schema.mk "integer" [("exclusiveMinimum", f)] [], ?_, validate_integer_two_pow_64_any _ _⟩
  simp [createSchemaFromJSON_eq, getValueType, validateValueType, getValidation, validations,
    integerValidation, getValidationLoop, List.lookup, hf]

/-! ## The verdict and the order of iteration when a predicate faults -/

/-- C12, the code at the failing inputs.  The array schema with `minItems` 3
and `uniqueItems` true compiles; on the target `[[1]]`, iterating its two
predicates in one order returns the error of `minItems`, and iterating the same
predicates in the opposite order panics in `uniqueItems`.  The object schema
with `required` "a" and `minProperties` 1 compiles; on the target `{}` one
order panics in `required` and the opposite order returns the error of
`minProperties`.  So the two runs neither both accept nor both reject. -/
theorem verdict_depends_on_predicate_order :
    (∃ s, createSchemaFromJSON plainLib
        [("type", .string "array"), ("minItems", .float64 3), ("uniqueItems", .bool true)] =
          .ret (.ok s) ∧
      validate (.slice [.slice [.float64 1]]) s = .ret (some ⟨.int 3, .int 1, "minItems"⟩) ∧
      validate (.slice [.slice [.float64 1]])
        (Schema.mk s.valueType s.validateFunc.reverse s.properties) =
          .panic "hash of unhashable type") ∧
    (∃ s, createSchemaFromJSON plainLib
        [("type", .string "object"), ("required", .string "a"), ("minProperties", .float64 1)] =
          .ret (.ok s) ∧
      validate (.map []) s = .panic "interface conversion" ∧
      validate (.map []) (Schema.mk s.valueType s.validateFunc.reverse s.properties) =
        .ret (some ⟨.int 1, .int 0, "minProperties"⟩)) := by
  have h3 : float64OfInt (intOfFloat64 3) = 3 := whole_intCast 3 (by unfold inInt64; norm_num)
  have h3' : intOfFloat64 3 = 3 := intOfFloat64_intCast 3 (by unfold inInt64; norm_num)
  have h1 : float64OfInt (intOfFloat64 1) = 1 := by
    have := whole_intCast 1 inInt64_one
    simpa using this
  have h1' : intOfFloat64 1 = 1 := by
    have := intOfFloat64_intCast 1 inInt64_one
    simpa using this
  constructor
  · refine ⟨_, by simp [createSchemaFromJSON_eq, getValueType, validateValueType, getValidation,
      validations, sliceValidation, getValidationLoop, List.lookup, minItems, uniqueItems, h3]; rfl,
      ?_, ?_⟩
    · simp [validate, validateValue, validateValueLoop, Schema.valueType, Schema.validateFunc, h3',
        NewError, Error.SetName]
    · simp [validate, validateValue, validateValueLoop, Schema.valueType, Schema.validateFunc,
        uniqueItemsLoop, hashable]
  · refine ⟨_, by simp [createSchemaFromJSON_eq, getValueType, validateValueType, getValidation,
      validations, objectValidation, getValidationLoop, List.lookup, minProperties,
      required, h1]; rfl, ?_, ?_⟩
    · simp [validate, validateValue, validateValueLoop, Schema.valueType, Schema.validateFunc]
    · simp [validate, validateValue, validateValueLoop, Schema.valueType, Schema.validateFunc, h1',
        NewError, Error.SetName]

end JsonSchema
